import Mathlib

/-
Verification of the bitshuffle filter vendored in fsfits
(src/fsfits/bitshuffle/bitshuffle.c).

Shallow embedding conventions:
  * a C byte buffer is a function from byte offsets to byte values
    (`Buf` for the primitives, which index with `size_t` offsets from a
    base pointer; `MBuf`, indexed by `Int`, for the blocked wrappers whose
    cursors move by possibly-negative pointer arithmetic);
  * a C `for` loop that writes disjoint cells becomes `iterFold` over the
    iteration count, each body performing functional updates `wr`;
  * `uint64_t` loads from byte memory are `leWord8` (little-endian, x86),
    `uint8_t` stores of wider values truncate with `% 256`, and the
    64-bit overflowing arithmetic of the TRANS_BIT_8X8 macro is taken
    `% 2 ^ 64`;
  * `malloc` is modelled as always succeeding (scratch buffers start as
    all zeroes); the `-1` ALLOC_FAILED paths are therefore not taken;
  * the build-configuration tri-state (AVX2 / SSE2 / scalar) is embedded
    by compiling the preprocessor-selected branch; the drivers
    `bshuf_trans_bit_elem` / `bshuf_untrans_bit_elem` below embed the
    portable scalar branch (the `#else` arm of lines 1067-1073/1082-1088);
  * LZ4 is an external collaborator: it is a parameter (`LZ4Codec`)
    of the compression workers, constrained only by the documented
    contract hypotheses where a theorem needs them.
-/

namespace Bitshuffle

/-! Buffers and loop combinators. -/

/-- A byte buffer addressed by `size_t` offsets. -/
abbrev Buf := Nat → Nat

/-- A byte buffer addressed by pointer-difference offsets (the blocked
wrappers move cursors by signed amounts). -/
abbrev MBuf := Int → Nat

/-- Functional update of one cell of a buffer (a single C store). -/
def wr (b : Buf) (i v : Nat) : Buf := fun m => if m = i then v else b m

/-- Fold of a loop body over iterations `0, 1, ..., n-1` (in that order),
the shape of every counted C `for` loop in the source. -/
def iterFold {α : Type} : Nat → (Nat → α → α) → α → α
  | 0, _, a => a
  | k + 1, f, a => f k (iterFold k f a)

@[simp] theorem iterFold_zero {α : Type} (f : Nat → α → α) (a : α) :
    iterFold 0 f a = a := rfl

@[simp] theorem iterFold_succ {α : Type} (k : Nat) (f : Nat → α → α) (a : α) :
    iterFold (k + 1) f a = f k (iterFold k f a) := rfl

/-- Reading a cell no iteration writes returns the initial contents. -/
theorem iterFold_get_miss (n : Nat) (body : Nat → Buf → Buf) (b0 : Buf) (m : Nat)
    (h : ∀ q b, q < n → body q b m = b m) :
    iterFold n body b0 m = b0 m := by
  induction n with
  | zero => rfl
  | succ k ih =>
    rw [iterFold_succ, h k _ (by omega)]
    exact ih fun q b hq => h q b (by omega)

/-- Reading a cell written by exactly one iteration, with a value that does
not depend on the accumulated buffer, returns that value. -/
theorem iterFold_get_hit (n : Nat) (body : Nat → Buf → Buf) (b0 : Buf) (m : Nat)
    (q : Nat) (v : Nat) (hq : q < n) (hv : ∀ b, body q b m = v)
    (hmiss : ∀ p b, p < n → p ≠ q → body p b m = b m) :
    iterFold n body b0 m = v := by
  induction n with
  | zero => omega
  | succ k ih =>
    rw [iterFold_succ]
    by_cases hk : q = k
    · subst hk; exact hv _
    · rw [hmiss k _ (by omega) (fun h => hk h.symm)]
      exact ih (by omega) fun p b hp hpq => hmiss p b (by omega) hpq

/-- Invariant preservation along an `iterFold`. -/
theorem iterFold_inv {α : Type} (n : Nat) (f : Nat → α → α) (a0 : α)
    (P : Nat → α → Prop) (h0 : P 0 a0)
    (hstep : ∀ k a, k < n → P k a → P (k + 1) (f k a)) :
    P n (iterFold n f a0) := by
  induction n with
  | zero => exact h0
  | succ k ih =>
    rw [iterFold_succ]
    exact hstep k _ (by omega) (ih fun p a hp => hstep p a (by omega))

/-! Little-endian word loads and byte extraction. -/

/-- Little-endian read of `k` bytes of memory starting at `off` (the
`uint8_t` reinterpretation of each memory cell keeps its low 8 bits). -/
def leBytes : Nat → Buf → Nat → Nat
  | 0, _, _ => 0
  | k + 1, b, off => b off % 256 + 256 * leBytes k b (off + 1)

/-- A `uint64_t` load from byte memory at byte offset `off` (x86 is
little-endian). -/
def leWord8 (b : Buf) (off : Nat) : Nat := leBytes 8 b off

/-- A `uint8_t` store of `w >> (8 * k)`: byte `k` of the word `w`. -/
def byteOfWord (w k : Nat) : Nat := (w >>> (8 * k)) % 256

theorem byteOfWord_lt (w k : Nat) : byteOfWord w k < 256 :=
  Nat.mod_lt _ (by norm_num)

theorem testBit_add_mul256 (a r n : Nat) (ha : a < 256) :
    (a + 256 * r).testBit n = if n < 8 then a.testBit n else r.testBit (n - 8) := by
  rcases Nat.lt_or_ge n 8 with h | h
  · rw [if_pos h]
    have h1 := Nat.testBit_mod_two_pow (a + 256 * r) 8 n
    have h2 := Nat.testBit_mod_two_pow a 8 n
    rw [decide_eq_true h, Bool.true_and] at h1 h2
    have e : (a + 256 * r) % 2 ^ 8 = a % 2 ^ 8 := by
      have : (2 : Nat) ^ 8 = 256 := by norm_num
      rw [this, Nat.add_mul_mod_self_left]
    rw [← h1, ← h2, e]
  · rw [if_neg (by omega)]
    have hsr := Nat.testBit_shiftRight (i := 8) (j := n - 8) (a + 256 * r)
    rw [show (8 : Nat) + (n - 8) = n by omega] at hsr
    rw [← hsr, Nat.shiftRight_eq_div_pow, show (2 : Nat) ^ 8 = 256 by norm_num,
      show (a + 256 * r) / 256 = r by omega]

theorem leBytes_testBit (k : Nat) (b : Buf) (off n : Nat) :
    (leBytes k b off).testBit n =
      if n / 8 < k then (b (off + n / 8)).testBit (n % 8) else false := by
  induction k generalizing off n with
  | zero => simp [leBytes]
  | succ k ih =>
    have ha : b off % 256 < 256 := Nat.mod_lt _ (by norm_num)
    rw [show leBytes (k + 1) b off = b off % 256 + 256 * leBytes k b (off + 1) from rfl,
      testBit_add_mul256 _ _ _ ha]
    rcases Nat.lt_or_ge n 8 with h | h
    · rw [if_pos h, if_pos (by omega), show off + n / 8 = off by omega,
        show n % 8 = n by omega]
      have := Nat.testBit_mod_two_pow (b off) 8 n
      rw [decide_eq_true h, Bool.true_and, show (2 : Nat) ^ 8 = 256 by norm_num] at this
      exact this
    · rw [if_neg (by omega), ih]
      by_cases hc : n / 8 < k + 1
      · rw [if_pos (by omega), if_pos hc, show off + 1 + (n - 8) / 8 = off + n / 8 by omega,
          show (n - 8) % 8 = n % 8 by omega]
      · rw [if_neg (by omega), if_neg hc]

theorem leWord8_testBit (b : Buf) (off t k : Nat) (ht : t < 8) (hk : k < 8) :
    (leWord8 b off).testBit (8 * t + k) = (b (off + t)).testBit k := by
  rw [leWord8, leBytes_testBit, if_pos (by omega), show (8 * t + k) / 8 = t by omega,
    show (8 * t + k) % 8 = k by omega]

theorem byteOfWord_testBit (w k t : Nat) (ht : t < 8) :
    (byteOfWord w k).testBit t = w.testBit (8 * k + t) := by
  rw [byteOfWord, Nat.testBit_mod_two_pow (w >>> (8 * k)) 8 t, decide_eq_true ht,
    Bool.true_and, Nat.testBit_shiftRight]

/-! The TRANS_BIT_8X8 macro (bitshuffle.c lines 84-91): transpose of the
8x8 bit matrix packed into one 64-bit quadword, done by three masked
delta-swap stages. -/

/-- One delta-swap stage `t = (x ^ (x >> s)) & m; x = x ^ t ^ (t << s)`,
computed in `uint64_t` arithmetic. -/
def transStage (m s x : Nat) : Nat :=
  ((x ^^^ ((x ^^^ (x >>> s)) &&& m)) ^^^ (((x ^^^ (x >>> s)) &&& m) <<< s)) % 2 ^ 64

/-- The TRANS_BIT_8X8 macro: three delta-swap stages with masks
0x00AA00AA00AA00AA, 0x0000CCCC0000CCCC, 0x00000000F0F0F0F0 at shifts
7, 14, 28 (applied in that order). -/
def TRANS_BIT_8X8 (x : Nat) : Nat :=
  transStage 0x00000000F0F0F0F0 28
    (transStage 0x0000CCCC0000CCCC 14
      (transStage 0x00AA00AA00AA00AA 7 x))

theorem transStage_testBit (m s x i : Nat) (hms : m &&& (m <<< s) = 0) (hi : i < 64) :
    (transStage m s x).testBit i =
      if m.testBit i then x.testBit (i + s)
      else if s ≤ i ∧ m.testBit (i - s) then x.testBit (i - s)
      else x.testBit i := by
  have hd : ¬ (m.testBit i = true ∧ s ≤ i ∧ m.testBit (i - s) = true) := by
    rintro ⟨h1, h2, h3⟩
    have h := congrArg (fun y => y.testBit i) hms
    simp only [Nat.testBit_land, Nat.testBit_shiftLeft, Nat.zero_testBit] at h
    rw [h1, decide_eq_true h2, h3] at h
    simp at h
  unfold transStage
  rw [Nat.testBit_mod_two_pow, decide_eq_true hi, Bool.true_and,
    Nat.testBit_xor, Nat.testBit_xor, Nat.testBit_shiftLeft,
    Nat.testBit_land, Nat.testBit_land, Nat.testBit_xor, Nat.testBit_xor,
    Nat.testBit_shiftRight, Nat.testBit_shiftRight]
  by_cases h1 : m.testBit i <;> by_cases hs : s ≤ i
  · by_cases h2 : m.testBit (i - s)
    · exact absurd ⟨h1, hs, h2⟩ hd
    · simp [h1, h2, Nat.add_comm, ← Bool.xor_assoc]
  · have hns : ¬ (i ≥ s) := hs
    simp [h1, hns, Nat.add_comm, ← Bool.xor_assoc]
  · by_cases h2 : m.testBit (i - s)
    · have hsi : s + (i - s) = i := by omega
      simp only [h1, Bool.and_false, Bool.xor_false, decide_eq_true hs, h2, Bool.and_true,
        Bool.true_and, hsi, Bool.false_and]
      simp [hs, Bool.xor_comm, Bool.xor_left_comm]
    · simp [h1, h2, hs]
  · have hns : ¬ (i ≥ s) := hs
    simp [h1, hns, hs]

/-- TRANS_BIT_8X8 realizes the 8x8 bit transpose: bit `i` of the result
(bit `i % 8` of byte `i / 8`) is bit `i / 8` of byte `i % 8` of the input. -/
theorem TRANS_BIT_8X8_testBit (x i : Nat) (hi : i < 64) :
    (TRANS_BIT_8X8 x).testBit i = x.testBit (8 * (i % 8) + i / 8) := by
  unfold TRANS_BIT_8X8
  interval_cases i <;>
    simp +decide only [transStage_testBit, if_true, if_false, Nat.reduceAdd,
      Nat.reduceSub, Nat.reduceMod, Nat.reduceDiv, Nat.reduceMul]

/-! Scalar primitive transpositions (bitshuffle.c lines 114-318). Each
embedding returns the C `int64_t` return value together with the output
buffer after all stores. -/

/-- bshuf_trans_byte_elem_remainder (lines 127-153): transpose bytes within
elements, starting partway through the input. The first loop handles
groups of 8 elements while `ii + 7 < size`; the second loop handles the
trailing `size % 8` elements. -/
def bshuf_trans_byte_elem_remainder (inb out0 : Buf) (size elem_size start : Nat) :
    Int × Buf :=
  if start % 8 ≠ 0 then (-80, out0)
  else if start < size then
    (((size * elem_size : Nat) : Int),
      iterFold (size % 8) (fun t ob =>
        iterFold elem_size (fun jj ob =>
          wr ob (jj * size + (size - size % 8 + t))
            (inb ((size - size % 8 + t) * elem_size + jj))) ob)
        (iterFold ((size - start) / 8) (fun q ob =>
          iterFold elem_size (fun jj ob =>
            iterFold 8 (fun kk ob =>
              wr ob (jj * size + (start + 8 * q) + kk)
                (inb ((start + 8 * q) * elem_size + kk * elem_size + jj))) ob) ob) out0))
  else (((size * elem_size : Nat) : Int), out0)

/-- bshuf_trans_byte_elem_scal (lines 157-161). -/
def bshuf_trans_byte_elem_scal (inb out0 : Buf) (size elem_size : Nat) : Int × Buf :=
  bshuf_trans_byte_elem_remainder inb out0 size elem_size 0

/-- bshuf_trans_bit_byte_remainder (lines 165-188): for each group `ii` of
8 input bytes, transpose the packed 8x8 bit matrix and scatter its 8 bytes
at stride `nbyte / 8` (one byte into each bit row). -/
def bshuf_trans_bit_byte_remainder (inb out0 : Buf) (size elem_size start_byte : Nat) :
    Int × Buf :=
  if (elem_size * size) % 8 ≠ 0 then (-80, out0)
  else if start_byte % 8 ≠ 0 then (-80, out0)
  else
    (((size * elem_size : Nat) : Int),
      iterFold (elem_size * size / 8 - start_byte / 8) (fun q ob =>
        iterFold 8 (fun kk ob =>
          wr ob (kk * (elem_size * size / 8) + (start_byte / 8 + q))
            (byteOfWord (TRANS_BIT_8X8 (leWord8 inb (8 * (start_byte / 8 + q)))) kk)) ob)
        out0)

/-- bshuf_trans_bit_byte_scal (lines 192-196). -/
def bshuf_trans_bit_byte_scal (inb out0 : Buf) (size elem_size : Nat) : Int × Buf :=
  bshuf_trans_bit_byte_remainder inb out0 size elem_size 0

/-- bshuf_trans_elem (lines 200-212): generic transpose of an
`lda x ldb` array of `elem_size`-byte cells (memcpy modelled bytewise). -/
def bshuf_trans_elem (inb out0 : Buf) (lda ldb elem_size : Nat) : Int × Buf :=
  (((lda * ldb * elem_size : Nat) : Int),
    iterFold lda (fun ii ob =>
      iterFold ldb (fun jj ob =>
        iterFold elem_size (fun r ob =>
          wr ob ((jj * lda + ii) * elem_size + r)
            (inb ((ii * ldb + jj) * elem_size + r))) ob) ob) out0)

/-- bshuf_trans_bitrow_eight (lines 216-224): transpose rows of shuffled
bits (`size / 8` bytes each) within groups of 8. -/
def bshuf_trans_bitrow_eight (inb out0 : Buf) (size elem_size : Nat) : Int × Buf :=
  if size % 8 ≠ 0 then (-80, out0)
  else bshuf_trans_elem inb out0 8 elem_size (size / 8)

/-- bshuf_trans_bit_elem_scal (lines 228-247): the full scalar bit-in-element
transpose, composing the three primitives through a scratch buffer. -/
def bshuf_trans_bit_elem_scal (inb out0 : Buf) (size elem_size : Nat) : Int × Buf :=
  if size % 8 ≠ 0 then (-80, out0)
  else
    match bshuf_trans_byte_elem_scal inb out0 size elem_size with
    | (c1, o1) =>
      if c1 < 0 then (c1, o1)
      else
        match bshuf_trans_bit_byte_scal o1 (fun _ => 0) size elem_size with
        | (c2, t1) =>
          if c2 < 0 then (c2, o1)
          else bshuf_trans_bitrow_eight t1 o1 size elem_size

/-- bshuf_trans_byte_bitrow_scal (lines 252-270): for data organized into a
row for each bit (8 * elem_size rows of `size / 8` bytes), transpose the
bytes. -/
def bshuf_trans_byte_bitrow_scal (inb out0 : Buf) (size elem_size : Nat) : Int × Buf :=
  if size % 8 ≠ 0 then (-80, out0)
  else
    (((size * elem_size : Nat) : Int),
      iterFold elem_size (fun jj ob =>
        iterFold (size / 8) (fun ii ob =>
          iterFold 8 (fun kk ob =>
            wr ob (ii * 8 * elem_size + jj * 8 + kk)
              (inb ((jj * 8 + kk) * (size / 8) + ii))) ob) ob) out0)

/-- bshuf_shuffle_bit_eightelem_scal (lines 274-297): within each block of
8 elements, transpose each 8-byte column (at element offset `jj / 8`) as an
8x8 bit matrix and write the result at stride `elem_size`. The outer loop
is `jj = 8 * q`, the inner loop is `ii = 8 * elem_size * w`. -/
def bshuf_shuffle_bit_eightelem_scal (inb out0 : Buf) (size elem_size : Nat) : Int × Buf :=
  if size % 8 ≠ 0 then (-80, out0)
  else
    (((size * elem_size : Nat) : Int),
      iterFold elem_size (fun q ob =>
        iterFold (elem_size * size / (8 * elem_size)) (fun w ob =>
          iterFold 8 (fun kk ob =>
            wr ob (8 * elem_size * w + q + kk * elem_size)
              (byteOfWord (TRANS_BIT_8X8 (leWord8 inb (8 * elem_size * w + 8 * q)))
                kk)) ob) ob) out0)

/-- bshuf_untrans_bit_elem_scal (lines 301-318): the scalar inverse,
composing the two inverse primitives through a scratch buffer. -/
def bshuf_untrans_bit_elem_scal (inb out0 : Buf) (size elem_size : Nat) : Int × Buf :=
  if size % 8 ≠ 0 then (-80, out0)
  else
    match bshuf_trans_byte_bitrow_scal inb (fun _ => 0) size elem_size with
    | (c1, t1) =>
      if c1 < 0 then (c1, out0)
      else bshuf_shuffle_bit_eightelem_scal t1 out0 size elem_size

/-! Characterizations of the scalar primitives: each store loop realizes a
permutation, read off cell by cell. -/

theorem wr_get_eq (b : Buf) (i v m : Nat) (h : m = i) : wr b i v m = v := by
  simp [wr, h]

theorem wr_get_ne (b : Buf) (i v m : Nat) (h : m ≠ i) : wr b i v m = b m := by
  simp [wr, h]

/-- Euclidean uniqueness of `row * width + col` decompositions. -/
theorem rowcol_inj {width j a jj b : Nat} (ha : a < width) (hb : b < width)
    (h : j * width + a = jj * width + b) : j = jj ∧ a = b := by
  have hj : j = jj := by
    rcases Nat.lt_trichotomy j jj with hlt | heq | hgt
    · have h1 : (j + 1) * width ≤ jj * width := Nat.mul_le_mul_right width hlt
      have h2 : (j + 1) * width = j * width + width := by ring
      omega
    · exact heq
    · have h1 : (jj + 1) * width ≤ j * width := Nat.mul_le_mul_right width hgt
      have h2 : (jj + 1) * width = jj * width + width := by ring
      omega
  subst hj
  exact ⟨rfl, by omega⟩

theorem rowcol_lt {c r C R : Nat} (hc : c < C) (hr : r < R) : c * R + r < C * R := by
  calc c * R + r < c * R + R := by omega
    _ = (c + 1) * R := by ring
    _ ≤ C * R := Nat.mul_le_mul_right R hc

/-- Primitive A: byte `j` of element `i` lands at `out[j * size + i]`
(for any element at or after `start`). -/
theorem bshuf_trans_byte_elem_remainder_get (inb out0 : Buf) (size es start : Nat)
    (h8 : start % 8 = 0) (i j : Nat) (hi : i < size) (hj : j < es) (hstart : start ≤ i) :
    (bshuf_trans_byte_elem_remainder inb out0 size es start).2 (j * size + i)
      = inb (i * es + j) := by
  unfold bshuf_trans_byte_elem_remainder
  rw [if_neg (by omega), if_pos (by omega)]
  dsimp only
  rcases Nat.lt_or_ge i (size - size % 8) with hcase | hcase
  · -- in a full group of 8: the tail loop misses, the main loop hits
    refine Eq.trans (iterFold_get_miss _ _ _ _ ?_) ?_
    · intro t b ht
      refine iterFold_get_miss _ _ _ _ ?_
      intro jj b' hjj
      refine wr_get_ne _ _ _ _ ?_
      intro hEq
      rcases rowcol_inj hi (show size - size % 8 + t < size by omega) hEq with ⟨e1, e2⟩
      omega
    refine iterFold_get_hit _ _ _ _ ((i - start) / 8) _ (by omega) ?_ ?_
    · intro b
      refine iterFold_get_hit _ _ _ _ j _ hj ?_ ?_
      · intro b'
        refine iterFold_get_hit _ _ _ _ ((i - start) % 8) _ (by omega) ?_ ?_
        · intro b''
          rw [wr_get_eq _ _ _ _ (by omega)]
          have hsum : start + 8 * ((i - start) / 8) + (i - start) % 8 = i := by omega
          have : (start + 8 * ((i - start) / 8)) * es + (i - start) % 8 * es + j
              = i * es + j := by
            calc (start + 8 * ((i - start) / 8)) * es + (i - start) % 8 * es + j
                = (start + 8 * ((i - start) / 8) + (i - start) % 8) * es + j := by ring
              _ = i * es + j := by rw [hsum]
          rw [this]
        · intro p b'' hp hpq
          refine wr_get_ne _ _ _ _ ?_
          intro hEq
          omega
      · intro jj b' hjj hne
        refine iterFold_get_miss _ _ _ _ ?_
        intro kk b'' hkk
        refine wr_get_ne _ _ _ _ ?_
        intro hEq
        have hEq2 : j * size + i = jj * size + (start + 8 * ((i - start) / 8) + kk) := by
          omega
        rcases rowcol_inj hi (by omega) hEq2 with ⟨e1, e2⟩
        exact hne e1.symm
    · intro p b hp hpq
      refine iterFold_get_miss _ _ _ _ ?_
      intro jj b' hjj
      refine iterFold_get_miss _ _ _ _ ?_
      intro kk b'' hkk
      refine wr_get_ne _ _ _ _ ?_
      intro hEq
      have hEq2 : j * size + i = jj * size + (start + 8 * p + kk) := by omega
      rcases rowcol_inj hi (show start + 8 * p + kk < size by omega) hEq2 with ⟨e1, e2⟩
      omega
  · -- in the trailing `size % 8` elements: the tail loop hits
    refine iterFold_get_hit _ _ _ _ (i - (size - size % 8)) _ (by omega) ?_ ?_
    · intro b
      refine iterFold_get_hit _ _ _ _ j _ hj ?_ ?_
      · intro b'
        rw [wr_get_eq _ _ _ _ (by omega)]
        rw [show size - size % 8 + (i - (size - size % 8)) = i by omega]
      · intro jj b' hjj hne
        refine wr_get_ne _ _ _ _ ?_
        intro hEq
        rcases rowcol_inj hi (show size - size % 8 + (i - (size - size % 8)) < size by omega)
          hEq with ⟨e1, e2⟩
        exact hne e1.symm
    · intro t b ht htne
      refine iterFold_get_miss _ _ _ _ ?_
      intro jj b' hjj
      refine wr_get_ne _ _ _ _ ?_
      intro hEq
      rcases rowcol_inj hi (show size - size % 8 + t < size by omega) hEq with ⟨e1, e2⟩
      omega

/-- Primitive A at `start = 0` (the scalar entry point). -/
theorem bshuf_trans_byte_elem_scal_get (inb out0 : Buf) (size es : Nat)
    (i j : Nat) (hi : i < size) (hj : j < es) :
    (bshuf_trans_byte_elem_scal inb out0 size es).2 (j * size + i) = inb (i * es + j) := by
  unfold bshuf_trans_byte_elem_scal
  exact bshuf_trans_byte_elem_remainder_get inb out0 size es 0 (by norm_num) i j hi hj
    (by omega)

theorem bshuf_trans_byte_elem_scal_fst (inb out0 : Buf) (size es : Nat) :
    (bshuf_trans_byte_elem_scal inb out0 size es).1 = ((size * es : Nat) : Int) := by
  unfold bshuf_trans_byte_elem_scal bshuf_trans_byte_elem_remainder
  rw [if_neg (by norm_num)]
  split <;> rfl

/-- Primitive B: byte `m = kk * (nbyte/8) + ii` of the output is byte `kk`
of the bit-transposed quadword loaded from input bytes `8*ii .. 8*ii+7`. -/
theorem bshuf_trans_bit_byte_scal_get (inb out0 : Buf) (size es : Nat)
    (h8 : (es * size) % 8 = 0) (kk ii : Nat) (hkk : kk < 8) (hii : ii < es * size / 8) :
    (bshuf_trans_bit_byte_scal inb out0 size es).2 (kk * (es * size / 8) + ii)
      = byteOfWord (TRANS_BIT_8X8 (leWord8 inb (8 * ii))) kk := by
  unfold bshuf_trans_bit_byte_scal bshuf_trans_bit_byte_remainder
  rw [if_neg (by omega), if_neg (by norm_num)]
  dsimp only
  refine iterFold_get_hit _ _ _ _ ii _ (by omega) ?_ ?_
  · intro b
    refine iterFold_get_hit _ _ _ _ kk _ hkk ?_ ?_
    · intro b'
      rw [wr_get_eq _ _ _ _ (by omega)]
      norm_num
    · intro p b' hp hpq
      refine wr_get_ne _ _ _ _ ?_
      intro hEq
      rcases rowcol_inj hii (show 0 / 8 + ii < es * size / 8 by omega) hEq with ⟨e1, e2⟩
      exact hpq e1.symm
  · intro q b hq hqne
    refine iterFold_get_miss _ _ _ _ ?_
    intro kk' b' hkk'
    refine wr_get_ne _ _ _ _ ?_
    intro hEq
    rcases rowcol_inj hii (show 0 / 8 + q < es * size / 8 by omega) hEq with ⟨e1, e2⟩
    omega

theorem bshuf_trans_bit_byte_scal_fst (inb out0 : Buf) (size es : Nat)
    (h8 : (es * size) % 8 = 0) :
    (bshuf_trans_bit_byte_scal inb out0 size es).1 = ((size * es : Nat) : Int) := by
  unfold bshuf_trans_bit_byte_scal bshuf_trans_bit_byte_remainder
  rw [if_neg (by omega), if_neg (by norm_num)]

/-- The generic cell transpose. -/
theorem bshuf_trans_elem_get (inb out0 : Buf) (lda ldb es : Nat)
    (ii jj r : Nat) (hii : ii < lda) (hjj : jj < ldb) (hr : r < es) :
    (bshuf_trans_elem inb out0 lda ldb es).2 ((jj * lda + ii) * es + r)
      = inb ((ii * ldb + jj) * es + r) := by
  unfold bshuf_trans_elem
  dsimp only
  refine iterFold_get_hit _ _ _ _ ii _ hii ?_ ?_
  · intro b
    refine iterFold_get_hit _ _ _ _ jj _ hjj ?_ ?_
    · intro b'
      refine iterFold_get_hit _ _ _ _ r _ hr ?_ ?_
      · intro b''
        exact wr_get_eq _ _ _ _ rfl
      · intro p b'' hp hpq
        refine wr_get_ne _ _ _ _ ?_
        intro hEq
        omega
    · intro p b' hp hpq
      refine iterFold_get_miss _ _ _ _ ?_
      intro r' b'' hr'
      refine wr_get_ne _ _ _ _ ?_
      intro hEq
      rcases rowcol_inj hr hr' hEq with ⟨e1, e2⟩
      rcases rowcol_inj hii hii e1 with ⟨e3, e4⟩
      exact hpq e3.symm
  · intro p b hp hpq
    refine iterFold_get_miss _ _ _ _ ?_
    intro jj' b' hjj'
    refine iterFold_get_miss _ _ _ _ ?_
    intro r' b'' hr'
    refine wr_get_ne _ _ _ _ ?_
    intro hEq
    rcases rowcol_inj hr hr' hEq with ⟨e1, e2⟩
    rcases rowcol_inj hii hp e1 with ⟨e3, e4⟩
    exact hpq e4.symm

/-- Primitive C: chunk `(jj, ii)` of the output (of `size / 8` bytes) is
chunk `(ii, jj)` of the input. -/
theorem bshuf_trans_bitrow_eight_get (inb out0 : Buf) (size es : Nat) (h8 : size % 8 = 0)
    (ii jj r : Nat) (hii : ii < 8) (hjj : jj < es) (hr : r < size / 8) :
    (bshuf_trans_bitrow_eight inb out0 size es).2 ((jj * 8 + ii) * (size / 8) + r)
      = inb ((ii * es + jj) * (size / 8) + r) := by
  unfold bshuf_trans_bitrow_eight
  rw [if_neg (by omega)]
  exact bshuf_trans_elem_get inb out0 8 es (size / 8) ii jj r hii hjj hr

theorem bshuf_trans_bitrow_eight_fst (inb out0 : Buf) (size es : Nat) (h8 : size % 8 = 0) :
    (bshuf_trans_bitrow_eight inb out0 size es).1 = ((size * es : Nat) : Int) := by
  unfold bshuf_trans_bitrow_eight bshuf_trans_elem
  rw [if_neg (by omega)]
  dsimp only
  have h : 8 * es * (size / 8) = size * es := by
    have hK : size = 8 * (size / 8) := by omega
    calc 8 * es * (size / 8) = 8 * (size / 8) * es := by ring
      _ = size * es := by rw [← hK]
  exact_mod_cast congrArg (fun n : Nat => (n : Int)) h

/-- Primitive B inverse: output byte `ii * 8 * es + jj * 8 + kk` is input
byte `(jj * 8 + kk) * (size / 8) + ii`. -/
theorem bshuf_trans_byte_bitrow_scal_get (inb out0 : Buf) (size es : Nat)
    (h8 : size % 8 = 0) (jj ii kk : Nat) (hjj : jj < es) (hii : ii < size / 8)
    (hkk : kk < 8) :
    (bshuf_trans_byte_bitrow_scal inb out0 size es).2 (ii * 8 * es + jj * 8 + kk)
      = inb ((jj * 8 + kk) * (size / 8) + ii) := by
  unfold bshuf_trans_byte_bitrow_scal
  rw [if_neg (by omega)]
  dsimp only
  refine iterFold_get_hit _ _ _ _ jj _ hjj ?_ ?_
  · intro b
    refine iterFold_get_hit _ _ _ _ ii _ hii ?_ ?_
    · intro b'
      refine iterFold_get_hit _ _ _ _ kk _ hkk ?_ ?_
      · intro b''
        exact wr_get_eq _ _ _ _ rfl
      · intro p b'' hp hpq
        refine wr_get_ne _ _ _ _ ?_
        intro hEq
        omega
    · intro p b' hp hpq
      refine iterFold_get_miss _ _ _ _ ?_
      intro kk' b'' hkk'
      refine wr_get_ne _ _ _ _ ?_
      intro hEq
      have h1 : ii * 8 * es = ii * (8 * es) := by ring
      have h2 : p * 8 * es = p * (8 * es) := by ring
      have hEq2 : ii * (8 * es) + (jj * 8 + kk) = p * (8 * es) + (jj * 8 + kk') := by omega
      have hb1 : jj * 8 + kk < 8 * es := by
        have := rowcol_lt hjj hkk
        omega
      have hb2 : jj * 8 + kk' < 8 * es := by
        have := rowcol_lt hjj hkk'
        omega
      rcases rowcol_inj hb1 hb2 hEq2 with ⟨e1, e2⟩
      exact hpq e1.symm
  · intro p b hp hpq
    refine iterFold_get_miss _ _ _ _ ?_
    intro ii' b' hii'
    refine iterFold_get_miss _ _ _ _ ?_
    intro kk' b'' hkk'
    refine wr_get_ne _ _ _ _ ?_
    intro hEq
    have h1 : ii * 8 * es = ii * (8 * es) := by ring
    have h2 : ii' * 8 * es = ii' * (8 * es) := by ring
    have hEq2 : ii * (8 * es) + (jj * 8 + kk) = ii' * (8 * es) + (p * 8 + kk') := by omega
    have hb1 : jj * 8 + kk < 8 * es := by
      have := rowcol_lt hjj hkk
      omega
    have hb2 : p * 8 + kk' < 8 * es := by
      have := rowcol_lt hp hkk'
      omega
    rcases rowcol_inj hb1 hb2 hEq2 with ⟨e1, e2⟩
    rcases rowcol_inj hkk hkk' e2 with ⟨e3, e4⟩
    exact hpq e3.symm

theorem bshuf_trans_byte_bitrow_scal_fst (inb out0 : Buf) (size es : Nat)
    (h8 : size % 8 = 0) :
    (bshuf_trans_byte_bitrow_scal inb out0 size es).1 = ((size * es : Nat) : Int) := by
  unfold bshuf_trans_byte_bitrow_scal
  rw [if_neg (by omega)]

/-- Primitive C inverse: output byte `8 * es * w + q + kk * es` is byte `kk`
of the bit-transposed quadword loaded at input offset `8 * es * w + 8 * q`. -/
theorem bshuf_shuffle_bit_eightelem_scal_get (inb out0 : Buf) (size es : Nat)
    (h8 : size % 8 = 0) (q w kk : Nat) (hq : q < es) (hw : w < size / 8) (hkk : kk < 8) :
    (bshuf_shuffle_bit_eightelem_scal inb out0 size es).2 (8 * es * w + q + kk * es)
      = byteOfWord (TRANS_BIT_8X8 (leWord8 inb (8 * es * w + 8 * q))) kk := by
  unfold bshuf_shuffle_bit_eightelem_scal
  rw [if_neg (by omega)]
  dsimp only
  have hcnt : es * size / (8 * es) = size / 8 := by
    rw [show 8 * es = es * 8 by ring, Nat.mul_div_mul_left size 8 (by omega)]
  refine iterFold_get_hit _ _ _ _ q _ hq ?_ ?_
  · intro b
    refine iterFold_get_hit _ _ _ _ w _ (by omega) ?_ ?_
    · intro b'
      refine iterFold_get_hit _ _ _ _ kk _ hkk ?_ ?_
      · intro b''
        exact wr_get_eq _ _ _ _ rfl
      · intro p b'' hp hpq
        refine wr_get_ne _ _ _ _ ?_
        intro hEq
        have h1 : kk * es + 0 = p * es + 0 := by omega
        rcases rowcol_inj (show 0 < es by omega) (show 0 < es by omega) h1 with ⟨e1, e2⟩
        exact hpq e1.symm
    · intro p b' hp hpq
      refine iterFold_get_miss _ _ _ _ ?_
      intro kk' b'' hkk'
      refine wr_get_ne _ _ _ _ ?_
      intro hEq
      have h1 : 8 * es * w + q + kk * es = (8 * w + kk) * es + q := by ring
      have h2 : 8 * es * p + q + kk' * es = (8 * p + kk') * es + q := by ring
      have hEq2 : (8 * w + kk) * es + q = (8 * p + kk') * es + q := by omega
      rcases rowcol_inj hq hq hEq2 with ⟨e1, e2⟩
      omega
  · intro p b hp hpne
    refine iterFold_get_miss _ _ _ _ ?_
    intro w' b' hw'
    refine iterFold_get_miss _ _ _ _ ?_
    intro kk' b'' hkk'
    refine wr_get_ne _ _ _ _ ?_
    intro hEq
    have h1 : 8 * es * w + q + kk * es = (8 * w + kk) * es + q := by ring
    have h2 : 8 * es * w' + p + kk' * es = (8 * w' + kk') * es + p := by ring
    have hEq2 : (8 * w + kk) * es + q = (8 * w' + kk') * es + p := by omega
    rcases rowcol_inj hq hp hEq2 with ⟨e1, e2⟩
    exact hpne e2.symm

theorem bshuf_shuffle_bit_eightelem_scal_fst (inb out0 : Buf) (size es : Nat)
    (h8 : size % 8 = 0) :
    (bshuf_shuffle_bit_eightelem_scal inb out0 size es).1 = ((size * es : Nat) : Int) := by
  unfold bshuf_shuffle_bit_eightelem_scal
  rw [if_neg (by omega)]

/-! Specifications of the composed scalar drivers. -/

theorem mul_mod8_right (a b : Nat) (h8 : b % 8 = 0) : (a * b) % 8 = 0 := by
  rw [Nat.mul_mod, h8, Nat.mul_zero, Nat.zero_mod]

/-- Full bitshuffle of one block: output byte `(j * 8 + k) * (size / 8) + r`
(element `8 * r + t` of bit plane `(j, k)` sits at bit `t`) collects bit `k`
of byte `j` of the elements; the returned count is `size * elem_size`. -/
theorem bshuf_trans_bit_elem_scal_spec (x out0 : Buf) (size es : Nat) (h8 : size % 8 = 0) :
    (bshuf_trans_bit_elem_scal x out0 size es).1 = ((size * es : Nat) : Int)
    ∧ ∀ j k r t, j < es → k < 8 → r < size / 8 → t < 8 →
      ((bshuf_trans_bit_elem_scal x out0 size es).2 ((j * 8 + k) * (size / 8) + r)).testBit t
        = (x ((8 * r + t) * es + j)).testBit k := by
  have hA1 := bshuf_trans_byte_elem_scal_fst x out0 size es
  unfold bshuf_trans_bit_elem_scal
  rw [if_neg (by omega)]
  rw [show bshuf_trans_byte_elem_scal x out0 size es
      = (((size * es : Nat) : Int), (bshuf_trans_byte_elem_scal x out0 size es).2) from
    Prod.ext hA1 rfl]
  dsimp only
  rw [if_neg (not_lt.2 (Int.natCast_nonneg _))]
  rw [show bshuf_trans_bit_byte_scal (bshuf_trans_byte_elem_scal x out0 size es).2
        (fun _ => 0) size es
      = (((size * es : Nat) : Int),
          (bshuf_trans_bit_byte_scal (bshuf_trans_byte_elem_scal x out0 size es).2
            (fun _ => 0) size es).2) from
    Prod.ext (bshuf_trans_bit_byte_scal_fst _ _ size es (mul_mod8_right es size h8)) rfl]
  dsimp only
  rw [if_neg (not_lt.2 (Int.natCast_nonneg _))]
  constructor
  · exact bshuf_trans_bitrow_eight_fst _ _ size es h8
  · intro j k r t hj hk hr ht
    rw [bshuf_trans_bitrow_eight_get _ _ size es h8 k j r hk hj hr]
    have hdvd : es * size / 8 = es * (size / 8) :=
      Nat.mul_div_assoc es (show (8 : Nat) ∣ size from by omega)
    have hidx : (k * es + j) * (size / 8) + r
        = k * (es * size / 8) + (j * (size / 8) + r) := by
      calc (k * es + j) * (size / 8) + r
          = k * (es * (size / 8)) + (j * (size / 8) + r) := by ring
        _ = k * (es * size / 8) + (j * (size / 8) + r) := by rw [hdvd]
    rw [hidx]
    have hb : j * (size / 8) + r < es * size / 8 := by
      rw [hdvd]
      exact rowcol_lt hj hr
    rw [bshuf_trans_bit_byte_scal_get _ _ size es (mul_mod8_right es size h8) k
      (j * (size / 8) + r) hk hb]
    rw [byteOfWord_testBit _ _ _ ht, TRANS_BIT_8X8_testBit _ _ (by omega),
      show (8 * k + t) % 8 = t by omega, show (8 * k + t) / 8 = k by omega,
      leWord8_testBit _ _ t k ht hk]
    have hidx2 : 8 * (j * (size / 8) + r) + t = j * size + (8 * r + t) := by
      have hK : size = 8 * (size / 8) := by omega
      calc 8 * (j * (size / 8) + r) + t = j * (8 * (size / 8)) + (8 * r + t) := by ring
        _ = j * size + (8 * r + t) := by rw [← hK]
    rw [hidx2, bshuf_trans_byte_elem_scal_get x out0 size es (8 * r + t) j (by omega) hj]

/-- Full bitunshuffle of one block: output byte `8 * es * w + q + kk * es`
(byte `q` of element `8 * w + kk`) reassembles, at bit `t`, bit `kk` of
encoded byte `(q * 8 + t) * (size / 8) + w`; every output byte is below 256;
the returned count is `size * elem_size`. -/
theorem bshuf_untrans_bit_elem_scal_spec (y out0 : Buf) (size es : Nat) (h8 : size % 8 = 0) :
    (bshuf_untrans_bit_elem_scal y out0 size es).1 = ((size * es : Nat) : Int)
    ∧ ∀ w kk q, w < size / 8 → kk < 8 → q < es →
      (∀ t, t < 8 →
        ((bshuf_untrans_bit_elem_scal y out0 size es).2 (8 * es * w + q + kk * es)).testBit t
          = (y ((q * 8 + t) * (size / 8) + w)).testBit kk)
      ∧ (bshuf_untrans_bit_elem_scal y out0 size es).2 (8 * es * w + q + kk * es) < 256 := by
  unfold bshuf_untrans_bit_elem_scal
  rw [if_neg (by omega)]
  rw [show bshuf_trans_byte_bitrow_scal y (fun _ => 0) size es
      = (((size * es : Nat) : Int),
          (bshuf_trans_byte_bitrow_scal y (fun _ => 0) size es).2) from
    Prod.ext (bshuf_trans_byte_bitrow_scal_fst _ _ size es h8) rfl]
  dsimp only
  rw [if_neg (not_lt.2 (Int.natCast_nonneg _))]
  constructor
  · exact bshuf_shuffle_bit_eightelem_scal_fst _ _ size es h8
  · intro w kk q hw hkk hq
    rw [bshuf_shuffle_bit_eightelem_scal_get _ _ size es h8 q w kk hq hw hkk]
    constructor
    · intro t ht
      rw [byteOfWord_testBit _ _ _ ht, TRANS_BIT_8X8_testBit _ _ (by omega),
        show (8 * kk + t) % 8 = t by omega, show (8 * kk + t) / 8 = kk by omega,
        leWord8_testBit _ _ t kk ht hkk,
        show 8 * es * w + 8 * q + t = w * 8 * es + q * 8 + t by ring,
        bshuf_trans_byte_bitrow_scal_get y (fun _ => 0) size es h8 q w t hq hw ht]
    · exact byteOfWord_lt _ _

theorem byte_eq_of_low_bits {a b : Nat} (ha : a < 256) (hb : b < 256)
    (h : ∀ t, t < 8 → a.testBit t = b.testBit t) : a = b := by
  refine Nat.eq_of_testBit_eq fun n => ?_
  rcases Nat.lt_or_ge n 8 with hn | hn
  · exact h n hn
  · have h2 : (2 : Nat) ^ 8 ≤ 2 ^ n := Nat.pow_le_pow_right (by norm_num) hn
    rw [Nat.testBit_eq_false_of_lt (by omega), Nat.testBit_eq_false_of_lt (by omega)]

/-- Round trip of one block: unshuffling any buffer whose bits satisfy the
bit-plane layout produced by the shuffle of `xb` restores `xb` byte for
byte. -/
theorem untrans_shuffled_block (xb y outB : Buf) (n es : Nat) (h8 : n % 8 = 0)
    (hy : ∀ j k r t, j < es → k < 8 → r < n / 8 → t < 8 →
      (y ((j * 8 + k) * (n / 8) + r)).testBit t = (xb ((8 * r + t) * es + j)).testBit k)
    (hx : ∀ i, i < n * es → xb i < 256) :
    (bshuf_untrans_bit_elem_scal y outB n es).1 = ((n * es : Nat) : Int)
    ∧ ∀ m, m < n * es → (bshuf_untrans_bit_elem_scal y outB n es).2 m = xb m := by
  obtain ⟨hU1, hU2⟩ := bshuf_untrans_bit_elem_scal_spec y outB n es h8
  refine ⟨hU1, ?_⟩
  intro m hm
  have hes : 0 < es := by
    rcases Nat.eq_zero_or_pos es with h | h
    · subst h; simp at hm
    · exact h
  have hqlt : m % es < es := Nat.mod_lt _ hes
  have hdm : m = m / es * es + m % es := by
    have h := Nat.div_add_mod m es
    calc m = es * (m / es) + m % es := h.symm
      _ = m / es * es + m % es := by ring_nf
  have hilt : m / es < n := by
    by_contra hcon
    push_neg at hcon
    have : n * es ≤ m / es * es := Nat.mul_le_mul_right es hcon
    omega
  have hw : m / es / 8 < n / 8 := by omega
  have hkk : m / es % 8 < 8 := by omega
  obtain ⟨hbits, hlt⟩ := hU2 (m / es / 8) (m / es % 8) (m % es) hw hkk hqlt
  have hidx : 8 * es * (m / es / 8) + m % es + m / es % 8 * es = m := by
    have h1 : 8 * es * (m / es / 8) + m % es + m / es % 8 * es
        = (8 * (m / es / 8) + m / es % 8) * es + m % es := by ring
    have h2 : 8 * (m / es / 8) + m / es % 8 = m / es := by omega
    rw [h1, h2, ← hdm]
  rw [hidx] at hbits hlt
  refine byte_eq_of_low_bits hlt (hx m hm) ?_
  intro t ht
  rw [hbits t ht, hy (m % es) t (m / es / 8) (m / es % 8) hqlt ht hw hkk]
  have hidx2 : (8 * (m / es / 8) + m / es % 8) * es + m % es = m := by
    have h2 : 8 * (m / es / 8) + m / es % 8 = m / es := by omega
    rw [h2, ← hdm]
  rw [hidx2]

/-! Drivers selecting the instruction set at compile time
(bitshuffle.c lines 1063-1090). This embedding compiles the portable
build (neither USESSE2 nor USEAVX2 defined), whose drivers call the
scalar realizations. -/

/-- bshuf_trans_bit_elem (lines 1063-1075), scalar build. -/
def bshuf_trans_bit_elem (inb out0 : Buf) (size elem_size : Nat) : Int × Buf :=
  bshuf_trans_bit_elem_scal inb out0 size elem_size

/-- bshuf_untrans_bit_elem (lines 1078-1090), scalar build. -/
def bshuf_untrans_bit_elem (inb out0 : Buf) (size elem_size : Nat) : Int × Buf :=
  bshuf_untrans_bit_elem_scal inb out0 size elem_size

/-! Public sizing functions. -/

/-- bshuf_default_block_size (lines 1322-1330): target 8192 bytes per
block, rounded down to a multiple of BSHUF_BLOCKED_MULT = 8, and raised
to BSHUF_MIN_RECOMMEND_BLOCK = 128 with `MAX(X, Y) = (X > Y ? X : Y)`. -/
def bshuf_default_block_size (elem_size : Nat) : Nat :=
  if 8192 / elem_size / 8 * 8 > 128 then 8192 / elem_size / 8 * 8 else 128

/-- bshuf_compress_lz4_bound (lines 1333-1352). The C return type is
`size_t`; `return -81` through it produces `SIZE_MAX - 80 = 2^64 - 81` on
64-bit targets. `lz4CompressBound` stands for the external
LZ4_compressBound. -/
def bshuf_compress_lz4_bound (lz4CompressBound : Nat → Nat)
    (size elem_size block_size : Nat) : Nat :=
  let bs := if block_size = 0 then bshuf_default_block_size elem_size else block_size
  if bs % 8 ≠ 0 then 2 ^ 64 - 81
  else
    (lz4CompressBound (bs * elem_size) + 4) * (size / bs)
      + (if size % bs / 8 * 8 ≠ 0 then lz4CompressBound (size % bs / 8 * 8 * elem_size) + 4
         else 0)
      + size % 8 * elem_size

/-! The blocked wrapper (bitshuffle.c lines 1093-1145), in sequential
semantics (the OpenMP loop iterations are dispatched in index order; the
spec fixes the memory layout independently of scheduling). A block worker
reads the global input at its input head, writes its output region, and
reports both advanced heads plus its `int64_t` count. -/

/-- State threaded through the block loop: the two I/O-chain heads, the
output memory, the cumulative count, and the last recorded error. -/
structure WrapState where
  inPos : Int
  outPos : Int
  outBuf : MBuf
  cum : Int
  err : Int

/-- Result of one block worker. -/
structure BlockResult where
  inPos : Int
  outPos : Int
  outBuf : MBuf
  count : Int

/-- Signature of a block worker: global input, input head, output head,
output memory, block size in elements, element size. -/
abbrev BlockFun := MBuf → Int → Int → MBuf → Nat → Nat → BlockResult

/-- One iteration of the block loop: run the worker, accumulate its count,
record a negative count as the error (`if (count < 0) err = count`). -/
def wrapStep (f : BlockFun) (inb : MBuf) (block es : Nat) (st : WrapState) : WrapState :=
  match f inb st.inPos st.outPos st.outBuf block es with
  | ⟨ip, op, ob, c⟩ => ⟨ip, op, ob, st.cum + c, if c < 0 then c else st.err⟩

/-- Overwrite `len` bytes of `base` at `off` with the bytes of `sub`
(a block worker's view of its output region). -/
def splice (base : MBuf) (off : Int) (len : Nat) (sub : Buf) : MBuf :=
  fun m => if off ≤ m ∧ m < off + len then sub (m - off).toNat else base m

/-- The final verbatim memcpy of the wrapper: copy `len` bytes from
`src` at `srcOff` over `base` at `off`. -/
def spliceCopy (base : MBuf) (off : Int) (len : Nat) (src : MBuf) (srcOff : Int) : MBuf :=
  fun m => if off ≤ m ∧ m < off + len then src (srcOff + (m - off)) else base m

/-- The block loop of bshuf_blocked_wrap_fun (lines 1116-1129): all
`size / block_size` full blocks, then one sub-block of
`size % block_size` elements rounded down to a multiple of
BSHUF_BLOCKED_MULT = 8, when nonzero. -/
def bshuf_blocked_loop (f : BlockFun) (inb out0 : MBuf) (size es bs : Nat) : WrapState :=
  if size % bs - size % bs % 8 ≠ 0 then
    wrapStep f inb (size % bs - size % bs % 8) es
      (iterFold (size / bs) (fun _ st => wrapStep f inb bs es st) ⟨0, 0, out0, 0, 0⟩)
  else iterFold (size / bs) (fun _ st => wrapStep f inb bs es st) ⟨0, 0, out0, 0, 0⟩

/-- bshuf_blocked_wrap_fun (lines 1102-1145): resolve `block_size = 0` to
the default, reject block sizes that are not multiples of 8 with -81, run
the block loop, return the recorded error if any, and otherwise copy the
final `size % 8 * elem_size` leftover bytes verbatim from the input head
to the output head, adding them to the cumulative count. -/
def bshuf_blocked_wrap_fun (f : BlockFun) (inb out0 : MBuf) (size es bs0 : Nat) :
    Int × MBuf :=
  if (if bs0 = 0 then bshuf_default_block_size es else bs0) % 8 ≠ 0 then (-81, out0)
  else
    if (bshuf_blocked_loop f inb out0 size es
        (if bs0 = 0 then bshuf_default_block_size es else bs0)).err < 0 then
      ((bshuf_blocked_loop f inb out0 size es
          (if bs0 = 0 then bshuf_default_block_size es else bs0)).err,
        (bshuf_blocked_loop f inb out0 size es
          (if bs0 = 0 then bshuf_default_block_size es else bs0)).outBuf)
    else
      ((bshuf_blocked_loop f inb out0 size es
            (if bs0 = 0 then bshuf_default_block_size es else bs0)).cum
          + ((size % 8 * es : Nat) : Int),
        spliceCopy
          (bshuf_blocked_loop f inb out0 size es
            (if bs0 = 0 then bshuf_default_block_size es else bs0)).outBuf
          (bshuf_blocked_loop f inb out0 size es
            (if bs0 = 0 then bshuf_default_block_size es else bs0)).outPos
          (size % 8 * es) inb
          (bshuf_blocked_loop f inb out0 size es
            (if bs0 = 0 then bshuf_default_block_size es else bs0)).inPos)

/-- bshuf_bitshuffle_block (lines 1149-1162): advance both heads by
`size * elem_size` and bit-transpose the block into the output region. -/
def bshuf_bitshuffle_block (inb : MBuf) (inPos outPos : Int) (outBuf : MBuf)
    (size es : Nat) : BlockResult :=
  match bshuf_trans_bit_elem (fun i => inb (inPos + (i : Int)))
      (fun i => outBuf (outPos + (i : Int))) size es with
  | (c, sub) =>
    ⟨inPos + ((size * es : Nat) : Int), outPos + ((size * es : Nat) : Int),
      splice outBuf outPos (size * es) sub, c⟩

/-- bshuf_bitunshuffle_block (lines 1166-1180). -/
def bshuf_bitunshuffle_block (inb : MBuf) (inPos outPos : Int) (outBuf : MBuf)
    (size es : Nat) : BlockResult :=
  match bshuf_untrans_bit_elem (fun i => inb (inPos + (i : Int)))
      (fun i => outBuf (outPos + (i : Int))) size es with
  | (c, sub) =>
    ⟨inPos + ((size * es : Nat) : Int), outPos + ((size * es : Nat) : Int),
      splice outBuf outPos (size * es) sub, c⟩

/-- bshuf_bitshuffle (lines 1355-1360). -/
def bshuf_bitshuffle (inb out0 : MBuf) (size elem_size block_size : Nat) : Int × MBuf :=
  bshuf_blocked_wrap_fun bshuf_bitshuffle_block inb out0 size elem_size block_size

/-- bshuf_bitunshuffle (lines 1363-1368). -/
def bshuf_bitunshuffle (inb out0 : MBuf) (size elem_size block_size : Nat) : Int × MBuf :=
  bshuf_blocked_wrap_fun bshuf_bitunshuffle_block inb out0 size elem_size block_size

/-! Big-endian 32-bit framing integers (lines 1207-1226). -/

/-- bshuf_write_uint32_BE (lines 1207-1214): store the low 32 bits of
`num` in big-endian order at `off` (the `uint32_t` parameter conversion
wraps modulo 2^32; the loop emits `num % 256` and divides by 256). -/
def bshuf_write_uint32_BE (buf : MBuf) (off : Int) (num : Nat) : MBuf :=
  fun m =>
    if m = off then num % 2 ^ 32 / 256 / 256 / 256 % 256
    else if m = off + 1 then num % 2 ^ 32 / 256 / 256 % 256
    else if m = off + 2 then num % 2 ^ 32 / 256 % 256
    else if m = off + 3 then num % 2 ^ 32 % 256
    else buf m

/-- bshuf_read_uint32_BE (lines 1218-1226): accumulate the four bytes with
powers of 256 (as `uint8_t` reads, each byte keeps its low 8 bits). -/
def bshuf_read_uint32_BE (buf : MBuf) (off : Int) : Nat :=
  buf off % 256 * (256 * 256 * 256) + buf (off + 1) % 256 * (256 * 256)
    + buf (off + 2) % 256 * 256 + buf (off + 3) % 256

/-- Conversion of a `uint32_t` value to the `int32_t` variable
`nbytes_from_header` (line 1279): wraps modulo 2^32 into the signed range. -/
def int32OfUInt32 (v : Nat) : Int :=
  if v < 2 ^ 31 then (v : Int) else (v : Int) - 2 ^ 32

/-! The LZ4 container (lines 1230-1313). LZ4 itself is an external
collaborator; its primitives are a parameter. -/

/-- External LZ4 primitives, each returning the C `int` result together
with the bytes they produce: `compress src` (LZ4_compress, count = bytes
written), `decompressFast src origSize` (LZ4_decompress_fast, count =
bytes consumed from `src`), `decompressSafe src compressedLen maxOut`
(LZ4_decompress_safe, count = bytes produced). -/
structure LZ4Codec where
  compress : List Nat → Int × List Nat
  compressBound : Nat → Nat
  decompressFast : (Nat → Nat) → Nat → Int × List Nat
  decompressSafe : (Nat → Nat) → Int → Nat → Int × List Nat

/-- Line 42: `#define BSHUF_LZ4_DECOMPRESS_FAST` is present unconditionally
in bitshuffle.c, so every build of this source uses LZ4_decompress_fast. -/
def BSHUF_LZ4_DECOMPRESS_FAST : Bool := true

/-- Overwrite `len` bytes of `base` at `off` with the bytes of list `l`
(the memcpy of an LZ4 staging buffer into the output stream). -/
def listSplice (base : MBuf) (off : Int) (len : Nat) (l : List Nat) : MBuf :=
  fun m => if off ≤ m ∧ m < off + len then l.getD (m - off).toNat 0 else base m

/-- bshuf_compress_lz4_block (lines 1230-1268): advance the input head by
the block, bit-shuffle into scratch, LZ4-compress the scratch (an LZ4
failure `nbytes < 0` is surfaced as `nbytes - 1000`), then reserve
`nbytes + 4` output bytes, write the 4-byte big-endian header and copy the
payload. -/
def bshuf_compress_lz4_block (lz : LZ4Codec) (inb : MBuf) (inPos outPos : Int)
    (outBuf : MBuf) (size es : Nat) : BlockResult :=
  match bshuf_trans_bit_elem (fun i => inb (inPos + (i : Int))) (fun _ => 0) size es with
  | (c, shuf) =>
    if c < 0 then ⟨inPos + ((size * es : Nat) : Int), outPos, outBuf, c⟩
    else
      match lz.compress ((List.range (size * es)).map shuf) with
      | (nbytes, payload) =>
        if nbytes < 0 then
          ⟨inPos + ((size * es : Nat) : Int), outPos, outBuf, nbytes - 1000⟩
        else
          ⟨inPos + ((size * es : Nat) : Int), outPos + nbytes + 4,
            listSplice (bshuf_write_uint32_BE outBuf outPos nbytes.toNat) (outPos + 4)
              nbytes.toNat payload,
            nbytes + 4⟩

/-- bshuf_decompress_lz4_block (lines 1272-1313), parameterized over the
build-time fast/safe switch: parse the 4-byte big-endian header into the
signed 32-bit `nbytes_from_header`, advance the input head by
`nbytes_from_header + 4` and the output head by `size * elem_size`, LZ4
decompress into scratch (failures surfaced as `nbytes - 1000`), check the
length (fast mode: bytes consumed against the header; safe mode: bytes
produced against `size * elem_size`) failing with -91, then bit-unshuffle
the scratch into the output region and return the header length plus 4. -/
def bshuf_decompress_lz4_block_mode (useFast : Bool) (lz : LZ4Codec) (inb : MBuf)
    (inPos outPos : Int) (outBuf : MBuf) (size es : Nat) : BlockResult :=
  let hdr : Int := int32OfUInt32 (bshuf_read_uint32_BE inb inPos)
  let inPos' : Int := inPos + hdr + 4
  let outPos' : Int := outPos + ((size * es : Nat) : Int)
  if useFast then
    match lz.decompressFast (fun i => inb (inPos + 4 + (i : Int))) (size * es) with
    | (nbytes, decomp) =>
      if nbytes < 0 then ⟨inPos', outPos', outBuf, nbytes - 1000⟩
      else if nbytes ≠ hdr then ⟨inPos', outPos', outBuf, -91⟩
      else
        match bshuf_untrans_bit_elem (fun i => decomp.getD i 0)
            (fun i => outBuf (outPos + (i : Int))) size es with
        | (c, sub) =>
          if c < 0 then ⟨inPos', outPos', outBuf, c⟩
          else ⟨inPos', outPos', splice outBuf outPos (size * es) sub, nbytes + 4⟩
  else
    match lz.decompressSafe (fun i => inb (inPos + 4 + (i : Int))) hdr (size * es) with
    | (nbytes, decomp) =>
      if nbytes < 0 then ⟨inPos', outPos', outBuf, nbytes - 1000⟩
      else if nbytes ≠ ((size * es : Nat) : Int) then ⟨inPos', outPos', outBuf, -91⟩
      else
        match bshuf_untrans_bit_elem (fun i => decomp.getD i 0)
            (fun i => outBuf (outPos + (i : Int))) size es with
        | (c, sub) =>
          if c < 0 then ⟨inPos', outPos', outBuf, c⟩
          else ⟨inPos', outPos', splice outBuf outPos (size * es) sub, hdr + 4⟩

/-- bshuf_decompress_lz4_block as built (the fast switch is defined). -/
def bshuf_decompress_lz4_block (lz : LZ4Codec) : BlockFun :=
  bshuf_decompress_lz4_block_mode BSHUF_LZ4_DECOMPRESS_FAST lz

/-- bshuf_compress_lz4 (lines 1371-1375). -/
def bshuf_compress_lz4 (lz : LZ4Codec) (inb out0 : MBuf)
    (size elem_size block_size : Nat) : Int × MBuf :=
  bshuf_blocked_wrap_fun (bshuf_compress_lz4_block lz) inb out0 size elem_size block_size

/-- bshuf_decompress_lz4 (lines 1378-1382). -/
def bshuf_decompress_lz4 (lz : LZ4Codec) (inb out0 : MBuf)
    (size elem_size block_size : Nat) : Int × MBuf :=
  bshuf_blocked_wrap_fun (bshuf_decompress_lz4_block lz) inb out0 size elem_size block_size

/-! Behaviour of the blocked wrapper on the shuffle and unshuffle workers. -/

theorem wrapStep_eq (f : BlockFun) (inb : MBuf) (block es : Nat) (st : WrapState) :
    wrapStep f inb block es st
      = ⟨(f inb st.inPos st.outPos st.outBuf block es).inPos,
          (f inb st.inPos st.outPos st.outBuf block es).outPos,
          (f inb st.inPos st.outPos st.outBuf block es).outBuf,
          st.cum + (f inb st.inPos st.outPos st.outBuf block es).count,
          if (f inb st.inPos st.outPos st.outBuf block es).count < 0 then
            (f inb st.inPos st.outPos st.outBuf block es).count
          else st.err⟩ := rfl

theorem bshuf_bitshuffle_block_eq (inb : MBuf) (ip op : Int) (ob : MBuf) (n es : Nat) :
    bshuf_bitshuffle_block inb ip op ob n es
      = ⟨ip + ((n * es : Nat) : Int), op + ((n * es : Nat) : Int),
          splice ob op (n * es)
            (bshuf_trans_bit_elem (fun i => inb (ip + (i : Int)))
              (fun i => ob (op + (i : Int))) n es).2,
          (bshuf_trans_bit_elem (fun i => inb (ip + (i : Int)))
            (fun i => ob (op + (i : Int))) n es).1⟩ := rfl

theorem bshuf_bitunshuffle_block_eq (inb : MBuf) (ip op : Int) (ob : MBuf) (n es : Nat) :
    bshuf_bitunshuffle_block inb ip op ob n es
      = ⟨ip + ((n * es : Nat) : Int), op + ((n * es : Nat) : Int),
          splice ob op (n * es)
            (bshuf_untrans_bit_elem (fun i => inb (ip + (i : Int)))
              (fun i => ob (op + (i : Int))) n es).2,
          (bshuf_untrans_bit_elem (fun i => inb (ip + (i : Int)))
            (fun i => ob (op + (i : Int))) n es).1⟩ := rfl

/-- Block `[a, a + bn)` (in elements) of `o` carries the bitshuffle of the
same block of `x`: bit `t` of byte `(j * 8 + k) * (bn / 8) + r` of the
block (element `8 * r + t` of bit plane `(j, k)`) is bit `k` of byte `j`
of element `8 * r + t`. -/
def Shuffled (x o : MBuf) (es a bn : Nat) : Prop :=
  ∀ j k r t, j < es → k < 8 → r < bn / 8 → t < 8 →
    (o ((a * es + ((j * 8 + k) * (bn / 8) + r) : Nat) : Int)).testBit t
      = (x ((a * es + ((8 * r + t) * es + j) : Nat) : Int)).testBit k

theorem block_index_lt {j k r bn es : Nat} (hj : j < es) (hk : k < 8) (hr : r < bn / 8)
    (h8 : bn % 8 = 0) : (j * 8 + k) * (bn / 8) + r < bn * es := by
  have h1 : j * 8 + k < es * 8 := by
    have := rowcol_lt hj hk
    omega
  have h2 := rowcol_lt h1 hr
  have h3 : es * 8 * (bn / 8) = bn * es := by
    have hK : bn = 8 * (bn / 8) := by omega
    calc es * 8 * (bn / 8) = 8 * (bn / 8) * es := by ring
      _ = bn * es := by rw [← hK]
  omega

/-- One shuffle block step: both heads advance by `bn * elem_size`, the
count accumulates, no error is recorded, the output region now carries the
shuffled block, and everything outside the region is untouched. -/
theorem bitshuffle_wrapStep_spec (x : MBuf) (es bn A : Nat) (st : WrapState)
    (hbn8 : bn % 8 = 0) (hin : st.inPos = ((A * es : Nat) : Int))
    (hout : st.outPos = ((A * es : Nat) : Int)) :
    (wrapStep bshuf_bitshuffle_block x bn es st).inPos = (((A + bn) * es : Nat) : Int)
    ∧ (wrapStep bshuf_bitshuffle_block x bn es st).outPos = (((A + bn) * es : Nat) : Int)
    ∧ (wrapStep bshuf_bitshuffle_block x bn es st).cum = st.cum + ((bn * es : Nat) : Int)
    ∧ (wrapStep bshuf_bitshuffle_block x bn es st).err = st.err
    ∧ Shuffled x (wrapStep bshuf_bitshuffle_block x bn es st).outBuf es A bn
    ∧ ∀ m : Int, (m < ((A * es : Nat) : Int) ∨ (((A + bn) * es : Nat) : Int) ≤ m) →
        (wrapStep bshuf_bitshuffle_block x bn es st).outBuf m = st.outBuf m := by
  obtain ⟨hc, hbits⟩ := bshuf_trans_bit_elem_scal_spec
    (fun i => x (st.inPos + (i : Int))) (fun i => st.outBuf (st.outPos + (i : Int)))
    bn es hbn8
  have hc2 : (bshuf_trans_bit_elem (fun i => x (st.inPos + (i : Int)))
      (fun i => st.outBuf (st.outPos + (i : Int))) bn es).1 = ((bn * es : Nat) : Int) := hc
  have hbits2 : ∀ j k r t, j < es → k < 8 → r < bn / 8 → t < 8 →
      ((bshuf_trans_bit_elem (fun i => x (st.inPos + (i : Int)))
          (fun i => st.outBuf (st.outPos + (i : Int))) bn es).2
        ((j * 8 + k) * (bn / 8) + r)).testBit t
        = (x (st.inPos + (((8 * r + t) * es + j : Nat) : Int))).testBit k := hbits
  rw [wrapStep_eq, bshuf_bitshuffle_block_eq]
  dsimp only
  have hsum : (((A + bn) * es : Nat) : Int) = ((A * es : Nat) : Int) + ((bn * es : Nat) : Int) := by
    push_cast
    ring
  have hcast : ∀ u : Nat, ((A * es : Nat) : Int) + ((u : Nat) : Int)
      = ((A * es + u : Nat) : Int) := by
    intro u
    push_cast
    ring
  refine ⟨?_, ?_, ?_, ?_, ?_, ?_⟩
  · rw [hin, hsum]
  · rw [hout, hsum]
  · rw [hc2]
  · rw [hc2, if_neg (not_lt.2 (Int.natCast_nonneg _))]
  · intro j k r t hj hk hr ht
    have hlt := block_index_lt hj hk hr hbn8
    unfold splice
    rw [if_pos ⟨by rw [hout]; omega, by rw [hout]; omega⟩]
    have htn : ((((A * es + ((j * 8 + k) * (bn / 8) + r) : Nat) : Int)) - st.outPos).toNat
        = (j * 8 + k) * (bn / 8) + r := by
      rw [hout]
      omega
    rw [htn, hbits2 j k r t hj hk hr ht, hin, hcast]
  · intro m hm
    unfold splice
    rw [if_neg ?_]
    rintro ⟨hc1, hc2⟩
    rw [hout] at hc1 hc2
    rcases hm with hm | hm
    · omega
    · rw [hsum] at hm
      omega

/-- One unshuffle block step on a buffer whose current block is shuffled
data of `x`: heads and count advance, no error, and the output region now
carries the original bytes of `x`. -/
theorem bitunshuffle_wrapStep_spec (x o1 : MBuf) (es bn A : Nat) (st : WrapState)
    (hbn8 : bn % 8 = 0) (hin : st.inPos = ((A * es : Nat) : Int))
    (hout : st.outPos = ((A * es : Nat) : Int))
    (hsh : Shuffled x o1 es A bn)
    (hx : ∀ i : Nat, i < bn * es → x ((A * es + i : Nat) : Int) < 256) :
    (wrapStep bshuf_bitunshuffle_block o1 bn es st).inPos = (((A + bn) * es : Nat) : Int)
    ∧ (wrapStep bshuf_bitunshuffle_block o1 bn es st).outPos = (((A + bn) * es : Nat) : Int)
    ∧ (wrapStep bshuf_bitunshuffle_block o1 bn es st).cum = st.cum + ((bn * es : Nat) : Int)
    ∧ (wrapStep bshuf_bitunshuffle_block o1 bn es st).err = st.err
    ∧ (∀ u : Nat, u < bn * es →
        (wrapStep bshuf_bitunshuffle_block o1 bn es st).outBuf ((A * es + u : Nat) : Int)
          = x ((A * es + u : Nat) : Int))
    ∧ ∀ m : Int, (m < ((A * es : Nat) : Int) ∨ (((A + bn) * es : Nat) : Int) ≤ m) →
        (wrapStep bshuf_bitunshuffle_block o1 bn es st).outBuf m = st.outBuf m := by
  have hcast : ∀ u : Nat, ((A * es : Nat) : Int) + ((u : Nat) : Int)
      = ((A * es + u : Nat) : Int) := by
    intro u
    push_cast
    ring
  have hyb : ∀ j k r t, j < es → k < 8 → r < bn / 8 → t < 8 →
      ((fun i : Nat => o1 (st.inPos + (i : Int))) ((j * 8 + k) * (bn / 8) + r)).testBit t
        = ((fun i : Nat => x ((A * es + i : Nat) : Int)) ((8 * r + t) * es + j)).testBit k := by
    intro j k r t hj hk hr ht
    have h := hsh j k r t hj hk hr ht
    dsimp only
    rw [hin, hcast]
    exact h
  obtain ⟨hc, hres⟩ := untrans_shuffled_block
    (fun i : Nat => x ((A * es + i : Nat) : Int))
    (fun i : Nat => o1 (st.inPos + (i : Int)))
    (fun i : Nat => st.outBuf (st.outPos + (i : Int))) bn es hbn8 hyb hx
  have hc2 : (bshuf_untrans_bit_elem (fun i => o1 (st.inPos + (i : Int)))
      (fun i => st.outBuf (st.outPos + (i : Int))) bn es).1 = ((bn * es : Nat) : Int) := hc
  have hres2 : ∀ m, m < bn * es →
      (bshuf_untrans_bit_elem (fun i => o1 (st.inPos + (i : Int)))
        (fun i => st.outBuf (st.outPos + (i : Int))) bn es).2 m
        = x ((A * es + m : Nat) : Int) := hres
  rw [wrapStep_eq, bshuf_bitunshuffle_block_eq]
  dsimp only
  have hsum : (((A + bn) * es : Nat) : Int)
      = ((A * es : Nat) : Int) + ((bn * es : Nat) : Int) := by
    push_cast
    ring
  refine ⟨?_, ?_, ?_, ?_, ?_, ?_⟩
  · rw [hin, hsum]
  · rw [hout, hsum]
  · rw [hc2]
  · rw [hc2, if_neg (not_lt.2 (Int.natCast_nonneg _))]
  · intro u hu
    unfold splice
    rw [if_pos ⟨by rw [hout]; omega, by rw [hout]; omega⟩]
    have htn : ((((A * es + u : Nat) : Int)) - st.outPos).toNat = u := by
      rw [hout]
      omega
    rw [htn, hres2 u hu]
  · intro m hm
    unfold splice
    rw [if_neg ?_]
    rintro ⟨hc1, hc2⟩
    rw [hout] at hc1 hc2
    rcases hm with hm | hm
    · omega
    · rw [hsum] at hm
      omega

/-- The full-block loop of the shuffle run: after `n` blocks of `bs`
elements, both heads, the count, the absence of errors, and the shuffled
contents of all `n` blocks. -/
theorem bitshuffle_fold_spec (x out0 : MBuf) (es bs : Nat) (hbs8 : bs % 8 = 0) (n : Nat) :
    (iterFold n (fun _ st => wrapStep bshuf_bitshuffle_block x bs es st)
        (⟨0, 0, out0, 0, 0⟩ : WrapState)).inPos = ((n * bs * es : Nat) : Int)
    ∧ (iterFold n (fun _ st => wrapStep bshuf_bitshuffle_block x bs es st)
        (⟨0, 0, out0, 0, 0⟩ : WrapState)).outPos = ((n * bs * es : Nat) : Int)
    ∧ (iterFold n (fun _ st => wrapStep bshuf_bitshuffle_block x bs es st)
        (⟨0, 0, out0, 0, 0⟩ : WrapState)).cum = ((n * bs * es : Nat) : Int)
    ∧ (iterFold n (fun _ st => wrapStep bshuf_bitshuffle_block x bs es st)
        (⟨0, 0, out0, 0, 0⟩ : WrapState)).err = 0
    ∧ ∀ b, b < n → Shuffled x
        (iterFold n (fun _ st => wrapStep bshuf_bitshuffle_block x bs es st)
          (⟨0, 0, out0, 0, 0⟩ : WrapState)).outBuf es (b * bs) bs := by
  induction n with
  | zero => exact ⟨by simp, by simp, by simp, rfl, fun b hb => absurd hb (by omega)⟩
  | succ n ih =>
    obtain ⟨h1, h2, h3, h4, h5⟩ := ih
    rw [iterFold_succ]
    have hmul : ∀ q : Nat, q * bs * es = q * bs * es := fun _ => rfl
    have hin : (iterFold n (fun _ st => wrapStep bshuf_bitshuffle_block x bs es st)
        (⟨0, 0, out0, 0, 0⟩ : WrapState)).inPos = ((n * bs * es : Nat) : Int) := h1
    obtain ⟨s1, s2, s3, s4, s5, s6⟩ := bitshuffle_wrapStep_spec x es bs (n * bs)
      (iterFold n (fun _ st => wrapStep bshuf_bitshuffle_block x bs es st)
        (⟨0, 0, out0, 0, 0⟩ : WrapState)) hbs8 h1 h2
    have hnb : (n * bs + bs) * es = (n + 1) * bs * es := by ring
    refine ⟨by rw [s1, hnb], by rw [s2, hnb], ?_, by rw [s4, h4], ?_⟩
    · rw [s3, h3]
      push_cast
      ring
    · intro b hb
      rcases Nat.lt_or_ge b n with hbn | hbn
      · -- older block, untouched by this step
        intro j k r t hj hk hr ht
        have hi1 := block_index_lt hj hk hr hbs8
        have hfr1 : (((b * bs) * es + ((j * 8 + k) * (bs / 8) + r) : Nat) : Int)
            < (((n * bs) * es : Nat) : Int) := by
          have hb1 : (b * bs) * es + ((j * 8 + k) * (bs / 8) + r) < (b + 1) * (bs * es) := by
            have : (b + 1) * (bs * es) = b * bs * es + bs * es := by ring
            omega
          have hb2 : (b + 1) * (bs * es) ≤ n * (bs * es) := Nat.mul_le_mul_right _ (by omega)
          have hb3 : n * (bs * es) = n * bs * es := by ring
          exact_mod_cast by omega
        have hi2 : (8 * r + t) * es + j < bs * es := by
          have hb1 : 8 * r + t < bs := by omega
          have := rowcol_lt hb1 hj
          omega
        rw [s6 _ (Or.inl hfr1)]
        exact h5 b hbn j k r t hj hk hr ht
      · have hb' : b = n := by omega
        subst hb'
        exact s5

/-- The full-block loop of the unshuffle run over a buffer whose blocks are
shuffled data of `x`: after `n` blocks the first `n * bs * es` bytes of the
output are restored to `x`. -/
theorem bitunshuffle_fold_spec (x o1 out1 : MBuf) (es bs : Nat) (hbs8 : bs % 8 = 0)
    (n : Nat) (hsh : ∀ b, b < n → Shuffled x o1 es (b * bs) bs)
    (hx : ∀ i : Nat, i < n * bs * es → x ((i : Nat) : Int) < 256) :
    (iterFold n (fun _ st => wrapStep bshuf_bitunshuffle_block o1 bs es st)
        (⟨0, 0, out1, 0, 0⟩ : WrapState)).inPos = ((n * bs * es : Nat) : Int)
    ∧ (iterFold n (fun _ st => wrapStep bshuf_bitunshuffle_block o1 bs es st)
        (⟨0, 0, out1, 0, 0⟩ : WrapState)).outPos = ((n * bs * es : Nat) : Int)
    ∧ (iterFold n (fun _ st => wrapStep bshuf_bitunshuffle_block o1 bs es st)
        (⟨0, 0, out1, 0, 0⟩ : WrapState)).cum = ((n * bs * es : Nat) : Int)
    ∧ (iterFold n (fun _ st => wrapStep bshuf_bitunshuffle_block o1 bs es st)
        (⟨0, 0, out1, 0, 0⟩ : WrapState)).err = 0
    ∧ ∀ m : Nat, m < n * bs * es →
        (iterFold n (fun _ st => wrapStep bshuf_bitunshuffle_block o1 bs es st)
          (⟨0, 0, out1, 0, 0⟩ : WrapState)).outBuf ((m : Nat) : Int) = x ((m : Nat) : Int) := by
  induction n with
  | zero => exact ⟨by simp, by simp, by simp, rfl, fun m hm => absurd hm (by omega)⟩
  | succ n ih =>
    obtain ⟨h1, h2, h3, h4, h5⟩ := ih (fun b hb => hsh b (by omega))
      (fun i hi => hx i (by
        have : n * (bs * es) ≤ (n + 1) * (bs * es) := Nat.mul_le_mul_right _ (by omega)
        have e1 : n * (bs * es) = n * bs * es := by ring
        have e2 : (n + 1) * (bs * es) = (n + 1) * bs * es := by ring
        omega))
    rw [iterFold_succ]
    obtain ⟨s1, s2, s3, s4, s5, s6⟩ := bitunshuffle_wrapStep_spec x o1 es bs (n * bs)
      (iterFold n (fun _ st => wrapStep bshuf_bitunshuffle_block o1 bs es st)
        (⟨0, 0, out1, 0, 0⟩ : WrapState)) hbs8 h1 h2 (hsh n (by omega))
      (fun i hi => by
        refine hx (n * bs * es + i) ?_
        have e2 : (n + 1) * bs * es = n * bs * es + bs * es := by ring
        omega)
    have hnb : (n * bs + bs) * es = (n + 1) * bs * es := by ring
    refine ⟨by rw [s1, hnb], by rw [s2, hnb], ?_, by rw [s4, h4], ?_⟩
    · rw [s3, h3]
      push_cast
      ring
    · intro m hm
      rcases Nat.lt_or_ge m (n * bs * es) with hmn | hmn
      · rw [s6 _ (Or.inl (by exact_mod_cast hmn))]
        exact h5 m hmn
      · have hu : m = n * bs * es + (m - n * bs * es) := by omega
        have hub : m - n * bs * es < bs * es := by
          have e2 : (n + 1) * bs * es = n * bs * es + bs * es := by ring
          omega
        have := s5 (m - n * bs * es) hub
        rw [show (n * bs) * es + (m - n * bs * es) = m by omega] at this
        exact this

theorem bshuf_default_block_size_ge (es : Nat) : 128 ≤ bshuf_default_block_size es := by
  unfold bshuf_default_block_size
  split <;> omega

theorem bshuf_default_block_size_mod8 (es : Nat) : bshuf_default_block_size es % 8 = 0 := by
  unfold bshuf_default_block_size
  split <;> omega

/-- Arithmetic of the block partition: full blocks plus the rounded-down
partial block cover exactly the first `size - size % 8` elements. -/
theorem partition_arith (size bs : Nat) (hbs8 : bs % 8 = 0) (hbs0 : 0 < bs)
    (h8 : size % 8 = 0) :
    size / bs * bs + (size % bs - size % bs % 8) = size - size % 8
    ∧ (size % bs - size % bs % 8) % 8 = 0 := by
  have hdm := Nat.div_add_mod size bs
  have hP : size / bs * bs % 8 = 0 := mul_mod8_right (size / bs) bs hbs8
  have hcomm : bs * (size / bs) = size / bs * bs := by ring
  omega

/-- The whole shuffle-side block loop: both heads, the count, success, and
the shuffled contents of every full block and of the partial block. -/
theorem bitshuffle_loop_spec (x out0 : MBuf) (size es bs : Nat)
    (hbs8 : bs % 8 = 0) (hbs0 : 0 < bs) (h8 : size % 8 = 0) :
    (bshuf_blocked_loop bshuf_bitshuffle_block x out0 size es bs).inPos
        = (((size - size % 8) * es : Nat) : Int)
    ∧ (bshuf_blocked_loop bshuf_bitshuffle_block x out0 size es bs).outPos
        = (((size - size % 8) * es : Nat) : Int)
    ∧ (bshuf_blocked_loop bshuf_bitshuffle_block x out0 size es bs).cum
        = (((size - size % 8) * es : Nat) : Int)
    ∧ (bshuf_blocked_loop bshuf_bitshuffle_block x out0 size es bs).err = 0
    ∧ (∀ b, b < size / bs → Shuffled x
        (bshuf_blocked_loop bshuf_bitshuffle_block x out0 size es bs).outBuf es (b * bs) bs)
    ∧ (size % bs - size % bs % 8 ≠ 0 → Shuffled x
        (bshuf_blocked_loop bshuf_bitshuffle_block x out0 size es bs).outBuf es
        (size / bs * bs) (size % bs - size % bs % 8)) := by
  obtain ⟨hq, hl8⟩ := partition_arith size bs hbs8 hbs0 h8
  unfold bshuf_blocked_loop
  by_cases hlbs : size % bs - size % bs % 8 ≠ 0
  · rw [if_pos hlbs]
    obtain ⟨f1, f2, f3, f4, f5⟩ := bitshuffle_fold_spec x out0 es bs hbs8 (size / bs)
    obtain ⟨s1, s2, s3, s4, s5, s6⟩ := bitshuffle_wrapStep_spec x es
      (size % bs - size % bs % 8) (size / bs * bs) _ hl8 f1 f2
    have he : (size / bs * bs + (size % bs - size % bs % 8)) * es
        = (size - size % 8) * es := by rw [hq]
    refine ⟨by rw [s1, he], by rw [s2, he], ?_, by rw [s4, f4], ?_, fun _ => s5⟩
    · rw [s3, f3]
      have h2 : (size - size % 8) * es
          = size / bs * bs * es + (size % bs - size % bs % 8) * es := by
        rw [← hq]
        ring
      rw [h2]
      push_cast
      ring
    · intro b hb j k r t hj hk hr ht
      have hi1 := block_index_lt hj hk hr hbs8
      have hfr : ((b * bs * es + ((j * 8 + k) * (bs / 8) + r) : Nat) : Int)
          < ((size / bs * bs * es : Nat) : Int) := by
        have hb1 : (b + 1) * (bs * es) = b * bs * es + bs * es := by ring
        have hb2 : (b + 1) * (bs * es) ≤ size / bs * (bs * es) :=
          Nat.mul_le_mul_right _ (by omega)
        have hb3 : size / bs * (bs * es) = size / bs * bs * es := by ring
        exact_mod_cast by omega
      rw [s6 _ (Or.inl hfr)]
      exact f5 b hb j k r t hj hk hr ht
  · rw [if_neg hlbs]
    have hlz : size % bs - size % bs % 8 = 0 := by omega
    obtain ⟨f1, f2, f3, f4, f5⟩ := bitshuffle_fold_spec x out0 es bs hbs8 (size / bs)
    have he : size / bs * bs * es = (size - size % 8) * es := by
      have h2 : size / bs * bs = size - size % 8 := by omega
      rw [h2]
    exact ⟨by rw [f1, he], by rw [f2, he], by rw [f3, he], f4, f5,
      fun h => absurd hlz h⟩

/-- The whole unshuffle-side block loop over a buffer carrying shuffled
data of `x`: it restores the first `(size - size % 8) * es` bytes. -/
theorem bitunshuffle_loop_spec (x o1 out1 : MBuf) (size es bs : Nat)
    (hbs8 : bs % 8 = 0) (hbs0 : 0 < bs) (h8 : size % 8 = 0)
    (hshF : ∀ b, b < size / bs → Shuffled x o1 es (b * bs) bs)
    (hshP : size % bs - size % bs % 8 ≠ 0 →
      Shuffled x o1 es (size / bs * bs) (size % bs - size % bs % 8))
    (hx : ∀ i : Nat, i < (size - size % 8) * es → x ((i : Nat) : Int) < 256) :
    (bshuf_blocked_loop bshuf_bitunshuffle_block o1 out1 size es bs).inPos
        = (((size - size % 8) * es : Nat) : Int)
    ∧ (bshuf_blocked_loop bshuf_bitunshuffle_block o1 out1 size es bs).outPos
        = (((size - size % 8) * es : Nat) : Int)
    ∧ (bshuf_blocked_loop bshuf_bitunshuffle_block o1 out1 size es bs).cum
        = (((size - size % 8) * es : Nat) : Int)
    ∧ (bshuf_blocked_loop bshuf_bitunshuffle_block o1 out1 size es bs).err = 0
    ∧ ∀ m : Nat, m < (size - size % 8) * es →
        (bshuf_blocked_loop bshuf_bitunshuffle_block o1 out1 size es bs).outBuf
          ((m : Nat) : Int) = x ((m : Nat) : Int) := by
  obtain ⟨hq, hl8⟩ := partition_arith size bs hbs8 hbs0 h8
  have hsz : size / bs * bs * es + (size % bs - size % bs % 8) * es
      = (size - size % 8) * es := by
    rw [← hq]
    ring
  have hxF : ∀ i : Nat, i < size / bs * bs * es → x ((i : Nat) : Int) < 256 :=
    fun i hi => hx i (by omega)
  unfold bshuf_blocked_loop
  by_cases hlbs : size % bs - size % bs % 8 ≠ 0
  · rw [if_pos hlbs]
    obtain ⟨f1, f2, f3, f4, f5⟩ := bitunshuffle_fold_spec x o1 out1 es bs hbs8
      (size / bs) hshF hxF
    obtain ⟨s1, s2, s3, s4, s5, s6⟩ := bitunshuffle_wrapStep_spec x o1 es
      (size % bs - size % bs % 8) (size / bs * bs) _ hl8 f1 f2 (hshP hlbs)
      (fun i hi => hx (size / bs * bs * es + i) (by omega))
    have he : (size / bs * bs + (size % bs - size % bs % 8)) * es
        = (size - size % 8) * es := by rw [hq]
    refine ⟨by rw [s1, he], by rw [s2, he], ?_, by rw [s4, f4], ?_⟩
    · rw [s3, f3, ← hsz]
      push_cast
      ring
    · intro m hm
      rcases Nat.lt_or_ge m (size / bs * bs * es) with hmn | hmn
      · rw [s6 _ (Or.inl (by exact_mod_cast hmn))]
        exact f5 m hmn
      · have hub : m - size / bs * bs * es < (size % bs - size % bs % 8) * es := by omega
        have := s5 (m - size / bs * bs * es) hub
        rw [show size / bs * bs * es + (m - size / bs * bs * es) = m by omega] at this
        exact this
  · rw [if_neg hlbs]
    have hlz : size % bs - size % bs % 8 = 0 := by omega
    obtain ⟨f1, f2, f3, f4, f5⟩ := bitunshuffle_fold_spec x o1 out1 es bs hbs8
      (size / bs) hshF hxF
    have he : size / bs * bs * es = (size - size % 8) * es := by
      have h2 : size / bs * bs = size - size % 8 := by omega
      rw [h2]
    exact ⟨by rw [f1, he], by rw [f2, he], by rw [f3, he], f4, fun m hm => f5 m (by omega)⟩

/-- C1: for every buffer of `size` elements of `elem_size` bytes with
`size % 8 == 0` (elem_size ≥ 1, any valid block size used for both calls),
bshuf_bitshuffle followed by bshuf_bitunshuffle reproduces the buffer byte
for byte (both calls succeeding with count `size * elem_size`). -/
theorem C1_bitshuffle_roundtrip (x out0 out1 : MBuf) (size es bs0 : Nat)
    (h8 : size % 8 = 0) (hes : 1 ≤ es) (hbs : bs0 % 8 = 0)
    (hx : ∀ i : Nat, i < size * es → x ((i : Nat) : Int) < 256) :
    (bshuf_bitshuffle x out0 size es bs0).1 = ((size * es : Nat) : Int)
    ∧ (bshuf_bitunshuffle (bshuf_bitshuffle x out0 size es bs0).2 out1 size es bs0).1
        = ((size * es : Nat) : Int)
    ∧ ∀ m : Nat, m < size * es →
        (bshuf_bitunshuffle (bshuf_bitshuffle x out0 size es bs0).2 out1 size es bs0).2
          ((m : Nat) : Int) = x ((m : Nat) : Int) := by
  set bsr := if bs0 = 0 then bshuf_default_block_size es else bs0 with hbsr
  have hbsr8 : bsr % 8 = 0 := by
    rw [hbsr]
    by_cases hb0 : bs0 = 0
    · rw [if_pos hb0]
      exact bshuf_default_block_size_mod8 es
    · rw [if_neg hb0]
      exact hbs
  have hbsr0 : 0 < bsr := by
    rw [hbsr]
    by_cases hb0 : bs0 = 0
    · rw [if_pos hb0]
      have := bshuf_default_block_size_ge es
      omega
    · rw [if_neg hb0]
      omega
  obtain ⟨hq, hl8⟩ := partition_arith size bsr hbsr8 hbsr0 h8
  have hsum : (size - size % 8) * es + size % 8 * es = size * es := by
    have h : size - size % 8 + size % 8 = size := by omega
    calc (size - size % 8) * es + size % 8 * es = (size - size % 8 + size % 8) * es := by
          ring
      _ = size * es := by rw [h]
  obtain ⟨p1, p2, p3, p4, p5, p6⟩ := bitshuffle_loop_spec x out0 size es bsr hbsr8 hbsr0 h8
  have hwrap : bshuf_bitshuffle x out0 size es bs0
      = ((bshuf_blocked_loop bshuf_bitshuffle_block x out0 size es bsr).cum
            + ((size % 8 * es : Nat) : Int),
          spliceCopy (bshuf_blocked_loop bshuf_bitshuffle_block x out0 size es bsr).outBuf
            (bshuf_blocked_loop bshuf_bitshuffle_block x out0 size es bsr).outPos
            (size % 8 * es) x
            (bshuf_blocked_loop bshuf_bitshuffle_block x out0 size es bsr).inPos) := by
    unfold bshuf_bitshuffle bshuf_blocked_wrap_fun
    rw [← hbsr, if_neg (by omega), p4, if_neg (by norm_num)]
  have h1 : (bshuf_bitshuffle x out0 size es bs0).1 = ((size * es : Nat) : Int) := by
    rw [hwrap]
    dsimp only
    rw [p3, ← hsum]
    push_cast
    ring
  have hOSh_F : ∀ b, b < size / bsr →
      Shuffled x (bshuf_bitshuffle x out0 size es bs0).2 es (b * bsr) bsr := by
    intro b hb j k r t hj hk hr ht
    rw [hwrap]
    dsimp only
    unfold spliceCopy
    rw [if_neg ?_]
    · exact p5 b hb j k r t hj hk hr ht
    · rintro ⟨c1, c2⟩
      rw [p2] at c1
      have hi1 := block_index_lt hj hk hr hbsr8
      have hb1 : (b + 1) * (bsr * es) ≤ size / bsr * (bsr * es) :=
        Nat.mul_le_mul_right _ (by omega)
      have hb2 : (b + 1) * (bsr * es) = b * bsr * es + bsr * es := by ring
      have hb3 : size / bsr * (bsr * es) = size / bsr * bsr * es := by ring
      have hb4 : size / bsr * bsr * es ≤ (size - size % 8) * es :=
        Nat.mul_le_mul_right es (by omega)
      omega
  have hOSh_P : size % bsr - size % bsr % 8 ≠ 0 →
      Shuffled x (bshuf_bitshuffle x out0 size es bs0).2 es (size / bsr * bsr)
        (size % bsr - size % bsr % 8) := by
    intro hlbs j k r t hj hk hr ht
    rw [hwrap]
    dsimp only
    unfold spliceCopy
    rw [if_neg ?_]
    · exact p6 hlbs j k r t hj hk hr ht
    · rintro ⟨c1, c2⟩
      rw [p2] at c1
      have hi1 := block_index_lt hj hk hr hl8
      have hb2 : (size / bsr * bsr + (size % bsr - size % bsr % 8)) * es
          = size / bsr * bsr * es + (size % bsr - size % bsr % 8) * es := by ring
      have hb4 : (size / bsr * bsr + (size % bsr - size % bsr % 8)) * es
          = (size - size % 8) * es := by rw [hq]
      omega
  have hOlv : ∀ t : Nat, t < size % 8 * es →
      (bshuf_bitshuffle x out0 size es bs0).2 (((size - size % 8) * es + t : Nat) : Int)
        = x (((size - size % 8) * es + t : Nat) : Int) := by
    intro t ht
    rw [hwrap]
    dsimp only
    unfold spliceCopy
    rw [if_pos ⟨by rw [p2]; omega, by rw [p2]; omega⟩, p1, p2]
    congr 1
    omega
  obtain ⟨q1, q2, q3, q4, q5⟩ := bitunshuffle_loop_spec x
    ((bshuf_bitshuffle x out0 size es bs0).2) out1 size es bsr hbsr8 hbsr0 h8
    hOSh_F hOSh_P (fun i hi => hx i (by
      have := Nat.mul_le_mul_right es (show size - size % 8 ≤ size by omega)
      omega))
  have hwrap2 : bshuf_bitunshuffle (bshuf_bitshuffle x out0 size es bs0).2 out1 size es bs0
      = ((bshuf_blocked_loop bshuf_bitunshuffle_block
              (bshuf_bitshuffle x out0 size es bs0).2 out1 size es bsr).cum
            + ((size % 8 * es : Nat) : Int),
          spliceCopy
            (bshuf_blocked_loop bshuf_bitunshuffle_block
              (bshuf_bitshuffle x out0 size es bs0).2 out1 size es bsr).outBuf
            (bshuf_blocked_loop bshuf_bitunshuffle_block
              (bshuf_bitshuffle x out0 size es bs0).2 out1 size es bsr).outPos
            (size % 8 * es) (bshuf_bitshuffle x out0 size es bs0).2
            (bshuf_blocked_loop bshuf_bitunshuffle_block
              (bshuf_bitshuffle x out0 size es bs0).2 out1 size es bsr).inPos) := by
    unfold bshuf_bitunshuffle bshuf_blocked_wrap_fun
    rw [← hbsr, if_neg (by omega), q4, if_neg (by norm_num)]
  refine ⟨h1, ?_, ?_⟩
  · rw [hwrap2]
    dsimp only
    rw [q3, ← hsum]
    push_cast
    ring
  · intro m hm
    rw [hwrap2]
    dsimp only
    unfold spliceCopy
    rcases Nat.lt_or_ge m ((size - size % 8) * es) with hmS | hmS
    · rw [if_neg ?_]
      · exact q5 m hmS
      · rintro ⟨c1, c2⟩
        rw [q2] at c1
        omega
    · rw [if_pos ⟨by rw [q2]; omega, by rw [q2]; omega⟩, q1, q2]
      have hlv := hOlv (m - (size - size % 8) * es) (by omega)
      rw [show (size - size % 8) * es + (m - (size - size % 8) * es) = m from by omega]
        at hlv
      rw [show ((((size - size % 8) * es : Nat) : Int)
            + (((m : Nat) : Int) - (((size - size % 8) * es : Nat) : Int)))
          = ((m : Nat) : Int) from by ring]
      exact hlv

/-- C1 witness: the round trip at size 8, elem_size 1, default block size. -/
theorem C1_witness :
    (8 : Nat) % 8 = 0
    ∧ (bshuf_bitshuffle (fun i => i.toNat % 256) (fun _ => 0) 8 1 0).1
        = ((8 * 1 : Nat) : Int)
    ∧ (bshuf_bitunshuffle (bshuf_bitshuffle (fun i => i.toNat % 256) (fun _ => 0) 8 1 0).2
          (fun _ => 0) 8 1 0).2 ((3 : Nat) : Int)
        = (fun i : Int => i.toNat % 256) ((3 : Nat) : Int) := by
  have h := C1_bitshuffle_roundtrip (fun i => i.toNat % 256) (fun _ => 0) (fun _ => 0)
    8 1 0 (by norm_num) (by norm_num) (by norm_num)
    (fun i hi => Nat.mod_lt _ (by norm_num))
  exact ⟨by norm_num, h.1, h.2.2 3 (by norm_num)⟩

/-- C3: bshuf_default_block_size elem_size equals
max(128, 8192 / elem_size / 8 * 8), is a multiple of 8, and is at least
128 (purity holds by construction: it is a function of `elem_size` only). -/
theorem C3_default_block_size (elem_size : Nat) (hes : 1 ≤ elem_size) :
    bshuf_default_block_size elem_size = max 128 (8192 / elem_size / 8 * 8)
    ∧ bshuf_default_block_size elem_size % 8 = 0
    ∧ 128 ≤ bshuf_default_block_size elem_size := by
  unfold bshuf_default_block_size
  refine ⟨?_, ?_, ?_⟩ <;> split <;> omega

/-- C3 witness at elem_size 4. -/
theorem C3_witness :
    bshuf_default_block_size 4 = max 128 (8192 / 4 / 8 * 8)
    ∧ bshuf_default_block_size 4 % 8 = 0
    ∧ 128 ≤ bshuf_default_block_size 4 :=
  C3_default_block_size 4 (by norm_num)

/-- C4 (amended): for the scalar bit-transpose-within-bytes primitive with
`nbyte = elem_size * size` a multiple of 8, output bit `k` of output byte
`m` equals input bit `m / (nbyte / 8)` of input byte `8 * (m % (nbyte / 8)) + k`
(the primitive scatters each transposed group across the `nbyte / 8`-byte
bit rows rather than transposing 8-byte groups in place); when `nbyte` is
not a multiple of 8 it fails with INVALID_SIZE (-80). -/
theorem C4_trans_bit_byte_spec (inb out0 : Buf) (size elem_size : Nat) :
    ((elem_size * size) % 8 = 0 →
      ∀ m k, m < elem_size * size → k < 8 →
        ((bshuf_trans_bit_byte_scal inb out0 size elem_size).2 m).testBit k
          = (inb (8 * (m % (elem_size * size / 8)) + k)).testBit
              (m / (elem_size * size / 8)))
    ∧ ((elem_size * size) % 8 ≠ 0 →
        (bshuf_trans_bit_byte_scal inb out0 size elem_size).1 = -80) := by
  constructor
  · intro h8 m k hm hk
    have hR : 0 < elem_size * size / 8 := by omega
    have hkk : m / (elem_size * size / 8) < 8 :=
      (Nat.div_lt_iff_lt_mul hR).2 (by omega)
    have hmod : m % (elem_size * size / 8) < elem_size * size / 8 := Nat.mod_lt _ hR
    have hchar := bshuf_trans_bit_byte_scal_get inb out0 size elem_size h8
      (m / (elem_size * size / 8)) (m % (elem_size * size / 8)) hkk hmod
    have hidx : m / (elem_size * size / 8) * (elem_size * size / 8)
        + m % (elem_size * size / 8) = m := by
      have h1 := Nat.div_add_mod m (elem_size * size / 8)
      have h2 : m / (elem_size * size / 8) * (elem_size * size / 8)
          = elem_size * size / 8 * (m / (elem_size * size / 8)) := by ring
      omega
    rw [hidx] at hchar
    rw [hchar, byteOfWord_testBit _ _ _ hk, TRANS_BIT_8X8_testBit _ _ (by omega),
      show (8 * (m / (elem_size * size / 8)) + k) % 8 = k by omega,
      show (8 * (m / (elem_size * size / 8)) + k) / 8 = m / (elem_size * size / 8) by omega,
      leWord8_testBit _ _ k (m / (elem_size * size / 8)) hk hkk]
  · intro h8
    unfold bshuf_trans_bit_byte_scal bshuf_trans_bit_byte_remainder
    rw [if_pos h8]

/-- C4 witness: at size 16, elem_size 1 (nbyte 16), the amended formula
holds at output byte 2, bit 0. -/
theorem C4_witness :
    (1 * 16) % 8 = 0
    ∧ ((bshuf_trans_bit_byte_scal (fun i => if i = 0 then 2 else 0) (fun _ => 0)
          16 1).2 2).testBit 0
        = ((fun i : Nat => if i = 0 then 2 else 0) (8 * (2 % (1 * 16 / 8)) + 0)).testBit
            (2 / (1 * 16 / 8)) :=
  ⟨by norm_num,
    (C4_trans_bit_byte_spec (fun i => if i = 0 then 2 else 0) (fun _ => 0) 16 1).1
      (by norm_num) 2 0 (by norm_num) (by norm_num)⟩

/-- C4 counterexample: with input byte 0 = 0x02 (size 16, elem_size 1), the
claim formula `out[m] bit k = in[8 * (m / 8) + k] bit (m % 8)` fails at
`m = 1, k = 0`: the code stores bit 1 of byte 0 at out byte 2 bit 0, not at
out byte 1 bit 0. -/
theorem C4_counterexample :
    ¬ (((bshuf_trans_bit_byte_scal (fun i => if i = 0 then 2 else 0) (fun _ => 0)
          16 1).2 1).testBit 0
        = ((fun i : Nat => if i = 0 then 2 else 0) (8 * (1 / 8) + 0)).testBit (1 % 8)) := by
  decide

/-- C7: for every worker, every size and elem_size ≥ 1, on success the
block framework copies the final `size % 8 * elem_size` leftover bytes
verbatim from the input head to the output head (both heads being where
the full and partial blocks left them) and returns the cumulative count
plus those leftover bytes. -/
theorem C7_blocked_leftover (f : BlockFun) (inb out0 : MBuf) (size es bs0 : Nat)
    (hes : 1 ≤ es) (bs : Nat)
    (hbs_def : bs = if bs0 = 0 then bshuf_default_block_size es else bs0)
    (hbs8 : bs % 8 = 0)
    (hsucc : 0 ≤ (bshuf_blocked_loop f inb out0 size es bs).err) :
    (bshuf_blocked_wrap_fun f inb out0 size es bs0).1
      = (bshuf_blocked_loop f inb out0 size es bs).cum + ((size % 8 * es : Nat) : Int)
    ∧ ∀ t : Nat, t < size % 8 * es →
        (bshuf_blocked_wrap_fun f inb out0 size es bs0).2
            ((bshuf_blocked_loop f inb out0 size es bs).outPos + (t : Int))
          = inb ((bshuf_blocked_loop f inb out0 size es bs).inPos + (t : Int)) := by
  subst hbs_def
  unfold bshuf_blocked_wrap_fun
  rw [if_neg (show ¬ ((if bs0 = 0 then bshuf_default_block_size es else bs0) % 8 ≠ 0) from
      by omega),
    if_neg (show ¬ ((bshuf_blocked_loop f inb out0 size es
        (if bs0 = 0 then bshuf_default_block_size es else bs0)).err < 0) from by omega)]
  refine ⟨rfl, ?_⟩
  intro t ht
  show spliceCopy _ _ _ _ _ _ = _
  unfold spliceCopy
  rw [if_pos ⟨by omega, by omega⟩]
  congr 1
  omega

/-- C7 witness: bitshuffle of 9 one-byte elements with block size 8; the
single leftover byte is copied and counted. -/
theorem C7_witness :
    (bshuf_blocked_wrap_fun bshuf_bitshuffle_block (fun i => i.toNat % 256) (fun _ => 0)
        9 1 8).1
      = (bshuf_blocked_loop bshuf_bitshuffle_block (fun i => i.toNat % 256) (fun _ => 0)
          9 1 8).cum + ((9 % 8 * 1 : Nat) : Int)
    ∧ (bshuf_blocked_wrap_fun bshuf_bitshuffle_block (fun i => i.toNat % 256) (fun _ => 0)
          9 1 8).2
        ((bshuf_blocked_loop bshuf_bitshuffle_block (fun i => i.toNat % 256) (fun _ => 0)
            9 1 8).outPos + ((0 : Nat) : Int))
      = (fun i : Int => i.toNat % 256)
          ((bshuf_blocked_loop bshuf_bitshuffle_block (fun i => i.toNat % 256) (fun _ => 0)
              9 1 8).inPos + ((0 : Nat) : Int)) := by
  have h := C7_blocked_leftover bshuf_bitshuffle_block (fun i => i.toNat % 256)
    (fun _ => 0) 9 1 8 (by norm_num) 8 (by norm_num) (by norm_num) (by decide)
  exact ⟨h.1, h.2 0 (by norm_num)⟩

/-- C10: for every nonzero block_size that is not a multiple of 8,
bshuf_compress_lz4_bound returns `-81` converted through its `size_t`
return type, i.e. `2^64 - 81 = SIZE_MAX - 80`, regardless of the
LZ4_compressBound function, size, and elem_size. -/
theorem C10_compress_bound_error (cb : Nat → Nat) (size elem_size bs0 : Nat)
    (h0 : bs0 ≠ 0) (h8 : bs0 % 8 ≠ 0) :
    bshuf_compress_lz4_bound cb size elem_size bs0 = 2 ^ 64 - 81 := by
  unfold bshuf_compress_lz4_bound
  rw [if_neg h0, if_pos h8]

/-- C10 witness at block_size 4. -/
theorem C10_witness :
    (4 : Nat) ≠ 0 ∧ (4 : Nat) % 8 ≠ 0
    ∧ bshuf_compress_lz4_bound (fun n => n) 16 1 4 = 2 ^ 64 - 81 :=
  ⟨by norm_num, by norm_num, C10_compress_bound_error (fun n => n) 16 1 4
    (by norm_num) (by norm_num)⟩

/-! Reduction lemmas for the LZ4 container workers (definitional: they
expose the match/let structure as projections and nested ifs). -/

theorem bshuf_read_uint32_BE_lt (buf : MBuf) (off : Int) :
    bshuf_read_uint32_BE buf off < 2 ^ 32 := by
  unfold bshuf_read_uint32_BE
  have h0 : buf off % 256 < 256 := Nat.mod_lt _ (by norm_num)
  have h1 : buf (off + 1) % 256 < 256 := Nat.mod_lt _ (by norm_num)
  have h2 : buf (off + 2) % 256 < 256 := Nat.mod_lt _ (by norm_num)
  have h3 : buf (off + 3) % 256 < 256 := Nat.mod_lt _ (by norm_num)
  omega

theorem bshuf_compress_lz4_block_eq (lz : LZ4Codec) (inb : MBuf) (inPos outPos : Int)
    (outBuf : MBuf) (size es : Nat) :
    bshuf_compress_lz4_block lz inb inPos outPos outBuf size es
      = if (bshuf_trans_bit_elem (fun i => inb (inPos + (i : Int))) (fun _ => 0)
            size es).1 < 0 then
          ⟨inPos + ((size * es : Nat) : Int), outPos, outBuf,
            (bshuf_trans_bit_elem (fun i => inb (inPos + (i : Int))) (fun _ => 0)
              size es).1⟩
        else if (lz.compress ((List.range (size * es)).map
            (bshuf_trans_bit_elem (fun i => inb (inPos + (i : Int))) (fun _ => 0)
              size es).2)).1 < 0 then
          ⟨inPos + ((size * es : Nat) : Int), outPos, outBuf,
            (lz.compress ((List.range (size * es)).map
              (bshuf_trans_bit_elem (fun i => inb (inPos + (i : Int))) (fun _ => 0)
                size es).2)).1 - 1000⟩
        else
          ⟨inPos + ((size * es : Nat) : Int),
            outPos + (lz.compress ((List.range (size * es)).map
              (bshuf_trans_bit_elem (fun i => inb (inPos + (i : Int))) (fun _ => 0)
                size es).2)).1 + 4,
            listSplice
              (bshuf_write_uint32_BE outBuf outPos
                ((lz.compress ((List.range (size * es)).map
                  (bshuf_trans_bit_elem (fun i => inb (inPos + (i : Int))) (fun _ => 0)
                    size es).2)).1).toNat)
              (outPos + 4)
              ((lz.compress ((List.range (size * es)).map
                (bshuf_trans_bit_elem (fun i => inb (inPos + (i : Int))) (fun _ => 0)
                  size es).2)).1).toNat
              (lz.compress ((List.range (size * es)).map
                (bshuf_trans_bit_elem (fun i => inb (inPos + (i : Int))) (fun _ => 0)
                  size es).2)).2,
            (lz.compress ((List.range (size * es)).map
              (bshuf_trans_bit_elem (fun i => inb (inPos + (i : Int))) (fun _ => 0)
                size es).2)).1 + 4⟩ := rfl

theorem bshuf_decompress_lz4_block_fast_eq (lz : LZ4Codec) (inb : MBuf)
    (inPos outPos : Int) (outBuf : MBuf) (size es : Nat) :
    bshuf_decompress_lz4_block lz inb inPos outPos outBuf size es
      = if (lz.decompressFast (fun i => inb (inPos + 4 + (i : Int))) (size * es)).1 < 0 then
          ⟨inPos + int32OfUInt32 (bshuf_read_uint32_BE inb inPos) + 4,
            outPos + ((size * es : Nat) : Int), outBuf,
            (lz.decompressFast (fun i => inb (inPos + 4 + (i : Int))) (size * es)).1
              - 1000⟩
        else if (lz.decompressFast (fun i => inb (inPos + 4 + (i : Int))) (size * es)).1
            ≠ int32OfUInt32 (bshuf_read_uint32_BE inb inPos) then
          ⟨inPos + int32OfUInt32 (bshuf_read_uint32_BE inb inPos) + 4,
            outPos + ((size * es : Nat) : Int), outBuf, -91⟩
        else if (bshuf_untrans_bit_elem
              (fun i => (lz.decompressFast (fun i => inb (inPos + 4 + (i : Int)))
                (size * es)).2.getD i 0)
              (fun i => outBuf (outPos + (i : Int))) size es).1 < 0 then
          ⟨inPos + int32OfUInt32 (bshuf_read_uint32_BE inb inPos) + 4,
            outPos + ((size * es : Nat) : Int), outBuf,
            (bshuf_untrans_bit_elem
              (fun i => (lz.decompressFast (fun i => inb (inPos + 4 + (i : Int)))
                (size * es)).2.getD i 0)
              (fun i => outBuf (outPos + (i : Int))) size es).1⟩
        else
          ⟨inPos + int32OfUInt32 (bshuf_read_uint32_BE inb inPos) + 4,
            outPos + ((size * es : Nat) : Int),
            splice outBuf outPos (size * es)
              (bshuf_untrans_bit_elem
                (fun i => (lz.decompressFast (fun i => inb (inPos + 4 + (i : Int)))
                  (size * es)).2.getD i 0)
                (fun i => outBuf (outPos + (i : Int))) size es).2,
            (lz.decompressFast (fun i => inb (inPos + 4 + (i : Int))) (size * es)).1
              + 4⟩ := rfl

theorem bshuf_decompress_lz4_block_safe_eq (lz : LZ4Codec) (inb : MBuf)
    (inPos outPos : Int) (outBuf : MBuf) (size es : Nat) :
    bshuf_decompress_lz4_block_mode false lz inb inPos outPos outBuf size es
      = if (lz.decompressSafe (fun i => inb (inPos + 4 + (i : Int)))
            (int32OfUInt32 (bshuf_read_uint32_BE inb inPos)) (size * es)).1 < 0 then
          ⟨inPos + int32OfUInt32 (bshuf_read_uint32_BE inb inPos) + 4,
            outPos + ((size * es : Nat) : Int), outBuf,
            (lz.decompressSafe (fun i => inb (inPos + 4 + (i : Int)))
              (int32OfUInt32 (bshuf_read_uint32_BE inb inPos)) (size * es)).1 - 1000⟩
        else if (lz.decompressSafe (fun i => inb (inPos + 4 + (i : Int)))
            (int32OfUInt32 (bshuf_read_uint32_BE inb inPos)) (size * es)).1
            ≠ ((size * es : Nat) : Int) then
          ⟨inPos + int32OfUInt32 (bshuf_read_uint32_BE inb inPos) + 4,
            outPos + ((size * es : Nat) : Int), outBuf, -91⟩
        else if (bshuf_untrans_bit_elem
              (fun i => (lz.decompressSafe (fun i => inb (inPos + 4 + (i : Int)))
                (int32OfUInt32 (bshuf_read_uint32_BE inb inPos)) (size * es)).2.getD i 0)
              (fun i => outBuf (outPos + (i : Int))) size es).1 < 0 then
          ⟨inPos + int32OfUInt32 (bshuf_read_uint32_BE inb inPos) + 4,
            outPos + ((size * es : Nat) : Int), outBuf,
            (bshuf_untrans_bit_elem
              (fun i => (lz.decompressSafe (fun i => inb (inPos + 4 + (i : Int)))
                (int32OfUInt32 (bshuf_read_uint32_BE inb inPos)) (size * es)).2.getD i 0)
              (fun i => outBuf (outPos + (i : Int))) size es).1⟩
        else
          ⟨inPos + int32OfUInt32 (bshuf_read_uint32_BE inb inPos) + 4,
            outPos + ((size * es : Nat) : Int),
            splice outBuf outPos (size * es)
              (bshuf_untrans_bit_elem
                (fun i => (lz.decompressSafe (fun i => inb (inPos + 4 + (i : Int)))
                  (int32OfUInt32 (bshuf_read_uint32_BE inb inPos)) (size * es)).2.getD i 0)
                (fun i => outBuf (outPos + (i : Int))) size es).2,
            int32OfUInt32 (bshuf_read_uint32_BE inb inPos) + 4⟩ := rfl

theorem bshuf_decompress_lz4_block_inPos (lz : LZ4Codec) (inb : MBuf)
    (inPos outPos : Int) (outBuf : MBuf) (size es : Nat) :
    (bshuf_decompress_lz4_block lz inb inPos outPos outBuf size es).inPos
      = inPos + int32OfUInt32 (bshuf_read_uint32_BE inb inPos) + 4 := by
  rw [bshuf_decompress_lz4_block_fast_eq]
  split
  · rfl
  · split
    · rfl
    · split
      · rfl
      · rfl

/-- C6 (amended): whenever LZ4_compress returns a strictly negative result,
bshuf_compress_lz4_block surfaces that result offset by -1000, a count
strictly below -1000 and hence disjoint from the bshuf error codes.  (A
zero result is not caught: the check at lines 51-52/1256 is `nbytes < 0`,
so CHECK_ERR_FREE_LZ lets `nbytes = 0` through and the worker emits an
empty record of count 4 — see the counterexample.) -/
theorem C6_compress_lz4_failure (lz : LZ4Codec) (inb : MBuf) (inPos outPos : Int)
    (outBuf : MBuf) (size es : Nat) (l : List Nat) (h8 : size % 8 = 0)
    (hl : l = (List.range (size * es)).map
      (bshuf_trans_bit_elem (fun i => inb (inPos + (i : Int))) (fun _ => 0) size es).2)
    (hneg : (lz.compress l).1 < 0) :
    (bshuf_compress_lz4_block lz inb inPos outPos outBuf size es).count
        = (lz.compress l).1 - 1000
    ∧ (bshuf_compress_lz4_block lz inb inPos outPos outBuf size es).count
        < -1000 := by
  subst hl
  rw [bshuf_compress_lz4_block_eq]
  have hc : (bshuf_trans_bit_elem (fun i => inb (inPos + (i : Int))) (fun _ => 0)
      size es).1 = ((size * es : Nat) : Int) :=
    (bshuf_trans_bit_elem_scal_spec (fun i => inb (inPos + (i : Int))) (fun _ => 0)
      size es h8).1
  rw [if_neg (by rw [hc]; exact not_lt.2 (Int.natCast_nonneg _)), if_pos hneg]
  refine ⟨rfl, ?_⟩
  show (lz.compress ((List.range (size * es)).map
      (bshuf_trans_bit_elem (fun i => inb (inPos + (i : Int))) (fun _ => 0)
        size es).2)).1 - 1000 < -1000
  omega

/-- C6 witness: LZ4_compress reporting -3 makes the block worker return
-1003 < -1000. -/
theorem C6_witness :
    (bshuf_compress_lz4_block
        ⟨fun _ => (-3, []), fun n => n, fun s n => (0, []), fun s l n => (0, [])⟩
        (fun _ => 0) 0 0 (fun _ => 0) 8 1).count = -3 - 1000
    ∧ (bshuf_compress_lz4_block
        ⟨fun _ => (-3, []), fun n => n, fun s n => (0, []), fun s l n => (0, [])⟩
        (fun _ => 0) 0 0 (fun _ => 0) 8 1).count < -1000 :=
  C6_compress_lz4_failure
    ⟨fun _ => (-3, []), fun n => n, fun s n => (0, []), fun s l n => (0, [])⟩
    (fun _ => 0) 0 0 (fun _ => 0) 8 1 _ (by decide) rfl (by decide)

/-- C6 counterexample: with an LZ4_compress result of exactly zero the
worker does not fail — `nbytes < 0` does not fire — and it returns a
normal record count of 4, refuting the claim that a zero result surfaces
as a value below -1000. -/
theorem C6_counterexample :
    ((⟨fun _ => (0, []), fun n => n, fun s n => (0, []), fun s l n => (0, [])⟩
        : LZ4Codec).compress
      ((List.range (8 * 1)).map
        (bshuf_trans_bit_elem (fun i => (fun _ : Int => 0) (0 + (i : Int)))
          (fun _ => 0) 8 1).2)).1 = 0
    ∧ (bshuf_compress_lz4_block
        ⟨fun _ => (0, []), fun n => n, fun s n => (0, []), fun s l n => (0, [])⟩
        (fun _ => 0) 0 0 (fun _ => 0) 8 1).count = 4 :=
  ⟨rfl, by decide⟩

/-- C5 (corrected): line 42 `#define BSHUF_LZ4_DECOMPRESS_FAST` is
unconditional, so the build defaults to the FAST mode, whose length check
compares the bytes LZ4 consumed against the block header (failing with
-91 on mismatch); only the safe mode — the `#ifdef` NOT taken — compares
the bytes produced against size * elem_size. -/
theorem C5_decompress_mode_spec :
    BSHUF_LZ4_DECOMPRESS_FAST = true
    ∧ (∀ (lz : LZ4Codec) (inb : MBuf) (inPos outPos : Int) (outBuf : MBuf)
        (size es : Nat),
        0 ≤ (lz.decompressFast (fun i => inb (inPos + 4 + (i : Int))) (size * es)).1 →
        (lz.decompressFast (fun i => inb (inPos + 4 + (i : Int))) (size * es)).1
            ≠ int32OfUInt32 (bshuf_read_uint32_BE inb inPos) →
        (bshuf_decompress_lz4_block lz inb inPos outPos outBuf size es).count = -91)
    ∧ (∀ (lz : LZ4Codec) (inb : MBuf) (inPos outPos : Int) (outBuf : MBuf)
        (size es : Nat),
        0 ≤ (lz.decompressSafe (fun i => inb (inPos + 4 + (i : Int)))
            (int32OfUInt32 (bshuf_read_uint32_BE inb inPos)) (size * es)).1 →
        (lz.decompressSafe (fun i => inb (inPos + 4 + (i : Int)))
            (int32OfUInt32 (bshuf_read_uint32_BE inb inPos)) (size * es)).1
            ≠ ((size * es : Nat) : Int) →
        (bshuf_decompress_lz4_block_mode false lz inb inPos outPos outBuf size es).count
            = -91) := by
  refine ⟨rfl, ?_, ?_⟩
  · intro lz inb inPos outPos outBuf size es hge hne
    rw [bshuf_decompress_lz4_block_fast_eq, if_neg (not_lt.2 hge), if_pos hne]
  · intro lz inb inPos outPos outBuf size es hge hne
    rw [bshuf_decompress_lz4_block_safe_eq, if_neg (not_lt.2 hge), if_pos hne]

/-- C5 witness: on a block whose header says 7 while LZ4 consumes 5 (fast
mode) or produces 5 of the 8 expected bytes (safe mode), both checks fire
with -91. -/
theorem C5_witness :
    (bshuf_decompress_lz4_block
        ⟨fun _ => (0, []), fun n => n, fun s n => (5, List.replicate 8 0),
          fun s l n => (5, List.replicate 8 0)⟩
        (fun m => if m = 3 then 7 else 0) 0 0 (fun _ => 0) 8 1).count = -91
    ∧ (bshuf_decompress_lz4_block_mode false
        ⟨fun _ => (0, []), fun n => n, fun s n => (5, List.replicate 8 0),
          fun s l n => (5, List.replicate 8 0)⟩
        (fun m => if m = 3 then 7 else 0) 0 0 (fun _ => 0) 8 1).count = -91 :=
  ⟨C5_decompress_mode_spec.2.1
      ⟨fun _ => (0, []), fun n => n, fun s n => (5, List.replicate 8 0),
        fun s l n => (5, List.replicate 8 0)⟩
      (fun m => if m = 3 then 7 else 0) 0 0 (fun _ => 0) 8 1 (by decide) (by decide),
   C5_decompress_mode_spec.2.2
      ⟨fun _ => (0, []), fun n => n, fun s n => (5, List.replicate 8 0),
        fun s l n => (5, List.replicate 8 0)⟩
      (fun m => if m = 3 then 7 else 0) 0 0 (fun _ => 0) 8 1 (by decide) (by decide)⟩

/-- C5 counterexample: under the default build (fast switch defined) a
block whose decompression produces exactly size * elem_size bytes still
fails with -91 because the bytes consumed (5) differ from the header (7);
a safe-mode default would have accepted it.  This refutes the claim that
the decompression path defaults to the safe produced-count check. -/
theorem C5_counterexample :
    BSHUF_LZ4_DECOMPRESS_FAST = true
    ∧ ((⟨fun _ => (0, []), fun n => n, fun s n => (5, List.replicate 8 0),
          fun s l n => (5, List.replicate 8 0)⟩ : LZ4Codec).decompressFast
        (fun i => (fun m : Int => if m = 3 then 7 else 0) (0 + 4 + (i : Int)))
        (8 * 1)).2.length = 8 * 1
    ∧ (bshuf_decompress_lz4_block
        ⟨fun _ => (0, []), fun n => n, fun s n => (5, List.replicate 8 0),
          fun s l n => (5, List.replicate 8 0)⟩
        (fun m => if m = 3 then 7 else 0) 0 0 (fun _ => 0) 8 1).count = -91 :=
  ⟨rfl, by decide, by decide⟩

/-- C9: the 4-byte big-endian header is read into the signed 32-bit
`nbytes_from_header` (line 1279), so a header value L ≥ 2^31 parses to
L - 2^32, a negative number; that signed value plus 4 advances the input
cursor in every branch, and the fast-mode length check compares the bytes
consumed against it. -/
theorem C9_header_int32 (lz : LZ4Codec) (inb : MBuf) (inPos outPos : Int)
    (outBuf : MBuf) (size es : Nat)
    (hL : 2 ^ 31 ≤ bshuf_read_uint32_BE inb inPos) :
    int32OfUInt32 (bshuf_read_uint32_BE inb inPos)
        = ((bshuf_read_uint32_BE inb inPos : Nat) : Int) - 2 ^ 32
    ∧ int32OfUInt32 (bshuf_read_uint32_BE inb inPos) < 0
    ∧ (bshuf_decompress_lz4_block lz inb inPos outPos outBuf size es).inPos
        = inPos + (((bshuf_read_uint32_BE inb inPos : Nat) : Int) - 2 ^ 32) + 4
    ∧ (0 ≤ (lz.decompressFast (fun i => inb (inPos + 4 + (i : Int))) (size * es)).1 →
        (lz.decompressFast (fun i => inb (inPos + 4 + (i : Int))) (size * es)).1
            ≠ ((bshuf_read_uint32_BE inb inPos : Nat) : Int) - 2 ^ 32 →
        (bshuf_decompress_lz4_block lz inb inPos outPos outBuf size es).count
            = -91) := by
  have hlt := bshuf_read_uint32_BE_lt inb inPos
  have h32 : int32OfUInt32 (bshuf_read_uint32_BE inb inPos)
      = ((bshuf_read_uint32_BE inb inPos : Nat) : Int) - 2 ^ 32 := by
    unfold int32OfUInt32
    rw [if_neg (by omega)]
  refine ⟨h32, by omega, ?_, ?_⟩
  · rw [bshuf_decompress_lz4_block_inPos, h32]
  · intro hge hne
    rw [bshuf_decompress_lz4_block_fast_eq, h32, if_neg (not_lt.2 hge), if_pos hne]

/-- C9 witness: header FF FF FF FF (L = 2^32 - 1) parses to -1; a consumed
count of 5 differs from -1, so the worker returns -91 and its input
cursor moved by (L - 2^32) + 4 = 3. -/
theorem C9_witness :
    2 ^ 31 ≤ bshuf_read_uint32_BE (fun _ => 255) 0
    ∧ int32OfUInt32 (bshuf_read_uint32_BE (fun _ => 255) 0)
        = ((bshuf_read_uint32_BE (fun _ => 255) 0 : Nat) : Int) - 2 ^ 32
    ∧ (bshuf_decompress_lz4_block
        ⟨fun _ => (0, []), fun n => n, fun s n => (5, []), fun s l n => (5, [])⟩
        (fun _ => 255) 0 0 (fun _ => 0) 8 1).inPos
        = 0 + (((bshuf_read_uint32_BE (fun _ => 255) 0 : Nat) : Int) - 2 ^ 32) + 4
    ∧ (bshuf_decompress_lz4_block
        ⟨fun _ => (0, []), fun n => n, fun s n => (5, []), fun s l n => (5, [])⟩
        (fun _ => 255) 0 0 (fun _ => 0) 8 1).count = -91 := by
  have h := C9_header_int32
    ⟨fun _ => (0, []), fun n => n, fun s n => (5, []), fun s l n => (5, [])⟩
    (fun _ => 255) 0 0 (fun _ => 0) 8 1 (by decide)
  exact ⟨by decide, h.1, h.2.2.1, h.2.2.2 (by decide) (by decide)⟩

/-! The LZ4 record stream.  The compress loop emits one record per block:
a 4-byte big-endian header holding the compressed length, then the
compressed payload.  The following functions describe the stream as a
function of the source buffer, for the round-trip proof. -/

/-- The shuffled scratch of the block of `bn` elements whose input lies at
element offset `A` of source `x`, as the byte list handed to
LZ4_compress. -/
def shufList (x : MBuf) (es A bn : Nat) : List Nat :=
  (List.range (bn * es)).map
    (bshuf_trans_bit_elem (fun i => x (((A * es : Nat) : Int) + (i : Int)))
      (fun _ => 0) bn es).2

/-- Compressed length of that block's record. -/
def recLen (lz : LZ4Codec) (x : MBuf) (es A bn : Nat) : Int :=
  (lz.compress (shufList x es A bn)).1

/-- Stream position after the first `b` full records of `bs` elements:
each record occupies 4 header bytes plus its compressed payload. -/
def recEnd (lz : LZ4Codec) (x : MBuf) (es bs : Nat) : Nat → Int
  | 0 => 0
  | Nat.succ b => recEnd lz x es bs b + recLen lz x es (b * bs) bs + 4

/-- Stream position after all records: the full blocks, plus the partial
block of `size % bs` rounded down to a multiple of 8 when nonzero. -/
def recEndTotal (lz : LZ4Codec) (x : MBuf) (es bs size : Nat) : Int :=
  if size % bs - size % bs % 8 = 0 then recEnd lz x es bs (size / bs)
  else recEnd lz x es bs (size / bs)
    + recLen lz x es (size / bs * bs) (size % bs - size % bs % 8) + 4

/-- Stream `o` carries, at position `P`, the record of the block at
element offset `A` with `bn` elements. -/
def RecordAt (lz : LZ4Codec) (x o : MBuf) (es : Nat) (P : Int) (A bn : Nat) : Prop :=
  bshuf_read_uint32_BE o P = (recLen lz x es A bn).toNat
  ∧ ∀ i : Nat, i < (recLen lz x es A bn).toNat →
      o (P + 4 + (i : Int)) = (lz.compress (shufList x es A bn)).2.getD i 0

theorem shufList_length (x : MBuf) (es A bn : Nat) :
    (shufList x es A bn).length = bn * es := by
  simp only [shufList, List.length_map, List.length_range]

theorem shufList_getD (x : MBuf) (es A bn : Nat) (i : Nat) (hi : i < bn * es) :
    (shufList x es A bn).getD i 0
      = (bshuf_trans_bit_elem (fun i => x (((A * es : Nat) : Int) + (i : Int)))
          (fun _ => 0) bn es).2 i := by
  have hl : i < (shufList x es A bn).length := by rw [shufList_length]; omega
  rw [List.getD_eq_getElem _ _ hl]
  simp only [shufList, List.getElem_map, List.getElem_range]

theorem bshuf_read_uint32_BE_congr (o o' : MBuf) (P : Int)
    (h0 : o' P = o P) (h1 : o' (P + 1) = o (P + 1)) (h2 : o' (P + 2) = o (P + 2))
    (h3 : o' (P + 3) = o (P + 3)) :
    bshuf_read_uint32_BE o' P = bshuf_read_uint32_BE o P := by
  unfold bshuf_read_uint32_BE
  rw [h0, h1, h2, h3]

/-- Reading back a stored big-endian 32-bit integer recovers its low 32
bits. -/
theorem bshuf_read_write_uint32_BE (buf : MBuf) (off : Int) (num : Nat) :
    bshuf_read_uint32_BE (bshuf_write_uint32_BE buf off num) off = num % 2 ^ 32 := by
  have e0 : bshuf_write_uint32_BE buf off num off
      = num % 2 ^ 32 / 256 / 256 / 256 % 256 := by
    unfold bshuf_write_uint32_BE
    rw [if_pos rfl]
  have e1 : bshuf_write_uint32_BE buf off num (off + 1)
      = num % 2 ^ 32 / 256 / 256 % 256 := by
    unfold bshuf_write_uint32_BE
    rw [if_neg (by omega), if_pos rfl]
  have e2 : bshuf_write_uint32_BE buf off num (off + 2)
      = num % 2 ^ 32 / 256 % 256 := by
    unfold bshuf_write_uint32_BE
    rw [if_neg (by omega), if_neg (by omega), if_pos rfl]
  have e3 : bshuf_write_uint32_BE buf off num (off + 3)
      = num % 2 ^ 32 % 256 := by
    unfold bshuf_write_uint32_BE
    rw [if_neg (by omega), if_neg (by omega), if_neg (by omega), if_pos rfl]
  unfold bshuf_read_uint32_BE
  rw [e0, e1, e2, e3]
  omega

theorem listSplice_out (base : MBuf) (off : Int) (len : Nat) (l : List Nat) (m : Int)
    (h : m < off ∨ off + (len : Int) ≤ m) :
    listSplice base off len l m = base m := by
  unfold listSplice
  rw [if_neg (by omega)]

theorem listSplice_in (base : MBuf) (off : Int) (len : Nat) (l : List Nat) (i : Nat)
    (h : i < len) :
    listSplice base off len l (off + (i : Int)) = l.getD i 0 := by
  unfold listSplice
  rw [if_pos ⟨by omega, by omega⟩]
  rw [show ((off + (i : Int)) - off).toNat = i from by omega]

/-- A record survives in any stream that agrees with the original on the
record's footprint. -/
theorem RecordAt_congr (lz : LZ4Codec) (x o o' : MBuf) (es : Nat) (P : Int) (A bn : Nat)
    (hlen0 : 0 ≤ recLen lz x es A bn)
    (h : ∀ m : Int, P ≤ m → m < P + 4 + recLen lz x es A bn → o' m = o m) :
    RecordAt lz x o es P A bn → RecordAt lz x o' es P A bn := by
  rintro ⟨hh, hp⟩
  refine ⟨?_, ?_⟩
  · exact (bshuf_read_uint32_BE_congr o o' P
      (h P (by omega) (by omega)) (h (P + 1) (by omega) (by omega))
      (h (P + 2) (by omega) (by omega)) (h (P + 3) (by omega) (by omega))).trans hh
  · intro i hi
    rw [h (P + 4 + (i : Int)) (by omega) (by omega)]
    exact hp i hi

theorem recEnd_mono (lz : LZ4Codec) (x : MBuf) (es bs n : Nat)
    (hlen : ∀ b, b < n → 0 ≤ recLen lz x es (b * bs) bs) :
    ∀ a b, a ≤ b → b ≤ n → recEnd lz x es bs a ≤ recEnd lz x es bs b := by
  intro a b
  induction b with
  | zero => intro hab _; rw [Nat.le_zero.mp hab]
  | succ b ih =>
    intro hab hbn
    rcases Nat.lt_or_ge a (b + 1) with hb | hb
    · have h1 := ih (by omega) (by omega)
      have h2 := hlen b (by omega)
      show recEnd lz x es bs a ≤ recEnd lz x es bs b + recLen lz x es (b * bs) bs + 4
      omega
    · rw [show a = b + 1 from by omega]

theorem recEnd_nonneg (lz : LZ4Codec) (x : MBuf) (es bs n : Nat)
    (hlen : ∀ b, b < n → 0 ≤ recLen lz x es (b * bs) bs) :
    0 ≤ recEnd lz x es bs n := by
  have := recEnd_mono lz x es bs n hlen 0 n (by omega) le_rfl
  simpa [recEnd] using this

theorem partition_arith2 (size bs : Nat) (hbs8 : bs % 8 = 0) (hbs0 : 0 < bs) :
    size / bs * bs + (size % bs - size % bs % 8) = size - size % 8
    ∧ (size % bs - size % bs % 8) % 8 = 0 := by
  have hdm := Nat.div_add_mod size bs
  have hmm : size % bs % 8 = size % 8 := Nat.mod_mod_of_dvd size ⟨bs / 8, by omega⟩
  have hcomm : bs * (size / bs) = size / bs * bs := by ring
  have hP : size / bs * bs % 8 = 0 := mul_mod8_right (size / bs) bs hbs8
  omega

/-- One compress block step: the input head advances by the block, the
output head by the record (4-byte header plus payload), the count
accumulates the record length, no error is recorded, the record sits at
the old output head, and the stream elsewhere is untouched. -/
theorem compress_wrapStep_spec (lz : LZ4Codec) (x : MBuf) (es bn A : Nat)
    (st : WrapState) (hbn8 : bn % 8 = 0)
    (hlen0 : 0 ≤ recLen lz x es A bn) (hlen31 : recLen lz x es A bn < 2 ^ 31)
    (hin : st.inPos = ((A * es : Nat) : Int)) :
    (wrapStep (bshuf_compress_lz4_block lz) x bn es st).inPos
        = (((A + bn) * es : Nat) : Int)
    ∧ (wrapStep (bshuf_compress_lz4_block lz) x bn es st).outPos
        = st.outPos + (recLen lz x es A bn + 4)
    ∧ (wrapStep (bshuf_compress_lz4_block lz) x bn es st).cum
        = st.cum + (recLen lz x es A bn + 4)
    ∧ (wrapStep (bshuf_compress_lz4_block lz) x bn es st).err = st.err
    ∧ RecordAt lz x (wrapStep (bshuf_compress_lz4_block lz) x bn es st).outBuf
        es st.outPos A bn
    ∧ ∀ m : Int, (m < st.outPos ∨ st.outPos + 4 + recLen lz x es A bn ≤ m) →
        (wrapStep (bshuf_compress_lz4_block lz) x bn es st).outBuf m
          = st.outBuf m := by
  have hc2 : (bshuf_trans_bit_elem (fun i => x (((A * es : Nat) : Int) + (i : Int)))
      (fun _ => 0) bn es).1 = ((bn * es : Nat) : Int) :=
    (bshuf_trans_bit_elem_scal_spec (fun i => x (((A * es : Nat) : Int) + (i : Int)))
      (fun _ => 0) bn es hbn8).1
  rw [wrapStep_eq, bshuf_compress_lz4_block_eq, hin]
  rw [show ((List.range (bn * es)).map
        (bshuf_trans_bit_elem (fun i => x (((A * es : Nat) : Int) + (i : Int)))
          (fun _ => 0) bn es).2) = shufList x es A bn from rfl]
  rw [show (lz.compress (shufList x es A bn)).1 = recLen lz x es A bn from rfl]
  rw [if_neg (show ¬ (bshuf_trans_bit_elem
        (fun i => x (((A * es : Nat) : Int) + (i : Int))) (fun _ => 0) bn es).1 < 0 from
      by rw [hc2]; exact not_lt.2 (Int.natCast_nonneg _))]
  rw [if_neg (not_lt.2 hlen0)]
  dsimp only
  refine ⟨?_, ?_, ?_, ?_, ⟨?_, ?_⟩, ?_⟩
  · push_cast
    ring
  · ring
  · rfl
  · rw [if_neg (by omega)]
  · have hs0 : listSplice (bshuf_write_uint32_BE st.outBuf st.outPos
        (recLen lz x es A bn).toNat) (st.outPos + 4) (recLen lz x es A bn).toNat
        (lz.compress (shufList x es A bn)).2 st.outPos
        = bshuf_write_uint32_BE st.outBuf st.outPos (recLen lz x es A bn).toNat
            st.outPos :=
      listSplice_out _ _ _ _ _ (Or.inl (by omega))
    have hs1 : listSplice (bshuf_write_uint32_BE st.outBuf st.outPos
        (recLen lz x es A bn).toNat) (st.outPos + 4) (recLen lz x es A bn).toNat
        (lz.compress (shufList x es A bn)).2 (st.outPos + 1)
        = bshuf_write_uint32_BE st.outBuf st.outPos (recLen lz x es A bn).toNat
            (st.outPos + 1) :=
      listSplice_out _ _ _ _ _ (Or.inl (by omega))
    have hs2 : listSplice (bshuf_write_uint32_BE st.outBuf st.outPos
        (recLen lz x es A bn).toNat) (st.outPos + 4) (recLen lz x es A bn).toNat
        (lz.compress (shufList x es A bn)).2 (st.outPos + 2)
        = bshuf_write_uint32_BE st.outBuf st.outPos (recLen lz x es A bn).toNat
            (st.outPos + 2) :=
      listSplice_out _ _ _ _ _ (Or.inl (by omega))
    have hs3 : listSplice (bshuf_write_uint32_BE st.outBuf st.outPos
        (recLen lz x es A bn).toNat) (st.outPos + 4) (recLen lz x es A bn).toNat
        (lz.compress (shufList x es A bn)).2 (st.outPos + 3)
        = bshuf_write_uint32_BE st.outBuf st.outPos (recLen lz x es A bn).toNat
            (st.outPos + 3) :=
      listSplice_out _ _ _ _ _ (Or.inl (by omega))
    exact (bshuf_read_uint32_BE_congr _ _ st.outPos hs0 hs1 hs2 hs3).trans
      (by rw [bshuf_read_write_uint32_BE]; omega)
  · intro i hi
    rw [show st.outPos + 4 + (i : Int) = (st.outPos + 4) + (i : Int) from by ring]
    exact listSplice_in _ _ _ _ i hi
  · intro m hm
    rw [listSplice_out _ _ _ _ m (by omega)]
    unfold bshuf_write_uint32_BE
    rw [if_neg (by omega), if_neg (by omega), if_neg (by omega), if_neg (by omega)]

/-- The compress loop over `n` full blocks: heads, count, success, and
every record in place. -/
theorem compress_fold_spec (lz : LZ4Codec) (x out0 : MBuf) (es bs : Nat)
    (hbs8 : bs % 8 = 0) (n : Nat)
    (hlen : ∀ b, b < n → 0 ≤ recLen lz x es (b * bs) bs
      ∧ recLen lz x es (b * bs) bs < 2 ^ 31) :
    (iterFold n (fun _ st => wrapStep (bshuf_compress_lz4_block lz) x bs es st)
        (⟨0, 0, out0, 0, 0⟩ : WrapState)).inPos = ((n * bs * es : Nat) : Int)
    ∧ (iterFold n (fun _ st => wrapStep (bshuf_compress_lz4_block lz) x bs es st)
        (⟨0, 0, out0, 0, 0⟩ : WrapState)).outPos = recEnd lz x es bs n
    ∧ (iterFold n (fun _ st => wrapStep (bshuf_compress_lz4_block lz) x bs es st)
        (⟨0, 0, out0, 0, 0⟩ : WrapState)).cum = recEnd lz x es bs n
    ∧ (iterFold n (fun _ st => wrapStep (bshuf_compress_lz4_block lz) x bs es st)
        (⟨0, 0, out0, 0, 0⟩ : WrapState)).err = 0
    ∧ ∀ b, b < n → RecordAt lz x
        (iterFold n (fun _ st => wrapStep (bshuf_compress_lz4_block lz) x bs es st)
          (⟨0, 0, out0, 0, 0⟩ : WrapState)).outBuf es (recEnd lz x es bs b)
        (b * bs) bs := by
  induction n with
  | zero => exact ⟨by simp, rfl, rfl, rfl, fun b hb => absurd hb (by omega)⟩
  | succ n ih =>
    obtain ⟨h1, h2, h3, h4, h5⟩ := ih (fun b hb => hlen b (by omega))
    rw [iterFold_succ]
    obtain ⟨s1, s2, s3, s4, s5, s6⟩ := compress_wrapStep_spec lz x es bs (n * bs)
      (iterFold n (fun _ st => wrapStep (bshuf_compress_lz4_block lz) x bs es st)
        (⟨0, 0, out0, 0, 0⟩ : WrapState)) hbs8 (hlen n (by omega)).1
      (hlen n (by omega)).2 h1
    have hnb : (n * bs + bs) * es = (n + 1) * bs * es := by ring
    have hEsucc : recEnd lz x es bs (n + 1)
        = recEnd lz x es bs n + recLen lz x es (n * bs) bs + 4 := rfl
    refine ⟨by rw [s1, hnb], ?_, ?_, by rw [s4, h4], ?_⟩
    · rw [s2, h2, hEsucc]
      ring
    · rw [s3, h3, hEsucc]
      ring
    · intro b hb
      rcases Nat.lt_or_ge b n with hbn | hbn
      · refine RecordAt_congr lz x _ _ es (recEnd lz x es bs b) (b * bs) bs
          (hlen b (by omega)).1 ?_ (h5 b hbn)
        intro m hm1 hm2
        refine s6 m (Or.inl ?_)
        rw [h2]
        have hmono := recEnd_mono lz x es bs n (fun c hc => (hlen c (by omega)).1)
          (b + 1) n (by omega) le_rfl
        have hEb : recEnd lz x es bs (b + 1)
            = recEnd lz x es bs b + recLen lz x es (b * bs) bs + 4 := rfl
        omega
      · have hbe : b = n := by omega
        subst hbe
        rw [← h2]
        exact s5

/-- The whole compress-side block loop: both heads, the count, success,
and every record (full blocks and the partial block) in place. -/
theorem compress_loop_spec (lz : LZ4Codec) (x out0 : MBuf) (size es bs : Nat)
    (hbs8 : bs % 8 = 0) (hbs0 : 0 < bs)
    (hlenF : ∀ b, b < size / bs → 0 ≤ recLen lz x es (b * bs) bs
      ∧ recLen lz x es (b * bs) bs < 2 ^ 31)
    (hlenP : size % bs - size % bs % 8 ≠ 0 →
      0 ≤ recLen lz x es (size / bs * bs) (size % bs - size % bs % 8)
      ∧ recLen lz x es (size / bs * bs) (size % bs - size % bs % 8) < 2 ^ 31) :
    (bshuf_blocked_loop (bshuf_compress_lz4_block lz) x out0 size es bs).inPos
        = (((size - size % 8) * es : Nat) : Int)
    ∧ (bshuf_blocked_loop (bshuf_compress_lz4_block lz) x out0 size es bs).outPos
        = recEndTotal lz x es bs size
    ∧ (bshuf_blocked_loop (bshuf_compress_lz4_block lz) x out0 size es bs).cum
        = recEndTotal lz x es bs size
    ∧ (bshuf_blocked_loop (bshuf_compress_lz4_block lz) x out0 size es bs).err = 0
    ∧ (∀ b, b < size / bs → RecordAt lz x
        (bshuf_blocked_loop (bshuf_compress_lz4_block lz) x out0 size es bs).outBuf
        es (recEnd lz x es bs b) (b * bs) bs)
    ∧ (size % bs - size % bs % 8 ≠ 0 → RecordAt lz x
        (bshuf_blocked_loop (bshuf_compress_lz4_block lz) x out0 size es bs).outBuf
        es (recEnd lz x es bs (size / bs)) (size / bs * bs)
        (size % bs - size % bs % 8)) := by
  obtain ⟨hq, hl8⟩ := partition_arith2 size bs hbs8 hbs0
  unfold bshuf_blocked_loop
  by_cases hlbs : size % bs - size % bs % 8 ≠ 0
  · rw [if_pos hlbs]
    obtain ⟨f1, f2, f3, f4, f5⟩ := compress_fold_spec lz x out0 es bs hbs8
      (size / bs) hlenF
    obtain ⟨s1, s2, s3, s4, s5, s6⟩ := compress_wrapStep_spec lz x es
      (size % bs - size % bs % 8) (size / bs * bs) _ hl8 (hlenP hlbs).1
      (hlenP hlbs).2 f1
    have he : (size / bs * bs + (size % bs - size % bs % 8)) * es
        = (size - size % 8) * es := by rw [hq]
    have hTot : recEndTotal lz x es bs size = recEnd lz x es bs (size / bs)
        + recLen lz x es (size / bs * bs) (size % bs - size % bs % 8) + 4 := by
      unfold recEndTotal
      rw [if_neg hlbs]
    refine ⟨by rw [s1, he], ?_, ?_, by rw [s4, f4], ?_, fun _ => ?_⟩
    · rw [s2, f2, hTot]
      ring
    · rw [s3, f3, hTot]
      ring
    · intro b hb
      refine RecordAt_congr lz x _ _ es (recEnd lz x es bs b) (b * bs) bs
        (hlenF b hb).1 ?_ (f5 b hb)
      intro m hm1 hm2
      refine s6 m (Or.inl ?_)
      rw [f2]
      have hmono := recEnd_mono lz x es bs (size / bs) (fun c hc => (hlenF c hc).1)
        (b + 1) (size / bs) (by omega) le_rfl
      have hEb : recEnd lz x es bs (b + 1)
          = recEnd lz x es bs b + recLen lz x es (b * bs) bs + 4 := rfl
      omega
    · rw [← f2]
      exact s5
  · rw [if_neg hlbs]
    obtain ⟨f1, f2, f3, f4, f5⟩ := compress_fold_spec lz x out0 es bs hbs8
      (size / bs) hlenF
    have hTot : recEndTotal lz x es bs size = recEnd lz x es bs (size / bs) := by
      unfold recEndTotal
      rw [if_pos (by omega)]
    refine ⟨?_, by rw [f2, hTot], by rw [f3, hTot], f4, f5, fun h => absurd h hlbs⟩
    rw [f1, show size / bs * bs * es = (size - size % 8) * es from by
      rw [show size / bs * bs = size - size % 8 from by omega]]

/-- One decompress block step against a stream carrying the block's
record: the input head advances over the record, the output head by the
block, the count accumulates the record length, no error, the output
region now carries the original bytes of `x`, and everything outside it
is untouched. -/
theorem decompress_wrapStep_spec (lz : LZ4Codec) (x comp : MBuf) (es bn A : Nat)
    (st : WrapState) (hbn8 : bn % 8 = 0)
    (hlen0 : 0 ≤ recLen lz x es A bn) (hlen31 : recLen lz x es A bn < 2 ^ 31)
    (hrec : RecordAt lz x comp es st.inPos A bn)
    (hrt : ∀ s : Nat → Nat,
      (∀ i, i < (recLen lz x es A bn).toNat →
        s i = (lz.compress (shufList x es A bn)).2.getD i 0) →
      lz.decompressFast s (shufList x es A bn).length
        = (recLen lz x es A bn, shufList x es A bn))
    (hx : ∀ m : Int, x m < 256)
    (hout : st.outPos = ((A * es : Nat) : Int)) :
    (wrapStep (bshuf_decompress_lz4_block lz) comp bn es st).inPos
        = st.inPos + (recLen lz x es A bn + 4)
    ∧ (wrapStep (bshuf_decompress_lz4_block lz) comp bn es st).outPos
        = (((A + bn) * es : Nat) : Int)
    ∧ (wrapStep (bshuf_decompress_lz4_block lz) comp bn es st).cum
        = st.cum + (recLen lz x es A bn + 4)
    ∧ (wrapStep (bshuf_decompress_lz4_block lz) comp bn es st).err = st.err
    ∧ (∀ u : Nat, u < bn * es →
        (wrapStep (bshuf_decompress_lz4_block lz) comp bn es st).outBuf
          ((A * es + u : Nat) : Int) = x ((A * es + u : Nat) : Int))
    ∧ ∀ m : Int, (m < ((A * es : Nat) : Int) ∨ (((A + bn) * es : Nat) : Int) ≤ m) →
        (wrapStep (bshuf_decompress_lz4_block lz) comp bn es st).outBuf m
          = st.outBuf m := by
  have hfd : lz.decompressFast (fun i => comp (st.inPos + 4 + (i : Int))) (bn * es)
      = (recLen lz x es A bn, shufList x es A bn) := by
    have h := hrt (fun i => comp (st.inPos + 4 + (i : Int))) hrec.2
    rw [shufList_length] at h
    exact h
  have hhdr : int32OfUInt32 (bshuf_read_uint32_BE comp st.inPos)
      = recLen lz x es A bn := by
    rw [hrec.1]
    unfold int32OfUInt32
    rw [if_pos (by omega)]
    exact Int.toNat_of_nonneg hlen0
  have hy : ∀ j k r t, j < es → k < 8 → r < bn / 8 → t < 8 →
      ((fun i : Nat => (shufList x es A bn).getD i 0)
          ((j * 8 + k) * (bn / 8) + r)).testBit t
        = ((fun i : Nat => x ((A * es + i : Nat) : Int))
            ((8 * r + t) * es + j)).testBit k := by
    intro j k r t hj hk hr ht
    dsimp only
    rw [shufList_getD x es A bn _ (block_index_lt hj hk hr hbn8)]
    have hb2 : ((bshuf_trans_bit_elem (fun i => x (((A * es : Nat) : Int) + (i : Int)))
        (fun _ => 0) bn es).2 ((j * 8 + k) * (bn / 8) + r)).testBit t
        = (x (((A * es : Nat) : Int)
            + (((8 * r + t) * es + j : Nat) : Int))).testBit k :=
      (bshuf_trans_bit_elem_scal_spec
        (fun i => x (((A * es : Nat) : Int) + (i : Int))) (fun _ => 0) bn es hbn8).2
        j k r t hj hk hr ht
    rw [hb2, show ((A * es : Nat) : Int) + (((8 * r + t) * es + j : Nat) : Int)
        = ((A * es + ((8 * r + t) * es + j) : Nat) : Int) from by push_cast; ring]
  obtain ⟨hc, hres⟩ := untrans_shuffled_block
    (fun i : Nat => x ((A * es + i : Nat) : Int))
    (fun i : Nat => (shufList x es A bn).getD i 0)
    (fun i : Nat => st.outBuf (st.outPos + (i : Int))) bn es hbn8 hy
    (fun i _ => hx _)
  have hc2 : (bshuf_untrans_bit_elem (fun i => (shufList x es A bn).getD i 0)
      (fun i => st.outBuf (st.outPos + (i : Int))) bn es).1
      = ((bn * es : Nat) : Int) := hc
  have hres2 : ∀ m, m < bn * es →
      (bshuf_untrans_bit_elem (fun i => (shufList x es A bn).getD i 0)
        (fun i => st.outBuf (st.outPos + (i : Int))) bn es).2 m
        = x ((A * es + m : Nat) : Int) := hres
  rw [wrapStep_eq, bshuf_decompress_lz4_block_fast_eq, hfd, hhdr]
  dsimp only
  rw [if_neg (not_lt.2 hlen0), if_neg (fun h => h rfl),
    if_neg (by rw [hc2]; exact not_lt.2 (Int.natCast_nonneg _))]
  dsimp only
  have hsum : (((A + bn) * es : Nat) : Int)
      = ((A * es : Nat) : Int) + ((bn * es : Nat) : Int) := by
    push_cast
    ring
  refine ⟨by ring, ?_, rfl, ?_, ?_, ?_⟩
  · rw [hout, hsum]
  · rw [if_neg (by omega)]
  · intro u hu
    unfold splice
    rw [if_pos ⟨by rw [hout]; omega, by rw [hout]; omega⟩]
    rw [show ((((A * es + u : Nat) : Int)) - st.outPos).toNat = u from
      by rw [hout]; omega]
    exact hres2 u hu
  · intro m hm
    unfold splice
    rw [if_neg ?_]
    rintro ⟨hc1, hc2'⟩
    rw [hout] at hc1 hc2'
    rcases hm with hm | hm
    · omega
    · rw [hsum] at hm
      omega

/-- The decompress loop over `n` full blocks of a stream carrying their
records: heads, count, success, and the restored bytes. -/
theorem decompress_fold_spec (lz : LZ4Codec) (x comp out1 : MBuf) (es bs : Nat)
    (hbs8 : bs % 8 = 0) (n : Nat)
    (hlen : ∀ b, b < n → 0 ≤ recLen lz x es (b * bs) bs
      ∧ recLen lz x es (b * bs) bs < 2 ^ 31)
    (hrecs : ∀ b, b < n → RecordAt lz x comp es (recEnd lz x es bs b) (b * bs) bs)
    (hrt : ∀ b, b < n → ∀ s : Nat → Nat,
      (∀ i, i < (recLen lz x es (b * bs) bs).toNat →
        s i = (lz.compress (shufList x es (b * bs) bs)).2.getD i 0) →
      lz.decompressFast s (shufList x es (b * bs) bs).length
        = (recLen lz x es (b * bs) bs, shufList x es (b * bs) bs))
    (hx : ∀ m : Int, x m < 256) :
    (iterFold n (fun _ st => wrapStep (bshuf_decompress_lz4_block lz) comp bs es st)
        (⟨0, 0, out1, 0, 0⟩ : WrapState)).inPos = recEnd lz x es bs n
    ∧ (iterFold n (fun _ st => wrapStep (bshuf_decompress_lz4_block lz) comp bs es st)
        (⟨0, 0, out1, 0, 0⟩ : WrapState)).outPos = ((n * bs * es : Nat) : Int)
    ∧ (iterFold n (fun _ st => wrapStep (bshuf_decompress_lz4_block lz) comp bs es st)
        (⟨0, 0, out1, 0, 0⟩ : WrapState)).cum = recEnd lz x es bs n
    ∧ (iterFold n (fun _ st => wrapStep (bshuf_decompress_lz4_block lz) comp bs es st)
        (⟨0, 0, out1, 0, 0⟩ : WrapState)).err = 0
    ∧ ∀ m : Nat, m < n * bs * es →
        (iterFold n (fun _ st => wrapStep (bshuf_decompress_lz4_block lz) comp bs es st)
          (⟨0, 0, out1, 0, 0⟩ : WrapState)).outBuf ((m : Nat) : Int)
          = x ((m : Nat) : Int) := by
  induction n with
  | zero => exact ⟨rfl, by simp, rfl, rfl, fun m hm => absurd hm (by omega)⟩
  | succ n ih =>
    obtain ⟨h1, h2, h3, h4, h5⟩ := ih (fun b hb => hlen b (by omega))
      (fun b hb => hrecs b (by omega)) (fun b hb => hrt b (by omega))
    rw [iterFold_succ]
    obtain ⟨s1, s2, s3, s4, s5, s6⟩ := decompress_wrapStep_spec lz x comp es bs (n * bs)
      (iterFold n (fun _ st => wrapStep (bshuf_decompress_lz4_block lz) comp bs es st)
        (⟨0, 0, out1, 0, 0⟩ : WrapState)) hbs8 (hlen n (by omega)).1
      (hlen n (by omega)).2 (by rw [h1]; exact hrecs n (by omega))
      (hrt n (by omega)) hx h2
    have hnb : (n * bs + bs) * es = (n + 1) * bs * es := by ring
    have hEsucc : recEnd lz x es bs (n + 1)
        = recEnd lz x es bs n + recLen lz x es (n * bs) bs + 4 := rfl
    refine ⟨?_, by rw [s2, hnb], ?_, by rw [s4, h4], ?_⟩
    · rw [s1, h1, hEsucc]
      ring
    · rw [s3, h3, hEsucc]
      ring
    · intro m hm
      rcases Nat.lt_or_ge m (n * bs * es) with hmn | hmn
      · rw [s6 _ (Or.inl (by exact_mod_cast hmn))]
        exact h5 m hmn
      · have hub : m - n * bs * es < bs * es := by
          have e2 : (n + 1) * bs * es = n * bs * es + bs * es := by ring
          omega
        have := s5 (m - n * bs * es) hub
        rw [show (n * bs) * es + (m - n * bs * es) = m by omega] at this
        exact this

/-- The whole decompress-side block loop against a stream carrying every
record: heads, count, success, and the first `(size - size % 8) * es`
restored bytes. -/
theorem decompress_loop_spec (lz : LZ4Codec) (x comp out1 : MBuf) (size es bs : Nat)
    (hbs8 : bs % 8 = 0) (hbs0 : 0 < bs)
    (hlenF : ∀ b, b < size / bs → 0 ≤ recLen lz x es (b * bs) bs
      ∧ recLen lz x es (b * bs) bs < 2 ^ 31)
    (hlenP : size % bs - size % bs % 8 ≠ 0 →
      0 ≤ recLen lz x es (size / bs * bs) (size % bs - size % bs % 8)
      ∧ recLen lz x es (size / bs * bs) (size % bs - size % bs % 8) < 2 ^ 31)
    (hrecsF : ∀ b, b < size / bs →
      RecordAt lz x comp es (recEnd lz x es bs b) (b * bs) bs)
    (hrecP : size % bs - size % bs % 8 ≠ 0 →
      RecordAt lz x comp es (recEnd lz x es bs (size / bs)) (size / bs * bs)
        (size % bs - size % bs % 8))
    (hrtF : ∀ b, b < size / bs → ∀ s : Nat → Nat,
      (∀ i, i < (recLen lz x es (b * bs) bs).toNat →
        s i = (lz.compress (shufList x es (b * bs) bs)).2.getD i 0) →
      lz.decompressFast s (shufList x es (b * bs) bs).length
        = (recLen lz x es (b * bs) bs, shufList x es (b * bs) bs))
    (hrtP : size % bs - size % bs % 8 ≠ 0 → ∀ s : Nat → Nat,
      (∀ i, i < (recLen lz x es (size / bs * bs) (size % bs - size % bs % 8)).toNat →
        s i = (lz.compress (shufList x es (size / bs * bs)
          (size % bs - size % bs % 8))).2.getD i 0) →
      lz.decompressFast s (shufList x es (size / bs * bs)
          (size % bs - size % bs % 8)).length
        = (recLen lz x es (size / bs * bs) (size % bs - size % bs % 8),
          shufList x es (size / bs * bs) (size % bs - size % bs % 8)))
    (hx : ∀ m : Int, x m < 256) :
    (bshuf_blocked_loop (bshuf_decompress_lz4_block lz) comp out1 size es bs).inPos
        = recEndTotal lz x es bs size
    ∧ (bshuf_blocked_loop (bshuf_decompress_lz4_block lz) comp out1 size es bs).outPos
        = (((size - size % 8) * es : Nat) : Int)
    ∧ (bshuf_blocked_loop (bshuf_decompress_lz4_block lz) comp out1 size es bs).cum
        = recEndTotal lz x es bs size
    ∧ (bshuf_blocked_loop (bshuf_decompress_lz4_block lz) comp out1 size es bs).err = 0
    ∧ ∀ m : Nat, m < (size - size % 8) * es →
        (bshuf_blocked_loop (bshuf_decompress_lz4_block lz) comp out1 size es bs).outBuf
          ((m : Nat) : Int) = x ((m : Nat) : Int) := by
  obtain ⟨hq, hl8⟩ := partition_arith2 size bs hbs8 hbs0
  unfold bshuf_blocked_loop
  by_cases hlbs : size % bs - size % bs % 8 ≠ 0
  · rw [if_pos hlbs]
    obtain ⟨f1, f2, f3, f4, f5⟩ := decompress_fold_spec lz x comp out1 es bs hbs8
      (size / bs) hlenF hrecsF hrtF hx
    obtain ⟨s1, s2, s3, s4, s5, s6⟩ := decompress_wrapStep_spec lz x comp es
      (size % bs - size % bs % 8) (size / bs * bs) _ hl8 (hlenP hlbs).1
      (hlenP hlbs).2 (by rw [f1]; exact hrecP hlbs) (hrtP hlbs) hx f2
    have he : (size / bs * bs + (size % bs - size % bs % 8)) * es
        = (size - size % 8) * es := by rw [hq]
    have hTot : recEndTotal lz x es bs size = recEnd lz x es bs (size / bs)
        + recLen lz x es (size / bs * bs) (size % bs - size % bs % 8) + 4 := by
      unfold recEndTotal
      rw [if_neg hlbs]
    refine ⟨?_, by rw [s2, he], ?_, by rw [s4, f4], ?_⟩
    · rw [s1, f1, hTot]
      ring
    · rw [s3, f3, hTot]
      ring
    · intro m hm
      have hsplit : (size - size % 8) * es
          = size / bs * bs * es + (size % bs - size % bs % 8) * es := by
        rw [← hq]
        ring
      rcases Nat.lt_or_ge m (size / bs * bs * es) with hmn | hmn
      · rw [s6 _ (Or.inl (by exact_mod_cast hmn))]
        exact f5 m hmn
      · have hub : m - size / bs * bs * es < (size % bs - size % bs % 8) * es := by
          omega
        have := s5 (m - size / bs * bs * es) hub
        rw [show size / bs * bs * es + (m - size / bs * bs * es) = m by omega] at this
        exact this
  · rw [if_neg hlbs]
    obtain ⟨f1, f2, f3, f4, f5⟩ := decompress_fold_spec lz x comp out1 es bs hbs8
      (size / bs) hlenF hrecsF hrtF hx
    have hTot : recEndTotal lz x es bs size = recEnd lz x es bs (size / bs) := by
      unfold recEndTotal
      rw [if_pos (by omega)]
    have he : size / bs * bs * es = (size - size % 8) * es := by
      rw [show size / bs * bs = size - size % 8 from by omega]
    refine ⟨by rw [f1, hTot], by rw [f2, he], by rw [f3, hTot], f4, ?_⟩
    intro m hm
    exact f5 m (by omega)

/-- C2: against an LZ4 whose compression of each arising block succeeds
with a 31-bit length and whose LZ4_decompress_fast inverts it,
bshuf_decompress_lz4 applied to the output of bshuf_compress_lz4 (same
size, elem_size and block_size, `bsr` the resolved block size) reproduces
the buffer byte-for-byte — for every size, including sizes that are not
multiples of 8, whose trailing `size % 8` elements travel verbatim. -/
theorem C2_lz4_roundtrip (lz : LZ4Codec) (x out0 out1 : MBuf)
    (size es bs0 bsr : Nat) (hes : 1 ≤ es) (hbs : bs0 % 8 = 0)
    (hbsr_def : bsr = if bs0 = 0 then bshuf_default_block_size es else bs0)
    (hx : ∀ m : Int, x m < 256)
    (hlenF : ∀ b, b < size / bsr → 0 ≤ recLen lz x es (b * bsr) bsr
      ∧ recLen lz x es (b * bsr) bsr < 2 ^ 31)
    (hlenP : size % bsr - size % bsr % 8 ≠ 0 →
      0 ≤ recLen lz x es (size / bsr * bsr) (size % bsr - size % bsr % 8)
      ∧ recLen lz x es (size / bsr * bsr) (size % bsr - size % bsr % 8) < 2 ^ 31)
    (hrtF : ∀ b, b < size / bsr → ∀ s : Nat → Nat,
      (∀ i, i < (recLen lz x es (b * bsr) bsr).toNat →
        s i = (lz.compress (shufList x es (b * bsr) bsr)).2.getD i 0) →
      lz.decompressFast s (shufList x es (b * bsr) bsr).length
        = (recLen lz x es (b * bsr) bsr, shufList x es (b * bsr) bsr))
    (hrtP : size % bsr - size % bsr % 8 ≠ 0 → ∀ s : Nat → Nat,
      (∀ i, i < (recLen lz x es (size / bsr * bsr)
          (size % bsr - size % bsr % 8)).toNat →
        s i = (lz.compress (shufList x es (size / bsr * bsr)
          (size % bsr - size % bsr % 8))).2.getD i 0) →
      lz.decompressFast s (shufList x es (size / bsr * bsr)
          (size % bsr - size % bsr % 8)).length
        = (recLen lz x es (size / bsr * bsr) (size % bsr - size % bsr % 8),
          shufList x es (size / bsr * bsr) (size % bsr - size % bsr % 8))) :
    0 ≤ (bshuf_compress_lz4 lz x out0 size es bs0).1
    ∧ 0 ≤ (bshuf_decompress_lz4 lz (bshuf_compress_lz4 lz x out0 size es bs0).2
        out1 size es bs0).1
    ∧ ∀ m : Nat, m < size * es →
        (bshuf_decompress_lz4 lz (bshuf_compress_lz4 lz x out0 size es bs0).2
          out1 size es bs0).2 ((m : Nat) : Int) = x ((m : Nat) : Int) := by
  have hbsr8 : bsr % 8 = 0 := by
    rw [hbsr_def]
    by_cases hb0 : bs0 = 0
    · rw [if_pos hb0]
      exact bshuf_default_block_size_mod8 es
    · rw [if_neg hb0]
      exact hbs
  have hbsr0 : 0 < bsr := by
    rw [hbsr_def]
    by_cases hb0 : bs0 = 0
    · rw [if_pos hb0]
      have := bshuf_default_block_size_ge es
      omega
    · rw [if_neg hb0]
      omega
  obtain ⟨hq, hl8⟩ := partition_arith2 size bsr hbsr8 hbsr0
  have hsum : (size - size % 8) * es + size % 8 * es = size * es := by
    have h : size - size % 8 + size % 8 = size := by omega
    calc (size - size % 8) * es + size % 8 * es = (size - size % 8 + size % 8) * es :=
          by ring
      _ = size * es := by rw [h]
  have hTot0 : 0 ≤ recEndTotal lz x es bsr size := by
    unfold recEndTotal
    have h1 := recEnd_nonneg lz x es bsr (size / bsr) (fun b hb => (hlenF b hb).1)
    by_cases hlbs : size % bsr - size % bsr % 8 = 0
    · rw [if_pos hlbs]
      exact h1
    · rw [if_neg hlbs]
      have h2 := (hlenP hlbs).1
      omega
  have hEndLe : recEnd lz x es bsr (size / bsr) ≤ recEndTotal lz x es bsr size := by
    unfold recEndTotal
    by_cases hlbs : size % bsr - size % bsr % 8 = 0
    · rw [if_pos hlbs]
    · rw [if_neg hlbs]
      have := (hlenP hlbs).1
      omega
  have hTotP : size % bsr - size % bsr % 8 ≠ 0 → recEndTotal lz x es bsr size
      = recEnd lz x es bsr (size / bsr)
        + recLen lz x es (size / bsr * bsr) (size % bsr - size % bsr % 8) + 4 := by
    intro hlbs
    unfold recEndTotal
    rw [if_neg hlbs]
  obtain ⟨p1, p2, p3, p4, p5, p6⟩ := compress_loop_spec lz x out0 size es bsr
    hbsr8 hbsr0 hlenF hlenP
  have hwrap : bshuf_compress_lz4 lz x out0 size es bs0
      = ((bshuf_blocked_loop (bshuf_compress_lz4_block lz) x out0 size es bsr).cum
            + ((size % 8 * es : Nat) : Int),
          spliceCopy
            (bshuf_blocked_loop (bshuf_compress_lz4_block lz) x out0 size es bsr).outBuf
            (bshuf_blocked_loop (bshuf_compress_lz4_block lz) x out0 size es bsr).outPos
            (size % 8 * es) x
            (bshuf_blocked_loop (bshuf_compress_lz4_block lz) x out0 size es bsr).inPos) := by
    unfold bshuf_compress_lz4 bshuf_blocked_wrap_fun
    rw [← hbsr_def, if_neg (by omega), p4, if_neg (by norm_num)]
  have hA : 0 ≤ (bshuf_compress_lz4 lz x out0 size es bs0).1 := by
    rw [hwrap]
    dsimp only
    rw [p3]
    omega
  have hrecsF' : ∀ b, b < size / bsr →
      RecordAt lz x (bshuf_compress_lz4 lz x out0 size es bs0).2 es
        (recEnd lz x es bsr b) (b * bsr) bsr := by
    intro b hb
    refine RecordAt_congr lz x _ _ es (recEnd lz x es bsr b) (b * bsr) bsr
      (hlenF b hb).1 ?_ (p5 b hb)
    intro m hm1 hm2
    rw [hwrap]
    dsimp only
    unfold spliceCopy
    rw [if_neg ?_]
    rintro ⟨c1, c2⟩
    rw [p2] at c1
    have hmono := recEnd_mono lz x es bsr (size / bsr) (fun c hc => (hlenF c hc).1)
      (b + 1) (size / bsr) (by omega) le_rfl
    have hEb : recEnd lz x es bsr (b + 1)
        = recEnd lz x es bsr b + recLen lz x es (b * bsr) bsr + 4 := rfl
    omega
  have hrecP' : size % bsr - size % bsr % 8 ≠ 0 →
      RecordAt lz x (bshuf_compress_lz4 lz x out0 size es bs0).2 es
        (recEnd lz x es bsr (size / bsr)) (size / bsr * bsr)
        (size % bsr - size % bsr % 8) := by
    intro hlbs
    refine RecordAt_congr lz x _ _ es (recEnd lz x es bsr (size / bsr))
      (size / bsr * bsr) (size % bsr - size % bsr % 8)
      (hlenP hlbs).1 ?_ (p6 hlbs)
    intro m hm1 hm2
    rw [hwrap]
    dsimp only
    unfold spliceCopy
    rw [if_neg ?_]
    rintro ⟨c1, c2⟩
    rw [p2] at c1
    have := hTotP hlbs
    omega
  have hlv : ∀ t : Nat, t < size % 8 * es →
      (bshuf_compress_lz4 lz x out0 size es bs0).2
          (recEndTotal lz x es bsr size + (t : Int))
        = x ((((size - size % 8) * es : Nat) : Int) + (t : Int)) := by
    intro t ht
    rw [hwrap]
    dsimp only
    unfold spliceCopy
    rw [if_pos ⟨by rw [p2]; omega, by rw [p2]; omega⟩, p1, p2]
    congr 1
    ring
  obtain ⟨q1, q2, q3, q4, q5⟩ := decompress_loop_spec lz x
    (bshuf_compress_lz4 lz x out0 size es bs0).2 out1 size es bsr hbsr8 hbsr0
    hlenF hlenP hrecsF' hrecP' hrtF hrtP hx
  have hwrap2 : bshuf_decompress_lz4 lz (bshuf_compress_lz4 lz x out0 size es bs0).2
        out1 size es bs0
      = ((bshuf_blocked_loop (bshuf_decompress_lz4_block lz)
              (bshuf_compress_lz4 lz x out0 size es bs0).2 out1 size es bsr).cum
            + ((size % 8 * es : Nat) : Int),
          spliceCopy
            (bshuf_blocked_loop (bshuf_decompress_lz4_block lz)
              (bshuf_compress_lz4 lz x out0 size es bs0).2 out1 size es bsr).outBuf
            (bshuf_blocked_loop (bshuf_decompress_lz4_block lz)
              (bshuf_compress_lz4 lz x out0 size es bs0).2 out1 size es bsr).outPos
            (size % 8 * es) (bshuf_compress_lz4 lz x out0 size es bs0).2
            (bshuf_blocked_loop (bshuf_decompress_lz4_block lz)
              (bshuf_compress_lz4 lz x out0 size es bs0).2 out1 size es bsr).inPos) := by
    unfold bshuf_decompress_lz4 bshuf_blocked_wrap_fun
    rw [← hbsr_def, if_neg (by omega), q4, if_neg (by norm_num)]
  refine ⟨hA, ?_, ?_⟩
  · rw [hwrap2]
    dsimp only
    rw [q3]
    omega
  · intro m hm
    rw [hwrap2]
    dsimp only
    unfold spliceCopy
    rcases Nat.lt_or_ge m ((size - size % 8) * es) with hmS | hmS
    · rw [if_neg ?_]
      · exact q5 m hmS
      · rintro ⟨c1, c2⟩
        rw [q2] at c1
        omega
    · rw [if_pos ⟨by rw [q2]; omega, by rw [q2]; omega⟩, q1, q2]
      have hlv' := hlv (m - (size - size % 8) * es) (by omega)
      rw [show recEndTotal lz x es bsr size
            + (((m : Nat) : Int) - (((size - size % 8) * es : Nat) : Int))
          = recEndTotal lz x es bsr size + ((m - (size - size % 8) * es : Nat) : Int)
          from by rw [Nat.cast_sub hmS]]
      rw [hlv']
      congr 1
      rw [← Nat.cast_add]
      congr 1
      omega

/-- A trivially correct codec (stores the bytes verbatim), for exercising
the container round trip. -/
def lzIdentity : LZ4Codec :=
  ⟨fun l => ((l.length : Int), l), fun n => n + 16,
   fun s n => ((n : Int), (List.range n).map s),
   fun s _ n => ((n : Int), (List.range n).map s)⟩

theorem lzIdentity_roundtrip (l : List Nat) (s : Nat → Nat)
    (hs : ∀ i, i < ((lzIdentity.compress l).1).toNat →
      s i = (lzIdentity.compress l).2.getD i 0) :
    lzIdentity.decompressFast s l.length = ((lzIdentity.compress l).1, l) := by
  refine Prod.ext rfl ?_
  show (List.range l.length).map s = l
  apply List.ext_getElem
  · simp
  · intro i h1 h2
    simp only [List.getElem_map, List.getElem_range]
    have hi : i < ((lzIdentity.compress l).1).toNat := by
      show i < ((l.length : Int)).toNat
      omega
    rw [hs i hi]
    show l.getD i 0 = l[i]
    exact List.getD_eq_getElem l 0 h2

/-- C2 witness: the container round trip at size 9 (one full block of 8
elements plus one leftover element), elem_size 1, block_size 8, with the
verbatim codec. -/
theorem C2_witness :
    0 ≤ (bshuf_compress_lz4 lzIdentity (fun _ => 5) (fun _ => 0) 9 1 8).1
    ∧ 0 ≤ (bshuf_decompress_lz4 lzIdentity
        (bshuf_compress_lz4 lzIdentity (fun _ => 5) (fun _ => 0) 9 1 8).2
        (fun _ => 0) 9 1 8).1
    ∧ ∀ m : Nat, m < 9 * 1 →
        (bshuf_decompress_lz4 lzIdentity
          (bshuf_compress_lz4 lzIdentity (fun _ => 5) (fun _ => 0) 9 1 8).2
          (fun _ => 0) 9 1 8).2 ((m : Nat) : Int) = 5 :=
  C2_lz4_roundtrip lzIdentity (fun _ => 5) (fun _ => 0) (fun _ => 0) 9 1 8 8
    (by decide) (by decide) (by decide)
    (fun m => by
      show (5 : Nat) < 256
      decide)
    (fun b hb => by
      have hb0 : b = 0 := by omega
      subst hb0
      exact ⟨by decide, by decide⟩)
    (fun h => absurd (by decide) h)
    (fun b hb s hs => by
      have hb0 : b = 0 := by omega
      subst hb0
      exact lzIdentity_roundtrip (shufList (fun _ => 5) 1 (0 * 8) 8) s hs)
    (fun h => absurd (by decide) h)

/-! The SIMD realizations (SSE2, lines 330-751; AVX2, lines 821-1024).
A vector register is a byte function (lane `t` holds byte `t`); loads take
each input byte mod 256 (the 8-bit view of a `char`), unpack intrinsics
are pure lane routings, 16-byte and 32-byte stores are range writes. -/

/-- _mm_unpacklo_epi8: interleave the low 8 bytes of two registers. -/
def unpacklo_epi8 (a b : Buf) : Buf :=
  fun t => if t % 2 = 0 then a (t / 2) else b (t / 2)

/-- _mm_unpackhi_epi8. -/
def unpackhi_epi8 (a b : Buf) : Buf :=
  fun t => if t % 2 = 0 then a (8 + t / 2) else b (8 + t / 2)

/-- _mm_unpacklo_epi16. -/
def unpacklo_epi16 (a b : Buf) : Buf :=
  fun t => if t / 2 % 2 = 0 then a (t / 4 * 2 + t % 2) else b (t / 4 * 2 + t % 2)

/-- _mm_unpackhi_epi16. -/
def unpackhi_epi16 (a b : Buf) : Buf :=
  fun t => if t / 2 % 2 = 0 then a (8 + t / 4 * 2 + t % 2) else b (8 + t / 4 * 2 + t % 2)

/-- _mm_unpacklo_epi32. -/
def unpacklo_epi32 (a b : Buf) : Buf :=
  fun t => if t / 4 % 2 = 0 then a (t / 8 * 4 + t % 4) else b (t / 8 * 4 + t % 4)

/-- _mm_unpackhi_epi32. -/
def unpackhi_epi32 (a b : Buf) : Buf :=
  fun t => if t / 4 % 2 = 0 then a (8 + t / 8 * 4 + t % 4) else b (8 + t / 8 * 4 + t % 4)

/-- _mm_unpacklo_epi64. -/
def unpacklo_epi64 (a b : Buf) : Buf :=
  fun t => if t < 8 then a t else b (t - 8)

/-- _mm_unpackhi_epi64. -/
def unpackhi_epi64 (a b : Buf) : Buf :=
  fun t => if t < 8 then a (8 + t) else b t

/-- _mm_slli_epi16 by 1: each 16-bit lane (bytes `2l`, `2l+1`,
little-endian) is shifted left one bit. -/
def slli_epi16_1 (a : Buf) : Buf :=
  fun t => (a (t / 2 * 2) + 256 * a (t / 2 * 2 + 1)) * 2 % 2 ^ 16 / 256 ^ (t % 2) % 256

/-- _mm_movemask_epi8 over the first `n` lanes: bit `j` of the result is
the top bit of byte `j`. -/
def movemaskN : Nat → Buf → Nat
  | 0, _ => 0
  | n + 1, a => a 0 / 128 % 2 + 2 * movemaskN n (fun j => a (j + 1))

/-- Overwrite `len` bytes at `base` with the lanes of vector `v` (an
unaligned SIMD store). -/
def wrRange (b : Buf) (base len : Nat) (v : Buf) : Buf :=
  fun m => if base ≤ m ∧ m < base + len then v (m - base) else b m

/-- bshuf_copy (lines 115-123): memcpy with the bshuf call signature. -/
def bshuf_copy (inb out0 : Buf) (size elem_size : Nat) : Int × Buf :=
  (((size * elem_size : Nat) : Int),
    fun m => if m < size * elem_size then inb m else out0 m)

theorem wrRange_in (b : Buf) (base len : Nat) (v : Buf) (t : Nat) (h : t < len) :
    wrRange b base len v (base + t) = v t := by
  unfold wrRange
  rw [if_pos ⟨by omega, by omega⟩]
  congr 1
  omega

theorem wrRange_out (b : Buf) (base len : Nat) (v : Buf) (m : Nat)
    (h : m < base ∨ base + len ≤ m) :
    wrRange b base len v m = b m := by
  unfold wrRange
  rw [if_neg (by omega)]

theorem movemaskN_succ (k : Nat) (f : Buf) :
    movemaskN (k + 1) f = f 0 / 128 % 2 + 2 * movemaskN k (fun j => f (j + 1)) := rfl

theorem movemaskN_lt (n : Nat) (a : Buf) : movemaskN n a < 2 ^ n := by
  induction n generalizing a with
  | zero => simp [movemaskN]
  | succ n ih =>
    have h1 := ih (fun j => a (j + 1))
    have h2 : a 0 / 128 % 2 < 2 := Nat.mod_lt _ (by norm_num)
    have h3 : 2 ^ (n + 1) = 2 * 2 ^ n := by ring
    unfold movemaskN
    omega

/-- Bit `j` of a movemask, as a divide-and-mod extraction. -/
theorem movemaskN_bit (n : Nat) (a : Buf) (j : Nat) (hj : j < n) :
    movemaskN n a / 2 ^ j % 2 = a j / 128 % 2 := by
  induction n generalizing a j with
  | zero => omega
  | succ n ih =>
    rcases Nat.eq_zero_or_pos j with hj0 | hj0
    · subst hj0
      rw [movemaskN_succ]
      have h2 : a 0 / 128 % 2 < 2 := Nat.mod_lt _ (by norm_num)
      simp only [pow_zero, Nat.div_one]
      omega
    · have hpow : 2 ^ j = 2 * 2 ^ (j - 1) := by
        calc 2 ^ j = 2 ^ (j - 1 + 1) := by rw [Nat.sub_add_cancel hj0]
          _ = 2 ^ (j - 1) * 2 := pow_succ 2 (j - 1)
          _ = 2 * 2 ^ (j - 1) := by ring
      have hstep : movemaskN (n + 1) a / 2 ^ j
          = movemaskN n (fun i => a (i + 1)) / 2 ^ (j - 1) := by
        rw [movemaskN_succ, hpow, ← Nat.div_div_eq_div_mul]
        congr 1
        have h2 : a 0 / 128 % 2 < 2 := Nat.mod_lt _ (by norm_num)
        omega
      rw [hstep, ih (fun i => a (i + 1)) (j - 1) (by omega)]
      rw [show j - 1 + 1 = j from by omega]

/-- A movemask over `m + n` lanes splits at lane `m`. -/
theorem movemaskN_split (m n : Nat) (a : Buf) :
    movemaskN (m + n) a = movemaskN m a + 2 ^ m * movemaskN n (fun j => a (j + m)) := by
  induction m generalizing a with
  | zero =>
    have he : (fun j => a (j + 0)) = a := by
      funext j
      rw [Nat.add_zero]
    rw [Nat.zero_add, he]
    simp only [movemaskN, pow_zero]
    omega
  | succ m ih =>
    rw [show m + 1 + n = m + n + 1 from by omega]
    rw [movemaskN_succ (m + n) a, movemaskN_succ m a]
    rw [ih (fun j => a (j + 1))]
    have he : (fun j => (fun i => a (i + 1)) (j + m)) = fun j => a (j + (m + 1)) := by
      funext j
      show a (j + m + 1) = a (j + (m + 1))
      rw [Nat.add_assoc]
    rw [he]
    ring

/-- The register after `k` 16-bit left shifts, in closed form: byte `j`
is the corresponding byte of lane `j / 2` shifted left `k` bits. -/
theorem slli_iter_val (x : Buf) (hx : ∀ t, x t < 256) (k : Nat) (j : Nat) :
    iterFold k (fun _ v => slli_epi16_1 v) x j
      = (x (j / 2 * 2) + 256 * x (j / 2 * 2 + 1)) * 2 ^ k % 2 ^ 16
          / 256 ^ (j % 2) % 256 := by
  have h16 : (2 : Nat) ^ 16 = 65536 := by norm_num
  induction k generalizing j with
  | zero =>
    rw [iterFold_zero]
    have h0 := hx (j / 2 * 2)
    have h1 := hx (j / 2 * 2 + 1)
    rcases Nat.mod_two_eq_zero_or_one j with hj | hj
    · rw [hj]
      simp only [pow_zero, Nat.mul_one, Nat.div_one]
      rw [h16, show j / 2 * 2 = j from by omega]
      have h0' := hx j
      have h1' := hx (j + 1)
      omega
    · rw [hj]
      simp only [pow_zero, pow_one, Nat.mul_one]
      rw [h16, show j / 2 * 2 = j - 1 from by omega,
        show j - 1 + 1 = j from by omega]
      have h0' := hx (j - 1)
      have h1' := hx j
      omega
  | succ k ih =>
    rw [iterFold_succ]
    show (iterFold k (fun _ v => slli_epi16_1 v) x (j / 2 * 2)
        + 256 * iterFold k (fun _ v => slli_epi16_1 v) x (j / 2 * 2 + 1)) * 2 % 2 ^ 16
        / 256 ^ (j % 2) % 256
      = (x (j / 2 * 2) + 256 * x (j / 2 * 2 + 1)) * 2 ^ (k + 1) % 2 ^ 16
          / 256 ^ (j % 2) % 256
    rw [ih (j / 2 * 2), ih (j / 2 * 2 + 1)]
    rw [show j / 2 * 2 / 2 * 2 = j / 2 * 2 from by omega,
      show (j / 2 * 2 + 1) / 2 * 2 = j / 2 * 2 from by omega,
      show j / 2 * 2 % 2 = 0 from by omega,
      show (j / 2 * 2 + 1) % 2 = 1 from by omega,
      pow_zero, Nat.div_one, pow_one, h16]
    have hp : (x (j / 2 * 2) + 256 * x (j / 2 * 2 + 1)) * 2 ^ (k + 1)
        = (x (j / 2 * 2) + 256 * x (j / 2 * 2 + 1)) * 2 ^ k * 2 := by
      rw [pow_succ]
      ring
    have hinner : ((x (j / 2 * 2) + 256 * x (j / 2 * 2 + 1)) * 2 ^ k % 65536 % 256
          + 256 * ((x (j / 2 * 2) + 256 * x (j / 2 * 2 + 1)) * 2 ^ k % 65536
            / 256 % 256)) * 2 % 65536
        = (x (j / 2 * 2) + 256 * x (j / 2 * 2 + 1)) * 2 ^ (k + 1) % 65536 := by
      omega
    rw [hinner]

theorem extract_top_bit (M p : Nat) :
    M / 256 ^ p % 256 / 128 % 2 = M / 2 ^ (8 * p + 7) % 2 := by
  have h1 : (256 : Nat) ^ p = 2 ^ (8 * p) := by
    rw [show (256 : Nat) = 2 ^ 8 from by norm_num, ← pow_mul]
  have h2 : (2 : Nat) ^ (8 * p + 7) = 2 ^ (8 * p) * 128 := by
    rw [pow_add]
    norm_num
  rw [h1, h2, ← Nat.div_div_eq_div_mul]
  omega

/-- Bit `b` of the movemask of lanes `8c .. 8c+7` after `k` shifts is bit
`7 - k` of input byte `ii + 8c + b`. -/
theorem mm_store_testBit (inb : Buf) (ii k c b : Nat) (hk : k < 8) (hb : b < 8)
    (hc : c < 4) :
    (movemaskN 8 (fun j => iterFold k (fun _ v => slli_epi16_1 v)
        (fun t => inb (ii + t) % 256) (8 * c + j))).testBit b
      = (inb (ii + 8 * c + b)).testBit (7 - k) := by
  rw [Nat.testBit_to_div_mod, movemaskN_bit 8 _ b hb]
  rw [slli_iter_val (fun t => inb (ii + t) % 256)
    (fun t => Nat.mod_lt _ (by norm_num)) k (8 * c + b)]
  rw [extract_top_bit]
  rw [← Nat.testBit_to_div_mod]
  rw [Nat.testBit_mod_two_pow, decide_eq_true (show 8 * ((8 * c + b) % 2) + 7 < 16 from
    by omega), Bool.true_and]
  rw [← Nat.shiftLeft_eq, Nat.testBit_shiftLeft,
    decide_eq_true (show k ≤ 8 * ((8 * c + b) % 2) + 7 from by omega), Bool.true_and]
  have hlt0 : inb (ii + (8 * c + b) / 2 * 2) % 256 < 256 := Nat.mod_lt _ (by norm_num)
  rw [testBit_add_mul256 _ _ _ hlt0]
  rcases Nat.mod_two_eq_zero_or_one b with hbp | hbp
  · rw [show (8 * c + b) % 2 = 0 from by omega]
    rw [if_pos (by omega)]
    rw [show (8 * c + b) / 2 * 2 = 8 * c + b from by omega,
      show 8 * 0 + 7 - k = 7 - k from by omega,
      show ii + (8 * c + b) = ii + 8 * c + b from by omega]
    rw [show (256 : Nat) = 2 ^ 8 from by norm_num, Nat.testBit_mod_two_pow,
      decide_eq_true (show 7 - k < 8 from by omega), Bool.true_and]
  · rw [show (8 * c + b) % 2 = 1 from by omega]
    rw [if_neg (by omega)]
    rw [show (8 * c + b) / 2 * 2 + 1 = 8 * c + b from by omega,
      show 8 * 1 + 7 - k - 8 = 7 - k from by omega,
      show ii + (8 * c + b) = ii + 8 * c + b from by omega]
    rw [show (256 : Nat) = 2 ^ 8 from by norm_num, Nat.testBit_mod_two_pow,
      decide_eq_true (show 7 - k < 8 from by omega), Bool.true_and]

/-- The byte a movemask store lays down equals the corresponding byte of
the scalar bit-transposed quadword. -/
theorem mm_store_eq_byteOfWord (inb : Buf) (ii k c : Nat) (hk : k < 8) (hc : c < 4) :
    movemaskN 8 (fun j => iterFold k (fun _ v => slli_epi16_1 v)
        (fun t => inb (ii + t) % 256) (8 * c + j))
      = byteOfWord (TRANS_BIT_8X8 (leWord8 inb (ii + 8 * c))) (7 - k) := by
  refine byte_eq_of_low_bits (lt_of_lt_of_le (movemaskN_lt 8 _) (by norm_num))
    (byteOfWord_lt _ _) ?_
  intro b hb
  rw [mm_store_testBit inb ii k c b hk hb hc]
  rw [byteOfWord_testBit _ _ b hb]
  rw [TRANS_BIT_8X8_testBit _ _ (by omega)]
  rw [show (8 * (7 - k) + b) % 8 = b from by omega,
    show (8 * (7 - k) + b) / 8 = 7 - k from by omega]
  rw [leWord8_testBit _ _ b (7 - k) hb (by omega)]

theorem bshuf_trans_bit_byte_remainder_get (inb out0 : Buf) (size es start : Nat)
    (h8 : (es * size) % 8 = 0) (hs8 : start % 8 = 0) (kk i : Nat) (hkk : kk < 8)
    (hi : i < es * size / 8) (hstart : start / 8 ≤ i) :
    (bshuf_trans_bit_byte_remainder inb out0 size es start).2
        (kk * (es * size / 8) + i)
      = byteOfWord (TRANS_BIT_8X8 (leWord8 inb (8 * i))) kk := by
  unfold bshuf_trans_bit_byte_remainder
  rw [if_neg (by omega), if_neg (by omega)]
  dsimp only
  refine iterFold_get_hit _ _ _ _ (i - start / 8) _ (by omega) ?_ ?_
  · intro b
    refine iterFold_get_hit _ _ _ _ kk _ hkk ?_ ?_
    · intro b'
      rw [wr_get_eq _ _ _ _ (by omega)]
      rw [show start / 8 + (i - start / 8) = i from by omega]
    · intro p b' hp hpq
      refine wr_get_ne _ _ _ _ ?_
      intro hEq
      have hEq2 : kk * (es * size / 8) + i
          = p * (es * size / 8) + (start / 8 + (i - start / 8)) := by omega
      rcases rowcol_inj hi (show start / 8 + (i - start / 8) < es * size / 8 from
        by omega) hEq2 with ⟨e1, e2⟩
      exact hpq e1.symm
  · intro q b hq hqne
    refine iterFold_get_miss _ _ _ _ ?_
    intro p b' hp
    refine wr_get_ne _ _ _ _ ?_
    intro hEq
    have hEq2 : kk * (es * size / 8) + i = p * (es * size / 8) + (start / 8 + q) := by
      omega
    rcases rowcol_inj hi (show start / 8 + q < es * size / 8 from by omega) hEq2
      with ⟨e1, e2⟩
    omega

theorem bshuf_trans_bit_byte_remainder_miss (inb out0 : Buf) (size es start : Nat)
    (h8 : (es * size) % 8 = 0) (hs8 : start % 8 = 0) (kk i : Nat) (hkk : kk < 8)
    (hi : i < es * size / 8) (hlow : i < start / 8) :
    (bshuf_trans_bit_byte_remainder inb out0 size es start).2
        (kk * (es * size / 8) + i)
      = out0 (kk * (es * size / 8) + i) := by
  unfold bshuf_trans_bit_byte_remainder
  rw [if_neg (by omega), if_neg (by omega)]
  dsimp only
  refine iterFold_get_miss _ _ _ _ ?_
  intro q b hq
  refine iterFold_get_miss _ _ _ _ ?_
  intro p b' hp
  refine wr_get_ne _ _ _ _ ?_
  intro hEq
  have hEq2 : kk * (es * size / 8) + i = p * (es * size / 8) + (start / 8 + q) := by
    omega
  rcases rowcol_inj hi (show start / 8 + q < es * size / 8 from by omega) hEq2
    with ⟨e1, e2⟩
  omega

theorem bshuf_trans_bit_byte_remainder_fst (inb out0 : Buf) (size es start : Nat)
    (h8 : (es * size) % 8 = 0) (hs8 : start % 8 = 0) :
    (bshuf_trans_bit_byte_remainder inb out0 size es start).1
      = ((size * es : Nat) : Int) := by
  unfold bshuf_trans_bit_byte_remainder
  rw [if_neg (by omega), if_neg (by omega)]

theorem div8_pos (r N q s : Nat) (h8 : N % 8 = 0) (hs : s % 8 = 0) :
    (r * N + s * q) / 8 = r * (N / 8) + s / 8 * q := by
  have h1 : r * N = 8 * (r * (N / 8)) := by
    calc r * N = r * (8 * (N / 8)) := by rw [show 8 * (N / 8) = N from by omega]
      _ = 8 * (r * (N / 8)) := by ring
  have h2 : s * q = 8 * (s / 8 * q) := by
    calc s * q = 8 * (s / 8) * q := by rw [show 8 * (s / 8) = s from by omega]
      _ = 8 * (s / 8 * q) := by ring
  rw [h1, h2]
  omega

/-- bshuf_trans_bit_byte_SSE (lines 537-565): 16 bytes at a time, eight
movemask/shift rounds write one `uint16_t` into each bit row; the tail is
handed to the scalar remainder. -/
def bshuf_trans_bit_byte_SSE (inb out0 : Buf) (size elem_size : Nat) : Int × Buf :=
  if (elem_size * size) % 8 ≠ 0 then (-80, out0)
  else
    bshuf_trans_bit_byte_remainder inb
      (iterFold (elem_size * size / 16) (fun q ob =>
        iterFold 8 (fun kk ob =>
          wr (wr ob (((7 - kk) * (elem_size * size) + 16 * q) / 8)
              (movemaskN 16 (iterFold kk (fun _ v => slli_epi16_1 v)
                (fun t => inb (16 * q + t) % 256)) % 256))
            (((7 - kk) * (elem_size * size) + 16 * q) / 8 + 1)
            (movemaskN 16 (iterFold kk (fun _ v => slli_epi16_1 v)
              (fun t => inb (16 * q + t) % 256)) / 256 % 256)) ob)
        out0)
      size elem_size (elem_size * size - elem_size * size % 16)

/-- The SSE movemask loop writes the same bytes as the scalar bit-in-byte
transpose, on the columns it covers. -/
theorem trans_bit_byte_SSE_main_get (inb out0 : Buf) (N : Nat) (h8 : N % 8 = 0)
    (kk i : Nat) (hkk : kk < 8) (hi : i < 2 * (N / 16)) :
    iterFold (N / 16) (fun q ob =>
      iterFold 8 (fun kk0 ob =>
        wr (wr ob (((7 - kk0) * N + 16 * q) / 8)
            (movemaskN 16 (iterFold kk0 (fun _ v => slli_epi16_1 v)
              (fun t => inb (16 * q + t) % 256)) % 256))
          (((7 - kk0) * N + 16 * q) / 8 + 1)
          (movemaskN 16 (iterFold kk0 (fun _ v => slli_epi16_1 v)
            (fun t => inb (16 * q + t) % 256)) / 256 % 256)) ob) out0
      (kk * (N / 8) + i)
    = byteOfWord (TRANS_BIT_8X8 (leWord8 inb (8 * i))) kk := by
  have hdiv : ∀ r q : Nat, (r * N + 16 * q) / 8 = r * (N / 8) + 2 * q := by
    intro r q
    have := div8_pos r N q 16 h8 (by norm_num)
    norm_num at this
    exact this
  simp only [hdiv]
  have hWi : i < N / 8 := by omega
  refine iterFold_get_hit _ _ _ _ (i / 2) _ (by omega) ?_ ?_
  · intro b
    refine iterFold_get_hit _ _ _ _ (7 - kk) _ (by omega) ?_ ?_
    · intro b'
      rw [show 7 - (7 - kk) = kk from by omega]
      have hsplit := movemaskN_split 8 8 (iterFold (7 - kk) (fun _ v => slli_epi16_1 v)
        (fun t => inb (16 * (i / 2) + t) % 256))
      norm_num at hsplit
      have hl1 := movemaskN_lt 8 (iterFold (7 - kk) (fun _ v => slli_epi16_1 v)
        (fun t => inb (16 * (i / 2) + t) % 256))
      have hl2 := movemaskN_lt 8 (fun j => iterFold (7 - kk) (fun _ v => slli_epi16_1 v)
        (fun t => inb (16 * (i / 2) + t) % 256) (j + 8))
      norm_num at hl1 hl2
      rcases Nat.mod_two_eq_zero_or_one i with hpar | hpar
      · rw [wr_get_ne _ _ _ _ (by omega), wr_get_eq _ _ _ _ (by omega)]
        rw [show movemaskN 16 (iterFold (7 - kk) (fun _ v => slli_epi16_1 v)
            (fun t => inb (16 * (i / 2) + t) % 256)) % 256
          = movemaskN 8 (iterFold (7 - kk) (fun _ v => slli_epi16_1 v)
            (fun t => inb (16 * (i / 2) + t) % 256)) from by omega]
        rw [show movemaskN 8 (iterFold (7 - kk) (fun _ v => slli_epi16_1 v)
            (fun t => inb (16 * (i / 2) + t) % 256))
          = movemaskN 8 (fun j => iterFold (7 - kk) (fun _ v => slli_epi16_1 v)
            (fun t => inb (16 * (i / 2) + t) % 256) (8 * 0 + j)) from
          congrArg _ (funext fun j => by rw [show 8 * 0 + j = j from by omega])]
        rw [mm_store_eq_byteOfWord inb (16 * (i / 2)) (7 - kk) 0 (by omega) (by omega)]
        rw [show 7 - (7 - kk) = kk from by omega,
          show 16 * (i / 2) + 8 * 0 = 8 * i from by omega]
      · rw [wr_get_eq _ _ _ _ (by omega)]
        rw [show movemaskN 16 (iterFold (7 - kk) (fun _ v => slli_epi16_1 v)
            (fun t => inb (16 * (i / 2) + t) % 256)) / 256 % 256
          = movemaskN 8 (fun j => iterFold (7 - kk) (fun _ v => slli_epi16_1 v)
            (fun t => inb (16 * (i / 2) + t) % 256) (j + 8)) from by omega]
        rw [show movemaskN 8 (fun j => iterFold (7 - kk) (fun _ v => slli_epi16_1 v)
            (fun t => inb (16 * (i / 2) + t) % 256) (j + 8))
          = movemaskN 8 (fun j => iterFold (7 - kk) (fun _ v => slli_epi16_1 v)
            (fun t => inb (16 * (i / 2) + t) % 256) (8 * 1 + j)) from
          congrArg _ (funext fun j => by rw [show j + 8 = 8 * 1 + j from by omega])]
        rw [mm_store_eq_byteOfWord inb (16 * (i / 2)) (7 - kk) 1 (by omega) (by omega)]
        rw [show 7 - (7 - kk) = kk from by omega,
          show 16 * (i / 2) + 8 * 1 = 8 * i from by omega]
    · intro p b' hp hpq
      refine Eq.trans (wr_get_ne _ _ _ _ ?_) (wr_get_ne _ _ _ _ ?_)
      · intro hEq
        rcases rowcol_inj hWi (show 2 * (i / 2) + 1 < N / 8 from by omega) hEq
          with ⟨e1, e2⟩
        omega
      · intro hEq
        rcases rowcol_inj hWi (show 2 * (i / 2) < N / 8 from by omega) hEq
          with ⟨e1, e2⟩
        omega
  · intro q b hq hqne
    refine iterFold_get_miss _ _ _ _ ?_
    intro p b' hp
    refine Eq.trans (wr_get_ne _ _ _ _ ?_) (wr_get_ne _ _ _ _ ?_)
    · intro hEq
      rcases rowcol_inj hWi (show 2 * q + 1 < N / 8 from by omega) hEq with ⟨e1, e2⟩
      omega
    · intro hEq
      rcases rowcol_inj hWi (show 2 * q < N / 8 from by omega) hEq with ⟨e1, e2⟩
      omega

/-- The SSE bit-in-byte transpose writes exactly the scalar bytes. -/
theorem bshuf_trans_bit_byte_SSE_get (inb out0 : Buf) (size es : Nat)
    (h8 : (es * size) % 8 = 0) (kk i : Nat) (hkk : kk < 8)
    (hi : i < es * size / 8) :
    (bshuf_trans_bit_byte_SSE inb out0 size es).2 (kk * (es * size / 8) + i)
      = byteOfWord (TRANS_BIT_8X8 (leWord8 inb (8 * i))) kk := by
  unfold bshuf_trans_bit_byte_SSE
  rw [if_neg (by omega)]
  rcases Nat.lt_or_ge i ((es * size - es * size % 16) / 8) with hlo | hhi
  · rw [bshuf_trans_bit_byte_remainder_miss inb _ size es _ h8 (by omega) kk i hkk hi
      hlo]
    have hcols : (es * size - es * size % 16) / 8 = 2 * (es * size / 16) := by omega
    exact trans_bit_byte_SSE_main_get inb out0 (es * size) h8 kk i hkk (by omega)
  · exact bshuf_trans_bit_byte_remainder_get inb _ size es _ h8 (by omega) kk i hkk hi
      (by omega)

theorem bshuf_trans_bit_byte_SSE_fst (inb out0 : Buf) (size es : Nat)
    (h8 : (es * size) % 8 = 0) :
    (bshuf_trans_bit_byte_SSE inb out0 size es).1 = ((size * es : Nat) : Int) := by
  unfold bshuf_trans_bit_byte_SSE
  rw [if_neg (by omega)]
  exact bshuf_trans_bit_byte_remainder_fst inb _ size es _ h8 (by omega)

/-- bshuf_trans_bit_byte_AVX (lines 824-850): 32 bytes at a time, eight
movemask/shift rounds write one `int32_t` into each bit row; the tail is
handed to the scalar remainder. -/
def bshuf_trans_bit_byte_AVX (inb out0 : Buf) (size elem_size : Nat) : Int × Buf :=
  if (elem_size * size) % 8 ≠ 0 then (-80, out0)
  else
    bshuf_trans_bit_byte_remainder inb
      (iterFold (elem_size * size / 32) (fun q ob =>
        iterFold 8 (fun kk ob =>
          wr (wr (wr (wr ob
              (((7 - kk) * (elem_size * size) + 32 * q) / 8)
              (movemaskN 32 (iterFold kk (fun _ v => slli_epi16_1 v)
                (fun t => inb (32 * q + t) % 256)) % 256))
              (((7 - kk) * (elem_size * size) + 32 * q) / 8 + 1)
              (movemaskN 32 (iterFold kk (fun _ v => slli_epi16_1 v)
                (fun t => inb (32 * q + t) % 256)) / 256 % 256))
              (((7 - kk) * (elem_size * size) + 32 * q) / 8 + 2)
              (movemaskN 32 (iterFold kk (fun _ v => slli_epi16_1 v)
                (fun t => inb (32 * q + t) % 256)) / 256 / 256 % 256))
            (((7 - kk) * (elem_size * size) + 32 * q) / 8 + 3)
            (movemaskN 32 (iterFold kk (fun _ v => slli_epi16_1 v)
              (fun t => inb (32 * q + t) % 256)) / 256 / 256 / 256 % 256)) ob)
        out0)
      size elem_size (elem_size * size - elem_size * size % 32)

/-- The AVX movemask loop writes the same bytes as the scalar bit-in-byte
transpose, on the columns it covers. -/
theorem trans_bit_byte_AVX_main_get (inb out0 : Buf) (N : Nat) (h8 : N % 8 = 0)
    (kk i : Nat) (hkk : kk < 8) (hi : i < 4 * (N / 32)) :
    iterFold (N / 32) (fun q ob =>
      iterFold 8 (fun kk0 ob =>
        wr (wr (wr (wr ob
            (((7 - kk0) * N + 32 * q) / 8)
            (movemaskN 32 (iterFold kk0 (fun _ v => slli_epi16_1 v)
              (fun t => inb (32 * q + t) % 256)) % 256))
            (((7 - kk0) * N + 32 * q) / 8 + 1)
            (movemaskN 32 (iterFold kk0 (fun _ v => slli_epi16_1 v)
              (fun t => inb (32 * q + t) % 256)) / 256 % 256))
            (((7 - kk0) * N + 32 * q) / 8 + 2)
            (movemaskN 32 (iterFold kk0 (fun _ v => slli_epi16_1 v)
              (fun t => inb (32 * q + t) % 256)) / 256 / 256 % 256))
          (((7 - kk0) * N + 32 * q) / 8 + 3)
          (movemaskN 32 (iterFold kk0 (fun _ v => slli_epi16_1 v)
            (fun t => inb (32 * q + t) % 256)) / 256 / 256 / 256 % 256)) ob) out0
      (kk * (N / 8) + i)
    = byteOfWord (TRANS_BIT_8X8 (leWord8 inb (8 * i))) kk := by
  have hdiv : ∀ r q : Nat, (r * N + 32 * q) / 8 = r * (N / 8) + 4 * q := by
    intro r q
    have := div8_pos r N q 32 h8 (by norm_num)
    norm_num at this
    exact this
  simp only [hdiv]
  have hWi : i < N / 8 := by omega
  refine iterFold_get_hit _ _ _ _ (i / 4) _ (by omega) ?_ ?_
  · intro b
    refine iterFold_get_hit _ _ _ _ (7 - kk) _ (by omega) ?_ ?_
    · intro b'
      rw [show 7 - (7 - kk) = kk from by omega]
      have hs1 := movemaskN_split 8 24 (iterFold (7 - kk) (fun _ v => slli_epi16_1 v)
        (fun t => inb (32 * (i / 4) + t) % 256))
      have hs2 := movemaskN_split 8 16 (fun j => iterFold (7 - kk)
        (fun _ v => slli_epi16_1 v) (fun t => inb (32 * (i / 4) + t) % 256) (j + 8))
      have hs3 := movemaskN_split 8 8 (fun j => iterFold (7 - kk)
        (fun _ v => slli_epi16_1 v) (fun t => inb (32 * (i / 4) + t) % 256) (j + 8 + 8))
      norm_num at hs1 hs2 hs3
      have hl0 := movemaskN_lt 8 (iterFold (7 - kk) (fun _ v => slli_epi16_1 v)
        (fun t => inb (32 * (i / 4) + t) % 256))
      have hl1 := movemaskN_lt 8 (fun j => iterFold (7 - kk) (fun _ v => slli_epi16_1 v)
        (fun t => inb (32 * (i / 4) + t) % 256) (j + 8))
      have hl2 := movemaskN_lt 8 (fun j => iterFold (7 - kk) (fun _ v => slli_epi16_1 v)
        (fun t => inb (32 * (i / 4) + t) % 256) (j + 8 + 8))
      have hl3 := movemaskN_lt 8 (fun j => iterFold (7 - kk) (fun _ v => slli_epi16_1 v)
        (fun t => inb (32 * (i / 4) + t) % 256) (j + 8 + 8 + 8))
      norm_num at hl0 hl1 hl2 hl3
      have hc0 : movemaskN 8 (iterFold (7 - kk) (fun _ v => slli_epi16_1 v)
          (fun t => inb (32 * (i / 4) + t) % 256))
          = movemaskN 8 (fun j => iterFold (7 - kk) (fun _ v => slli_epi16_1 v)
            (fun t => inb (32 * (i / 4) + t) % 256) (8 * 0 + j)) :=
        congrArg _ (funext fun j => by rw [show 8 * 0 + j = j from by omega])
      have hc1 : movemaskN 8 (fun j => iterFold (7 - kk) (fun _ v => slli_epi16_1 v)
          (fun t => inb (32 * (i / 4) + t) % 256) (j + 8))
          = movemaskN 8 (fun j => iterFold (7 - kk) (fun _ v => slli_epi16_1 v)
            (fun t => inb (32 * (i / 4) + t) % 256) (8 * 1 + j)) :=
        congrArg _ (funext fun j => by rw [show j + 8 = 8 * 1 + j from by omega])
      have hc2 : movemaskN 8 (fun j => iterFold (7 - kk) (fun _ v => slli_epi16_1 v)
          (fun t => inb (32 * (i / 4) + t) % 256) (j + 8 + 8))
          = movemaskN 8 (fun j => iterFold (7 - kk) (fun _ v => slli_epi16_1 v)
            (fun t => inb (32 * (i / 4) + t) % 256) (8 * 2 + j)) :=
        congrArg _ (funext fun j => by rw [show j + 8 + 8 = 8 * 2 + j from by omega])
      have hc3 : movemaskN 8 (fun j => iterFold (7 - kk) (fun _ v => slli_epi16_1 v)
          (fun t => inb (32 * (i / 4) + t) % 256) (j + 8 + 8 + 8))
          = movemaskN 8 (fun j => iterFold (7 - kk) (fun _ v => slli_epi16_1 v)
            (fun t => inb (32 * (i / 4) + t) % 256) (8 * 3 + j)) :=
        congrArg _ (funext fun j => by rw [show j + 8 + 8 + 8 = 8 * 3 + j from by omega])
      have hm0 := mm_store_eq_byteOfWord inb (32 * (i / 4)) (7 - kk) 0 (by omega)
        (by omega)
      have hm1 := mm_store_eq_byteOfWord inb (32 * (i / 4)) (7 - kk) 1 (by omega)
        (by omega)
      have hm2 := mm_store_eq_byteOfWord inb (32 * (i / 4)) (7 - kk) 2 (by omega)
        (by omega)
      have hm3 := mm_store_eq_byteOfWord inb (32 * (i / 4)) (7 - kk) 3 (by omega)
        (by omega)
      have hi4 : i % 4 = 0 ∨ i % 4 = 1 ∨ i % 4 = 2 ∨ i % 4 = 3 := by omega
      rcases hi4 with hpar | hpar | hpar | hpar
      · rw [wr_get_ne _ _ _ _ (by omega), wr_get_ne _ _ _ _ (by omega),
          wr_get_ne _ _ _ _ (by omega), wr_get_eq _ _ _ _ (by omega)]
        rw [show movemaskN 32 (iterFold (7 - kk) (fun _ v => slli_epi16_1 v)
            (fun t => inb (32 * (i / 4) + t) % 256)) % 256
          = movemaskN 8 (iterFold (7 - kk) (fun _ v => slli_epi16_1 v)
            (fun t => inb (32 * (i / 4) + t) % 256)) from by omega]
        rw [hc0, hm0, show 7 - (7 - kk) = kk from by omega,
          show 32 * (i / 4) + 8 * 0 = 8 * i from by omega]
      · rw [wr_get_ne _ _ _ _ (by omega), wr_get_ne _ _ _ _ (by omega),
          wr_get_eq _ _ _ _ (by omega)]
        rw [show movemaskN 32 (iterFold (7 - kk) (fun _ v => slli_epi16_1 v)
            (fun t => inb (32 * (i / 4) + t) % 256)) / 256 % 256
          = movemaskN 8 (fun j => iterFold (7 - kk) (fun _ v => slli_epi16_1 v)
            (fun t => inb (32 * (i / 4) + t) % 256) (j + 8)) from by omega]
        rw [hc1, hm1, show 7 - (7 - kk) = kk from by omega,
          show 32 * (i / 4) + 8 * 1 = 8 * i from by omega]
      · rw [wr_get_ne _ _ _ _ (by omega), wr_get_eq _ _ _ _ (by omega)]
        rw [show movemaskN 32 (iterFold (7 - kk) (fun _ v => slli_epi16_1 v)
            (fun t => inb (32 * (i / 4) + t) % 256)) / 256 / 256 % 256
          = movemaskN 8 (fun j => iterFold (7 - kk) (fun _ v => slli_epi16_1 v)
            (fun t => inb (32 * (i / 4) + t) % 256) (j + 8 + 8)) from by omega]
        rw [hc2, hm2, show 7 - (7 - kk) = kk from by omega,
          show 32 * (i / 4) + 8 * 2 = 8 * i from by omega]
      · rw [wr_get_eq _ _ _ _ (by omega)]
        rw [show movemaskN 32 (iterFold (7 - kk) (fun _ v => slli_epi16_1 v)
            (fun t => inb (32 * (i / 4) + t) % 256)) / 256 / 256 / 256 % 256
          = movemaskN 8 (fun j => iterFold (7 - kk) (fun _ v => slli_epi16_1 v)
            (fun t => inb (32 * (i / 4) + t) % 256) (j + 8 + 8 + 8)) from by omega]
        rw [hc3, hm3, show 7 - (7 - kk) = kk from by omega,
          show 32 * (i / 4) + 8 * 3 = 8 * i from by omega]
    · intro p b' hp hpq
      refine Eq.trans (wr_get_ne _ _ _ _ ?_) (Eq.trans (wr_get_ne _ _ _ _ ?_)
        (Eq.trans (wr_get_ne _ _ _ _ ?_) (wr_get_ne _ _ _ _ ?_)))
      · intro hEq
        rcases rowcol_inj hWi (show 4 * (i / 4) + 3 < N / 8 from by omega) hEq
          with ⟨e1, e2⟩
        omega
      · intro hEq
        rcases rowcol_inj hWi (show 4 * (i / 4) + 2 < N / 8 from by omega) hEq
          with ⟨e1, e2⟩
        omega
      · intro hEq
        rcases rowcol_inj hWi (show 4 * (i / 4) + 1 < N / 8 from by omega) hEq
          with ⟨e1, e2⟩
        omega
      · intro hEq
        rcases rowcol_inj hWi (show 4 * (i / 4) < N / 8 from by omega) hEq
          with ⟨e1, e2⟩
        omega
  · intro q b hq hqne
    refine iterFold_get_miss _ _ _ _ ?_
    intro p b' hp
    refine Eq.trans (wr_get_ne _ _ _ _ ?_) (Eq.trans (wr_get_ne _ _ _ _ ?_)
      (Eq.trans (wr_get_ne _ _ _ _ ?_) (wr_get_ne _ _ _ _ ?_)))
    · intro hEq
      rcases rowcol_inj hWi (show 4 * q + 3 < N / 8 from by omega) hEq with ⟨e1, e2⟩
      omega
    · intro hEq
      rcases rowcol_inj hWi (show 4 * q + 2 < N / 8 from by omega) hEq with ⟨e1, e2⟩
      omega
    · intro hEq
      rcases rowcol_inj hWi (show 4 * q + 1 < N / 8 from by omega) hEq with ⟨e1, e2⟩
      omega
    · intro hEq
      rcases rowcol_inj hWi (show 4 * q < N / 8 from by omega) hEq with ⟨e1, e2⟩
      omega

/-- The AVX bit-in-byte transpose writes exactly the scalar bytes. -/
theorem bshuf_trans_bit_byte_AVX_get (inb out0 : Buf) (size es : Nat)
    (h8 : (es * size) % 8 = 0) (kk i : Nat) (hkk : kk < 8)
    (hi : i < es * size / 8) :
    (bshuf_trans_bit_byte_AVX inb out0 size es).2 (kk * (es * size / 8) + i)
      = byteOfWord (TRANS_BIT_8X8 (leWord8 inb (8 * i))) kk := by
  unfold bshuf_trans_bit_byte_AVX
  rw [if_neg (by omega)]
  rcases Nat.lt_or_ge i ((es * size - es * size % 32) / 8) with hlo | hhi
  · rw [bshuf_trans_bit_byte_remainder_miss inb _ size es _ h8 (by omega) kk i hkk hi
      hlo]
    exact trans_bit_byte_AVX_main_get inb out0 (es * size) h8 kk i hkk (by omega)
  · exact bshuf_trans_bit_byte_remainder_get inb _ size es _ h8 (by omega) kk i hkk hi
      (by omega)

theorem bshuf_trans_bit_byte_AVX_fst (inb out0 : Buf) (size es : Nat)
    (h8 : (es * size) % 8 = 0) :
    (bshuf_trans_bit_byte_AVX inb out0 size es).1 = ((size * es : Nat) : Int) := by
  unfold bshuf_trans_bit_byte_AVX
  rw [if_neg (by omega)]
  exact bshuf_trans_bit_byte_remainder_fst inb _ size es _ h8 (by omega)

/-! The SSE byte-in-element transposes (lines 333-471): each is a load of
2/4/8 registers, a fixed unpack network, and row stores; the tail goes to
the scalar remainder.  The networks are expressed through one combinator
per stage shape. -/

/-- A lo/hi epi8 stage on adjacent register pairs (`a1 = lo(a0, b0)`,
`b1 = hi(a0, b0)`, ...). -/
def rifPair8 (f : Nat → Buf) (k : Nat) : Buf :=
  if k % 2 = 0 then unpacklo_epi8 (f (k / 2 * 2)) (f (k / 2 * 2 + 1))
  else unpackhi_epi8 (f (k / 2 * 2)) (f (k / 2 * 2 + 1))

/-- The epi64 stage of the 32-bit network (`a0 = lo64(a1, c1)`, ...). -/
def rif4_64 (f : Nat → Buf) (k : Nat) : Buf :=
  if k % 2 = 0 then unpacklo_epi64 (f (k / 2)) (f (k / 2 + 2))
  else unpackhi_epi64 (f (k / 2)) (f (k / 2 + 2))

/-- The epi32 stage of the 64-bit network (`a1 = lo32(a0, c0)`, ...). -/
def rif8_32 (f : Nat → Buf) (k : Nat) : Buf :=
  if k % 2 = 0 then unpacklo_epi32 (f (k / 4 * 4 + k / 2 % 2)) (f (k / 4 * 4 + k / 2 % 2 + 2))
  else unpackhi_epi32 (f (k / 4 * 4 + k / 2 % 2)) (f (k / 4 * 4 + k / 2 % 2 + 2))

/-- The epi64 stage of the 64-bit network (`a0 = lo64(a1, e1)`, ...). -/
def rif8_64 (f : Nat → Buf) (k : Nat) : Buf :=
  if k % 2 = 0 then unpacklo_epi64 (f (k / 2)) (f (k / 2 + 4))
  else unpackhi_epi64 (f (k / 2)) (f (k / 2 + 4))

/-- Register `k` loaded from element data of width `es` at element `ii`. -/
def sseLoad (x : Buf) (es ii k : Nat) : Buf := fun t => x (es * ii + 16 * k + t)

/-- The 16-bit network (lines 339-357): four epi8 stages over two
registers. -/
def sse16net (x : Buf) (ii : Nat) : Nat → Buf :=
  rifPair8 (rifPair8 (rifPair8 (rifPair8 (sseLoad x 2 ii))))

/-- The 32-bit network (lines 370-400): three epi8 stages and one epi64
stage over four registers. -/
def sse32net (x : Buf) (ii : Nat) : Nat → Buf :=
  rif4_64 (rifPair8 (rifPair8 (rifPair8 (sseLoad x 4 ii))))

/-- The 64-bit network (lines 414-468): two epi8 stages, an epi32 stage
and an epi64 stage over eight registers. -/
def sse64net (x : Buf) (ii : Nat) : Nat → Buf :=
  rif8_64 (rif8_32 (rifPair8 (rifPair8 (sseLoad x 8 ii))))

theorem sse16net_get (x : Buf) (ii e t : Nat) (he : e < 2) (ht : t < 16) :
    sse16net x ii e t = x (2 * ii + (2 * t + e)) := by
  unfold sse16net
  interval_cases e <;> interval_cases t <;>
    simp +decide only [rifPair8, sseLoad, unpacklo_epi8, unpackhi_epi8,
      Nat.reduceAdd, Nat.reduceMul, Nat.reduceDiv, Nat.reduceMod, if_true, if_false]

theorem sse32net_get (x : Buf) (ii e t : Nat) (he : e < 4) (ht : t < 16) :
    sse32net x ii e t = x (4 * ii + (4 * t + e)) := by
  unfold sse32net
  interval_cases e <;> interval_cases t <;>
    simp +decide only [rifPair8, rif4_64, sseLoad, unpacklo_epi8, unpackhi_epi8,
      unpacklo_epi64, unpackhi_epi64,
      Nat.reduceAdd, Nat.reduceMul, Nat.reduceDiv, Nat.reduceMod, Nat.reduceSub,
      Nat.reduceLT, if_true, if_false]

theorem sse64net_get (x : Buf) (ii e t : Nat) (he : e < 8) (ht : t < 16) :
    sse64net x ii e t = x (8 * ii + (8 * t + e)) := by
  unfold sse64net
  interval_cases e <;> interval_cases t <;>
    simp +decide only [rifPair8, rif8_32, rif8_64, sseLoad, unpacklo_epi8,
      unpackhi_epi8, unpacklo_epi32, unpackhi_epi32, unpacklo_epi64, unpackhi_epi64,
      Nat.reduceAdd, Nat.reduceMul, Nat.reduceDiv, Nat.reduceMod, Nat.reduceSub,
      Nat.reduceLT, if_true, if_false]

theorem bshuf_trans_byte_elem_remainder_miss (inb out0 : Buf) (size es start : Nat)
    (hs8 : start % 8 = 0) (i j : Nat) (hi : i < size) (hj : j < es)
    (hlow : i < start) :
    (bshuf_trans_byte_elem_remainder inb out0 size es start).2 (j * size + i)
      = out0 (j * size + i) := by
  unfold bshuf_trans_byte_elem_remainder
  rw [if_neg (by omega)]
  by_cases hss : start < size
  · rw [if_pos hss]
    dsimp only
    refine Eq.trans (iterFold_get_miss _ _ _ _ ?_) ?_
    · intro t b ht
      refine iterFold_get_miss _ _ _ _ ?_
      intro jj b' hjj
      refine wr_get_ne _ _ _ _ ?_
      intro hEq
      rcases rowcol_inj hi (show size - size % 8 + t < size from by omega) hEq
        with ⟨e1, e2⟩
      omega
    · refine iterFold_get_miss _ _ _ _ ?_
      intro q b hq
      refine iterFold_get_miss _ _ _ _ ?_
      intro jj b' hjj
      refine iterFold_get_miss _ _ _ _ ?_
      intro kk b'' hkk
      refine wr_get_ne _ _ _ _ ?_
      intro hEq
      have hEq2 : j * size + i = jj * size + (start + 8 * q + kk) := by omega
      rcases rowcol_inj hi (show start + 8 * q + kk < size from by omega) hEq2
        with ⟨e1, e2⟩
      omega
  · rw [if_neg hss]

theorem bshuf_trans_byte_elem_remainder_fst (inb out0 : Buf) (size es start : Nat)
    (hs8 : start % 8 = 0) :
    (bshuf_trans_byte_elem_remainder inb out0 size es start).1
      = ((size * es : Nat) : Int) := by
  unfold bshuf_trans_byte_elem_remainder
  rw [if_neg (by omega)]
  split <;> rfl

/-- The SSE main loops for 2/4/8-byte elements, generically: `size / 16`
chunks, each storing 16 transposed bytes into each of the `es` rows. -/
theorem sse_byte_elem_main_get (inb out0 : Buf) (size es : Nat)
    (net : Nat → Nat → Buf)
    (hnet : ∀ ii e t, e < es → t < 16 → net ii e t = inb (es * ii + (es * t + e)))
    (i j : Nat) (hi : i < 16 * (size / 16)) (hj : j < es) :
    iterFold (size / 16) (fun q ob =>
      iterFold es (fun e ob =>
        wrRange ob (e * size + 16 * q) 16 (net (16 * q) e)) ob) out0
      (j * size + i)
    = inb (i * es + j) := by
  have hi16 : 16 * (size / 16) ≤ size := by omega
  refine iterFold_get_hit _ _ _ _ (i / 16) _ (by omega) ?_ ?_
  · intro b
    refine iterFold_get_hit _ _ _ _ j _ hj ?_ ?_
    · intro b'
      rw [show j * size + i = j * size + 16 * (i / 16) + i % 16 from by omega]
      rw [wrRange_in b' (j * size + 16 * (i / 16)) 16 (net (16 * (i / 16)) j)
        (i % 16) (by omega)]
      rw [hnet _ j _ hj (by omega)]
      have h1 : es * (16 * (i / 16)) + (es * (i % 16) + j)
          = es * (16 * (i / 16) + i % 16) + j := by ring
      rw [h1, show 16 * (i / 16) + i % 16 = i from by omega]
      ring_nf
    · intro p b' hp hpq
      refine wrRange_out _ _ _ _ _ ?_
      by_contra hcon
      push_neg at hcon
      obtain ⟨h1, h2⟩ := hcon
      have hEq : j * size + i
          = p * size + (16 * (i / 16) + (j * size + i - (p * size + 16 * (i / 16)))) := by
        omega
      have hclt : 16 * (i / 16) + (j * size + i - (p * size + 16 * (i / 16))) < size := by
        omega
      rcases rowcol_inj (show i < size from by omega) hclt hEq with ⟨e1, _⟩
      exact hpq e1.symm
  · intro q b hq hqne
    refine iterFold_get_miss _ _ _ _ ?_
    intro p b' hp
    refine wrRange_out _ _ _ _ _ ?_
    by_contra hcon
    push_neg at hcon
    obtain ⟨h1, h2⟩ := hcon
    have hEq : j * size + i
        = p * size + (16 * q + (j * size + i - (p * size + 16 * q))) := by omega
    have hclt : 16 * q + (j * size + i - (p * size + 16 * q)) < size := by omega
    rcases rowcol_inj (show i < size from by omega) hclt hEq with ⟨e1, e2⟩
    omega

/-- bshuf_trans_byte_elem_SSE_16 (lines 333-360). -/
def bshuf_trans_byte_elem_SSE_16 (inb out0 : Buf) (size : Nat) : Int × Buf :=
  bshuf_trans_byte_elem_remainder inb
    (iterFold (size / 16) (fun q ob =>
      iterFold 2 (fun e ob =>
        wrRange ob (e * size + 16 * q) 16 (sse16net inb (16 * q) e)) ob) out0)
    size 2 (size - size % 16)

/-- bshuf_trans_byte_elem_SSE_32 (lines 364-403). -/
def bshuf_trans_byte_elem_SSE_32 (inb out0 : Buf) (size : Nat) : Int × Buf :=
  bshuf_trans_byte_elem_remainder inb
    (iterFold (size / 16) (fun q ob =>
      iterFold 4 (fun e ob =>
        wrRange ob (e * size + 16 * q) 16 (sse32net inb (16 * q) e)) ob) out0)
    size 4 (size - size % 16)

/-- bshuf_trans_byte_elem_SSE_64 (lines 407-471). -/
def bshuf_trans_byte_elem_SSE_64 (inb out0 : Buf) (size : Nat) : Int × Buf :=
  bshuf_trans_byte_elem_remainder inb
    (iterFold (size / 16) (fun q ob =>
      iterFold 8 (fun e ob =>
        wrRange ob (e * size + 16 * q) 16 (sse64net inb (16 * q) e)) ob) out0)
    size 8 (size - size % 16)

theorem bshuf_trans_byte_elem_SSE_16_get (inb out0 : Buf) (size : Nat)
    (i j : Nat) (hi : i < size) (hj : j < 2) :
    (bshuf_trans_byte_elem_SSE_16 inb out0 size).2 (j * size + i)
      = inb (i * 2 + j) := by
  unfold bshuf_trans_byte_elem_SSE_16
  rcases Nat.lt_or_ge i (size - size % 16) with hlo | hhi
  · rw [bshuf_trans_byte_elem_remainder_miss inb _ size 2 _ (by omega) i j hi hj hlo]
    exact sse_byte_elem_main_get inb out0 size 2 (sse16net inb)
      (fun ii e t he ht => sse16net_get inb ii e t he ht) i j (by omega) hj
  · exact bshuf_trans_byte_elem_remainder_get inb _ size 2 _ (by omega) i j hi hj
      (by omega)

theorem bshuf_trans_byte_elem_SSE_32_get (inb out0 : Buf) (size : Nat)
    (i j : Nat) (hi : i < size) (hj : j < 4) :
    (bshuf_trans_byte_elem_SSE_32 inb out0 size).2 (j * size + i)
      = inb (i * 4 + j) := by
  unfold bshuf_trans_byte_elem_SSE_32
  rcases Nat.lt_or_ge i (size - size % 16) with hlo | hhi
  · rw [bshuf_trans_byte_elem_remainder_miss inb _ size 4 _ (by omega) i j hi hj hlo]
    exact sse_byte_elem_main_get inb out0 size 4 (sse32net inb)
      (fun ii e t he ht => sse32net_get inb ii e t he ht) i j (by omega) hj
  · exact bshuf_trans_byte_elem_remainder_get inb _ size 4 _ (by omega) i j hi hj
      (by omega)

theorem bshuf_trans_byte_elem_SSE_64_get (inb out0 : Buf) (size : Nat)
    (i j : Nat) (hi : i < size) (hj : j < 8) :
    (bshuf_trans_byte_elem_SSE_64 inb out0 size).2 (j * size + i)
      = inb (i * 8 + j) := by
  unfold bshuf_trans_byte_elem_SSE_64
  rcases Nat.lt_or_ge i (size - size % 16) with hlo | hhi
  · rw [bshuf_trans_byte_elem_remainder_miss inb _ size 8 _ (by omega) i j hi hj hlo]
    exact sse_byte_elem_main_get inb out0 size 8 (sse64net inb)
      (fun ii e t he ht => sse64net_get inb ii e t he ht) i j (by omega) hj
  · exact bshuf_trans_byte_elem_remainder_get inb _ size 8 _ (by omega) i j hi hj
      (by omega)

theorem bshuf_trans_byte_elem_SSE_16_fst (inb out0 : Buf) (size : Nat) :
    (bshuf_trans_byte_elem_SSE_16 inb out0 size).1 = ((size * 2 : Nat) : Int) :=
  bshuf_trans_byte_elem_remainder_fst inb _ size 2 _ (by omega)

theorem bshuf_trans_byte_elem_SSE_32_fst (inb out0 : Buf) (size : Nat) :
    (bshuf_trans_byte_elem_SSE_32 inb out0 size).1 = ((size * 4 : Nat) : Int) :=
  bshuf_trans_byte_elem_remainder_fst inb _ size 4 _ (by omega)

theorem bshuf_trans_byte_elem_SSE_64_fst (inb out0 : Buf) (size : Nat) :
    (bshuf_trans_byte_elem_SSE_64 inb out0 size).1 = ((size * 8 : Nat) : Int) :=
  bshuf_trans_byte_elem_remainder_fst inb _ size 8 _ (by omega)

/-- The TRANS_ELEM_TYPE macro (lines 95-111): transpose an `lda x ldb`
array of `T`-byte cells, groups of 8 rows first, then the trailing
`lda % 8` rows. -/
def TRANS_ELEM_TYPE (inb out0 : Buf) (lda ldb T : Nat) : Buf :=
  iterFold (lda % 8) (fun t ob =>
    iterFold ldb (fun jj ob =>
      iterFold T (fun r ob =>
        wr ob ((jj * lda + (lda - lda % 8 + t)) * T + r)
          (inb (((lda - lda % 8 + t) * ldb + jj) * T + r))) ob) ob)
    (iterFold (lda / 8) (fun q ob =>
      iterFold ldb (fun jj ob =>
        iterFold 8 (fun kk ob =>
          iterFold T (fun r ob =>
            wr ob ((jj * lda + 8 * q + kk) * T + r)
              (inb ((8 * q * ldb + kk * ldb + jj) * T + r))) ob) ob) ob) out0)

theorem TRANS_ELEM_TYPE_get (inb out0 : Buf) (lda ldb T : Nat)
    (i jj r : Nat) (hi : i < lda) (hjj : jj < ldb) (hr : r < T) :
    TRANS_ELEM_TYPE inb out0 lda ldb T ((jj * lda + i) * T + r)
      = inb ((i * ldb + jj) * T + r) := by
  unfold TRANS_ELEM_TYPE
  rcases Nat.lt_or_ge i (lda - lda % 8) with hcase | hcase
  · -- main loop hit, tail misses
    refine Eq.trans (iterFold_get_miss _ _ _ _ ?_) ?_
    · intro t b ht
      refine iterFold_get_miss _ _ _ _ ?_
      intro jj' b' hjj'
      refine iterFold_get_miss _ _ _ _ ?_
      intro r' b'' hr'
      refine wr_get_ne _ _ _ _ ?_
      intro hEq
      rcases rowcol_inj hr hr' hEq with ⟨e1, e2⟩
      have hEq3 : jj * lda + i = jj' * lda + (lda - lda % 8 + t) := by omega
      rcases rowcol_inj hi (show lda - lda % 8 + t < lda from by omega) hEq3
        with ⟨e3, e4⟩
      omega
    · refine iterFold_get_hit _ _ _ _ (i / 8) _ (by omega) ?_ ?_
      · intro b
        refine iterFold_get_hit _ _ _ _ jj _ hjj ?_ ?_
        · intro b'
          refine iterFold_get_hit _ _ _ _ (i % 8) _ (by omega) ?_ ?_
          · intro b''
            refine iterFold_get_hit _ _ _ _ r _ hr ?_ ?_
            · intro b3
              rw [wr_get_eq _ _ _ _ (by
                rw [show jj * lda + 8 * (i / 8) + i % 8 = jj * lda + i from by omega])]
              have h1 : 8 * (i / 8) * ldb + i % 8 * ldb + jj = i * ldb + jj := by
                have : 8 * (i / 8) * ldb + i % 8 * ldb
                    = (8 * (i / 8) + i % 8) * ldb := by ring
                rw [this, show 8 * (i / 8) + i % 8 = i from by omega]
              rw [h1]
            · intro p b3 hp hpq
              refine wr_get_ne _ _ _ _ ?_
              intro hEq
              rw [show jj * lda + 8 * (i / 8) + i % 8 = jj * lda + i from by omega]
                at hEq
              omega
          · intro p b'' hp hpq
            refine iterFold_get_miss _ _ _ _ ?_
            intro r' b3 hr'
            refine wr_get_ne _ _ _ _ ?_
            intro hEq
            rcases rowcol_inj hr hr' hEq with ⟨e1, e2⟩
            have hEq3 : jj * lda + i = jj * lda + (8 * (i / 8) + p) := by omega
            have e4 : i = 8 * (i / 8) + p := by omega
            omega
        · intro p b' hp hpq
          refine iterFold_get_miss _ _ _ _ ?_
          intro kk b'' hkk
          refine iterFold_get_miss _ _ _ _ ?_
          intro r' b3 hr'
          refine wr_get_ne _ _ _ _ ?_
          intro hEq
          rcases rowcol_inj hr hr' hEq with ⟨e1, e2⟩
          have hEq3 : jj * lda + i = p * lda + (8 * (i / 8) + kk) := by omega
          rcases rowcol_inj hi (show 8 * (i / 8) + kk < lda from by omega) hEq3
            with ⟨e3, e4⟩
          exact hpq e3.symm
      · intro q b hq hqne
        refine iterFold_get_miss _ _ _ _ ?_
        intro jj' b' hjj'
        refine iterFold_get_miss _ _ _ _ ?_
        intro kk b'' hkk
        refine iterFold_get_miss _ _ _ _ ?_
        intro r' b3 hr'
        refine wr_get_ne _ _ _ _ ?_
        intro hEq
        rcases rowcol_inj hr hr' hEq with ⟨e1, e2⟩
        have hEq3 : jj * lda + i = jj' * lda + (8 * q + kk) := by omega
        rcases rowcol_inj hi (show 8 * q + kk < lda from by omega) hEq3 with ⟨e3, e4⟩
        omega
  · -- tail hit
    refine iterFold_get_hit _ _ _ _ (i - (lda - lda % 8)) _ (by omega) ?_ ?_
    · intro b
      refine iterFold_get_hit _ _ _ _ jj _ hjj ?_ ?_
      · intro b'
        refine iterFold_get_hit _ _ _ _ r _ hr ?_ ?_
        · intro b''
          rw [wr_get_eq _ _ _ _ (by
            rw [show lda - lda % 8 + (i - (lda - lda % 8)) = i from by omega])]
          rw [show lda - lda % 8 + (i - (lda - lda % 8)) = i from by omega]
        · intro p b'' hp hpq
          refine wr_get_ne _ _ _ _ ?_
          intro hEq
          rw [show lda - lda % 8 + (i - (lda - lda % 8)) = i from by omega] at hEq
          omega
      · intro p b' hp hpq
        refine iterFold_get_miss _ _ _ _ ?_
        intro r' b'' hr'
        refine wr_get_ne _ _ _ _ ?_
        intro hEq
        rcases rowcol_inj hr hr' hEq with ⟨e1, e2⟩
        have hEq3 : jj * lda + i
            = p * lda + (lda - lda % 8 + (i - (lda - lda % 8))) := by omega
        rcases rowcol_inj hi (show lda - lda % 8 + (i - (lda - lda % 8)) < lda from
          by omega) hEq3 with ⟨e3, e4⟩
        exact hpq e3.symm
    · intro t b ht htne
      refine iterFold_get_miss _ _ _ _ ?_
      intro jj' b' hjj'
      refine iterFold_get_miss _ _ _ _ ?_
      intro r' b'' hr'
      refine wr_get_ne _ _ _ _ ?_
      intro hEq
      rcases rowcol_inj hr hr' hEq with ⟨e1, e2⟩
      have hEq3 : jj * lda + i = jj' * lda + (lda - lda % 8 + t) := by omega
      rcases rowcol_inj hi (show lda - lda % 8 + t < lda from by omega) hEq3
        with ⟨e3, e4⟩
      omega

/-- bshuf_trans_byte_elem_SSE (lines 475-533): dispatch on the element
size — memcpy for 1, the three networks for 2/4/8, the scalar transpose
for sizes not divisible by 4, and the hierarchical decomposition (typed
chunk transpose, network pass, chunk regather) otherwise. -/
def bshuf_trans_byte_elem_SSE (inb out0 : Buf) (size elem_size : Nat) : Int × Buf :=
  if elem_size = 1 then bshuf_copy inb out0 size elem_size
  else if elem_size = 2 then bshuf_trans_byte_elem_SSE_16 inb out0 size
  else if elem_size = 4 then bshuf_trans_byte_elem_SSE_32 inb out0 size
  else if elem_size = 8 then bshuf_trans_byte_elem_SSE_64 inb out0 size
  else if elem_size % 4 ≠ 0 then bshuf_trans_byte_elem_scal inb out0 size elem_size
  else if elem_size % 8 = 0 then
    ((bshuf_trans_byte_elem_SSE_64
        (TRANS_ELEM_TYPE inb out0 size (elem_size / 8) 8) (fun _ => 0)
        (size * (elem_size / 8))).1,
      (bshuf_trans_elem
        (bshuf_trans_byte_elem_SSE_64
          (TRANS_ELEM_TYPE inb out0 size (elem_size / 8) 8) (fun _ => 0)
          (size * (elem_size / 8))).2
        (TRANS_ELEM_TYPE inb out0 size (elem_size / 8) 8)
        8 (elem_size / 8) size).2)
  else if elem_size % 4 = 0 then
    ((bshuf_trans_byte_elem_SSE_32
        (TRANS_ELEM_TYPE inb out0 size (elem_size / 4) 4) (fun _ => 0)
        (size * (elem_size / 4))).1,
      (bshuf_trans_elem
        (bshuf_trans_byte_elem_SSE_32
          (TRANS_ELEM_TYPE inb out0 size (elem_size / 4) 4) (fun _ => 0)
          (size * (elem_size / 4))).2
        (TRANS_ELEM_TYPE inb out0 size (elem_size / 4) 4)
        4 (elem_size / 4) size).2)
  else
    ((bshuf_trans_byte_elem_SSE_16
        (TRANS_ELEM_TYPE inb out0 size (elem_size / 2) 2) (fun _ => 0)
        (size * (elem_size / 2))).1,
      (bshuf_trans_elem
        (bshuf_trans_byte_elem_SSE_16
          (TRANS_ELEM_TYPE inb out0 size (elem_size / 2) 2) (fun _ => 0)
          (size * (elem_size / 2))).2
        (TRANS_ELEM_TYPE inb out0 size (elem_size / 2) 2)
        2 (elem_size / 2) size).2)

/-- The SSE byte-in-element dispatcher writes exactly the scalar bytes:
byte `j` of element `i` lands at `out[j * size + i]`. -/
theorem bshuf_trans_byte_elem_SSE_get (inb out0 : Buf) (size es : Nat)
    (i j : Nat) (hi : i < size) (hj : j < es) :
    (bshuf_trans_byte_elem_SSE inb out0 size es).2 (j * size + i)
      = inb (i * es + j) := by
  unfold bshuf_trans_byte_elem_SSE
  by_cases h1 : es = 1
  · subst h1
    rw [if_pos rfl]
    have hj0 : j = 0 := by omega
    subst hj0
    show (if 0 * size + i < size * 1 then inb (0 * size + i) else out0 (0 * size + i))
      = inb (i * 1 + 0)
    rw [if_pos (by omega)]
    congr 1
    omega
  rw [if_neg h1]
  by_cases h2 : es = 2
  · subst h2
    rw [if_pos rfl]
    exact bshuf_trans_byte_elem_SSE_16_get inb out0 size i j hi hj
  rw [if_neg h2]
  by_cases h4 : es = 4
  · subst h4
    rw [if_pos rfl]
    exact bshuf_trans_byte_elem_SSE_32_get inb out0 size i j hi hj
  rw [if_neg h4]
  by_cases h8 : es = 8
  · subst h8
    rw [if_pos rfl]
    exact bshuf_trans_byte_elem_SSE_64_get inb out0 size i j hi hj
  rw [if_neg h8]
  by_cases hm4 : es % 4 ≠ 0
  · rw [if_pos hm4]
    exact bshuf_trans_byte_elem_scal_get inb out0 size es i j hi hj
  rw [if_neg hm4]
  by_cases hm8 : es % 8 = 0
  · rw [if_pos hm8]
    dsimp only
    have hes8 : 8 ≤ es := by omega
    have hjd : j = j / 8 * 8 + j % 8 := by omega
    rw [show j * size + i = (j / 8 * 8 + j % 8) * size + i from by rw [← hjd]]
    rw [bshuf_trans_elem_get _ _ 8 (es / 8) size (j % 8) (j / 8) i (by omega)
      (by omega) hi]
    rw [show (j % 8 * (es / 8) + j / 8) * size + i
        = j % 8 * (size * (es / 8)) + (j / 8 * size + i) from by ring]
    rw [bshuf_trans_byte_elem_SSE_64_get _ _ (size * (es / 8)) (j / 8 * size + i)
      (j % 8)
      (by
        have h := rowcol_lt (show j / 8 < es / 8 from by omega) hi
        have hcomm : es / 8 * size = size * (es / 8) := Nat.mul_comm _ _
        omega)
      (by omega)]
    rw [TRANS_ELEM_TYPE_get inb out0 size (es / 8) 8 i (j / 8) (j % 8) hi (by omega)
      (by omega)]
    congr 1
    have h2 : (i * (es / 8) + j / 8) * 8 + j % 8
        = i * (es / 8 * 8) + (j / 8 * 8 + j % 8) := by ring
    rw [h2, show es / 8 * 8 = es from by omega,
      show j / 8 * 8 + j % 8 = j from by omega]
  rw [if_neg hm8]
  by_cases hm4' : es % 4 = 0
  · rw [if_pos hm4']
    dsimp only
    have hes4 : 4 ≤ es := by omega
    have hjd : j = j / 4 * 4 + j % 4 := by omega
    rw [show j * size + i = (j / 4 * 4 + j % 4) * size + i from by rw [← hjd]]
    rw [bshuf_trans_elem_get _ _ 4 (es / 4) size (j % 4) (j / 4) i (by omega)
      (by omega) hi]
    rw [show (j % 4 * (es / 4) + j / 4) * size + i
        = j % 4 * (size * (es / 4)) + (j / 4 * size + i) from by ring]
    rw [bshuf_trans_byte_elem_SSE_32_get _ _ (size * (es / 4)) (j / 4 * size + i)
      (j % 4)
      (by
        have h := rowcol_lt (show j / 4 < es / 4 from by omega) hi
        have hcomm : es / 4 * size = size * (es / 4) := Nat.mul_comm _ _
        omega)
      (by omega)]
    rw [TRANS_ELEM_TYPE_get inb out0 size (es / 4) 4 i (j / 4) (j % 4) hi (by omega)
      (by omega)]
    congr 1
    have h2 : (i * (es / 4) + j / 4) * 4 + j % 4
        = i * (es / 4 * 4) + (j / 4 * 4 + j % 4) := by ring
    rw [h2, show es / 4 * 4 = es from by omega,
      show j / 4 * 4 + j % 4 = j from by omega]
  · exact absurd (by omega : es % 4 = 0) hm4'

theorem bshuf_trans_byte_elem_SSE_fst (inb out0 : Buf) (size es : Nat) :
    (bshuf_trans_byte_elem_SSE inb out0 size es).1 = ((size * es : Nat) : Int) := by
  unfold bshuf_trans_byte_elem_SSE
  by_cases h1 : es = 1
  · subst h1
    rw [if_pos rfl]
    rfl
  rw [if_neg h1]
  by_cases h2 : es = 2
  · subst h2
    rw [if_pos rfl]
    exact bshuf_trans_byte_elem_SSE_16_fst inb out0 size
  rw [if_neg h2]
  by_cases h4 : es = 4
  · subst h4
    rw [if_pos rfl]
    exact bshuf_trans_byte_elem_SSE_32_fst inb out0 size
  rw [if_neg h4]
  by_cases h8 : es = 8
  · subst h8
    rw [if_pos rfl]
    exact bshuf_trans_byte_elem_SSE_64_fst inb out0 size
  rw [if_neg h8]
  by_cases hm4 : es % 4 ≠ 0
  · rw [if_pos hm4]
    exact bshuf_trans_byte_elem_scal_fst inb out0 size es
  rw [if_neg hm4]
  by_cases hm8 : es % 8 = 0
  · rw [if_pos hm8]
    dsimp only
    rw [bshuf_trans_byte_elem_SSE_64_fst]
    congr 1
    have h2 : size * (es / 8) * 8 = size * (es / 8 * 8) := by ring
    rw [h2, show es / 8 * 8 = es from by omega]
  rw [if_neg hm8]
  by_cases hm4' : es % 4 = 0
  · rw [if_pos hm4']
    dsimp only
    rw [bshuf_trans_byte_elem_SSE_32_fst]
    congr 1
    have h2 : size * (es / 4) * 4 = size * (es / 4 * 4) := by ring
    rw [h2, show es / 4 * 4 = es from by omega]
  · exact absurd (by omega : es % 4 = 0) hm4'

end Bitshuffle
